import Mathlib

/-!
Verification development for the `ddir` decision-diagram engine
(`src/node.rs`, `src/bdd.rs`, `src/zdd.rs`, `src/dd.rs`, `src/ddt.rs`).

The Rust code represents diagram nodes as reference-counted values
(`Rc<Vertex>`) whose equality and hash are pointer identity.  We embed
nodes as an inductive tree: a structural subtree of the embedded tree
plays the role of one pointer-identity class.  Pointer sharing in Rust
only removes duplicate entries from the per-call work lists, and every
algorithm below treats duplicate occurrences of a structurally equal
node identically (re-inserting the same key/value pair, or staging a
second copy of an equal merge key, which the merge-by-equal-key pass
collapses to the same id), so the list of all structural subtree
occurrences is a faithful model of `all_nodes()`.  Where the Rust code
iterates a `HashSet` in unspecified order we fix preorder enumeration;
comments at the relevant definitions note where order could matter.

Rust `unwrap`/indexing panics are modelled by `Option`: a `none` result
means the Rust code panics (or, for the fuel-based recursions, that the
fuel ran out).
-/

namespace Ddir

/-- `Vertex`/`Node` from `src/node.rs`: a terminal boolean or a decision
vertex `(var_index, low, high)`. -/
inductive Node where
  | bool : Bool → Node
  | var : Nat → Node → Node → Node
deriving DecidableEq, Repr

namespace Node

/-- Number of vertices of the tree (counting every occurrence). -/
def size : Node → Nat
  | .bool _ => 1
  | .var _ l h => 1 + size l + size h

/-- `is_constant` from `src/node.rs`. -/
def isConstant : Node → Option Bool
  | .bool b => some b
  | .var _ _ _ => none

/-- `var_index` accessor from `src/node.rs`. -/
def varIdx : Node → Option Nat
  | .bool _ => none
  | .var v _ _ => some v

/-- `unified_key` from `src/node.rs`: terminals map to 0/1, a decision
vertex with variable `v` maps to `v + 2`. -/
def unifiedKey : Node → Nat
  | .bool b => cond b 1 0
  | .var v _ _ => v + 2

/-- All subtree occurrences in preorder (`all_nodes` of `src/node.rs`
modulo pointer sharing; see the header comment). -/
def subNodes : Node → List Node
  | .bool b => [.bool b]
  | .var v l h => .var v l h :: (subNodes l ++ subNodes h)

/-- `len` from `src/node.rs`: the number of distinct reachable nodes. -/
def len (t : Node) : Nat := (subNodes t).dedup.length

/-- Decision-tree evaluation of a node under an assignment:
`Var{v, low, high}` represents `ite(x v, high, low)` (spec §3). -/
def evalT (x : Nat → Bool) : Node → Bool
  | .bool b => b
  | .var v l h => cond (x v) (evalT x h) (evalT x l)

/-- Zero-suppressed (family-of-sets) semantics: a terminal `true` is the
family containing only the empty set, and a decision vertex on `v` adds
`v` to every member contributed by its high child. -/
def fam : Node → Finset (Finset ℕ)
  | .bool b => cond b {∅} ∅
  | .var v l h => fam l ∪ (fam h).image (insert v)

/-- `satisfy_one` from `src/node.rs` (lines 157-165): unmemoized
short-circuit disjunction over both children. -/
def satisfyOne : Node → Bool
  | .bool b => b
  | .var _ l h => satisfyOne l || satisfyOne h

/-- `satisfy_all` from `src/node.rs` (lines 166-182).  The Rust code
memoizes per pointer; a memo hit returns the very value the recursion
would recompute for that pointer, so the memo-free recursion below
computes the same count. -/
def satisfyAll : Node → Nat
  | .bool b => cond b 1 0
  | .var _ l h => satisfyAll l + satisfyAll h

/-- Strict variable ordering below a bound: every vertex's variable
exceeds `w` and the children are recursively ordered above it. -/
def ordFrom (w : Nat) : Node → Bool
  | .bool _ => true
  | .var v l h => decide (w < v) && ordFrom v l && ordFrom v h

/-- The standard ordered-diagram invariant, with strictly increasing
variable indices along every root-to-terminal path. -/
def ordered : Node → Bool
  | .bool _ => true
  | .var v l h => ordFrom v l && ordFrom v h

/-- The BDD reduction of a tree, expressed structurally: reduce the
children, and collapse a vertex whose reduced children coincide
(the merge-by-equal-key pass of `BDD::reduce` identifies exactly the
subtrees with equal reduced forms; see `bddReduce_eq_canon`). -/
def bddCanon : Node → Node
  | .bool b => .bool b
  | .var v l h =>
      let cl := bddCanon l
      let ch := bddCanon h
      if cl = ch then cl else .var v cl ch

/-- The ZDD reduction of a tree, expressed structurally: reduce the
children, and collapse a vertex whose reduced high child is the false
terminal. -/
def zddCanon : Node → Node
  | .bool b => .bool b
  | .var v l h =>
      let cl := zddCanon l
      let ch := zddCanon h
      if ch = .bool false then cl else .var v cl ch

/-- A tree is BDD-reduced when no vertex has equal children. -/
def bddReduced : Node → Bool
  | .bool _ => true
  | .var _ l h => decide (l ≠ h) && bddReduced l && bddReduced h

/-- A tree is ZDD-reduced when no vertex has the false terminal as its
high child. -/
def zddReduced : Node → Bool
  | .bool _ => true
  | .var _ l h => decide (h ≠ .bool false) && zddReduced l && zddReduced h

end Node

/-! ### Example fixtures (`example` module of `src/node.rs`) -/

namespace Fixture

open Node

/-- Shorthand for the false terminal (`F!()` in `src/node.rs`). -/
def F : Node := .bool false

/-- Shorthand for the true terminal (`T!()` in `src/node.rs`). -/
def T : Node := .bool true

/-- `example::independent_set` from `src/node.rs` (lines 290-416): the
raw decision tree of the independent sets of the 6-cycle. -/
def independentSet : Node :=
  .var 1
    (.var 2
      (.var 3
        (.var 4
          (.var 5 (.var 6 T T) (.var 6 T F))
          (.var 5 (.var 6 T T) (.var 6 F F)))
        (.var 4
          (.var 5 (.var 6 T T) (.var 6 T F))
          (.var 5 (.var 6 F F) (.var 6 F F))))
      (.var 3
        (.var 4
          (.var 5 (.var 6 T T) (.var 6 T F))
          (.var 5 (.var 6 T T) (.var 6 F F)))
        (.var 4
          (.var 5 (.var 6 F F) (.var 6 F F))
          (.var 5 (.var 6 F F) (.var 6 F F)))))
    (.var 2
      (.var 3
        (.var 4
          (.var 5 (.var 6 T F) (.var 6 T F))
          (.var 5 (.var 6 T F) (.var 6 F F)))
        (.var 4
          (.var 5 (.var 6 T F) (.var 6 T F))
          (.var 5 (.var 6 F F) (.var 6 F F))))
      (.var 3
        (.var 4
          (.var 5 (.var 6 F F) (.var 6 F F))
          (.var 5 (.var 6 F F) (.var 6 F F)))
        (.var 4
          (.var 5 (.var 6 F F) (.var 6 F F))
          (.var 5 (.var 6 F F) (.var 6 F F)))))

/-- `example::majority` from `src/node.rs` (lines 484-490): the raw
decision tree of the 3-variable majority function. -/
def majority : Node :=
  .var 1
    (.var 2 F (.var 3 F T))
    (.var 2 (.var 3 F T) T)

end Fixture

/-! ### The per-call indexer state

Rust keeps `HashMap<Node, usize>` / `HashMap<usize, Node>` keyed by
pointer identity.  We use association lists in which a prepended entry
shadows older ones, matching `HashMap::insert` overwrite semantics. -/

/-- `to_index` association list (`HashMap<Node, usize>`). -/
abbrev ToIdx := List (Node × Nat)

/-- `from_index` / `node` association list (`HashMap<usize, Node>`). -/
abbrev FromIdx := List (Nat × Node)

/-- First-match lookup in an association list. -/
def flook {α β : Type} [DecidableEq α] (k : α) : List (α × β) → Option β
  | [] => none
  | (a, b) :: r => if k = a then some b else flook k r

/-- The initial `to_index` of `BDD::reduce` (`src/bdd.rs` lines 86-95):
every decision vertex gets the placeholder id `1 + 2` from line 90,
terminals their boolean id.  Rust fills it in hash-set iteration order;
all entries for one structural node carry the same value, so the order
is immaterial. -/
def initToIdxB : List Node → ToIdx
  | [] => []
  | n :: r =>
      (n, match n with | .bool b => cond b 1 0 | .var _ _ _ => 1 + 2) :: initToIdxB r

/-- Insertion into a descending-sorted list of levels. -/
def insDesc (a : Nat) : List Nat → List Nat
  | [] => [a]
  | b :: r => if b < a then a :: b :: r else b :: insDesc a r

/-- Descending insertion sort. -/
def sortDesc : List Nat → List Nat
  | [] => []
  | a :: r => insDesc a (sortDesc r)

/-- `vlist.keys().sorted().rev()`: the distinct variable levels of the
tree, in descending order.  (`ZDD::reduce` keys its buckets by
`unified_key`, but the buckets at the terminal keys 0/1 contain only
terminals, which its per-node `match` skips, so only the variable
levels act.) -/
def levelsDesc (t : Node) : List Nat :=
  sortDesc ((t.subNodes.filterMap Node.varIdx).dedup)

/-- The bucket `vlist[v]`: reachable decision vertices at level `v` in
enumeration order. -/
def nodesAt (t : Node) (v : Nat) : List Node :=
  t.subNodes.filter (fun s => decide (s.varIdx = some v))

/-- Phase 1 of a `BDD::reduce` level (`src/bdd.rs` lines 101-118):
eliminate redundant vertices (equal child ids) by aliasing them to the
child's id, and stage the rest under their `(id low, id high)` key.
`none` models the `unwrap` panic on a missing entry. -/
def phase1B : List Node → ToIdx → Option (ToIdx × List ((Nat × Nat) × Node))
  | [], ti => some (ti, [])
  | n :: rest, ti =>
      match n with
      | .bool _ => phase1B rest ti
      | .var v l h =>
          if flook l ti = flook h ti then
            match flook l ti with
            | none => none
            | some i => phase1B rest ((Node.var v l h, i) :: ti)
          else
            match flook l ti, flook h ti with
            | some il, some ih =>
                match phase1B rest ti with
                | none => none
                | some (ti2, q) => some (ti2, ((il, ih), Node.var v l h) :: q)
            | _, _ => none

/-- Lexicographic order on merge keys, as used by
`q.sort_unstable_by_key(|(k, _)| *k)`. -/
def keyLE (a b : Nat × Nat) : Bool :=
  decide (a.1 < b.1) || (decide (a.1 = b.1) && decide (a.2 ≤ b.2))

/-- Insertion into a `keyLE`-sorted staged list. -/
def insKey (e : (Nat × Nat) × Node) :
    List ((Nat × Nat) × Node) → List ((Nat × Nat) × Node)
  | [] => [e]
  | f :: r => if keyLE e.1 f.1 then e :: f :: r else f :: insKey e r

/-- The staged-list sort.  Rust's unstable sort leaves the relative
order of equal keys unspecified; equal keys merge to the same id and
materialize the same vertex, so any order produces the same maps. -/
def sortKey : List ((Nat × Nat) × Node) → List ((Nat × Nat) × Node)
  | [] => []
  | e :: r => insKey e (sortKey r)

/-- Phase 2 of a `BDD::reduce` level (`src/bdd.rs` lines 119-146): walk
the sorted staged list; a key equal to the previous one reuses the
current id, otherwise a fresh id is allocated and one merged vertex is
built from the registered nodes of the children's ids and recorded in
both maps (under both the original vertex and the merged one). -/
def phase2B : List ((Nat × Nat) × Node) → (Nat × Nat) → Nat → ToIdx → FromIdx →
    Option (Nat × ToIdx × FromIdx)
  | [], _, nid, ti, fi => some (nid, ti, fi)
  | (key, n) :: rest, old, nid, ti, fi =>
      if key = old then
        phase2B rest old nid ((n, nid) :: ti) fi
      else
        match n with
        | .bool b =>
            phase2B rest key (nid + 1) ((Node.bool b, nid + 1) :: ti)
              ((nid + 1, Node.bool b) :: fi)
        | .var v l h =>
            match flook l ti, flook h ti with
            | some il, some ih =>
                match flook il fi, flook ih fi with
                | some ln, some hn =>
                    phase2B rest key (nid + 1)
                      ((Node.var v ln hn, nid + 1) :: (Node.var v l h, nid + 1) :: ti)
                      ((nid + 1, Node.var v ln hn) :: fi)
                | _, _ => none
            | _, _ => none

/-- One level of `BDD::reduce`'s main loop (`src/bdd.rs` lines 97-147);
`old_key` starts at `(0, 0)` (line 100), which no staged key can equal
because staged keys have distinct components. -/
def levelStepB (t : Node) (st : ToIdx × FromIdx × Nat) (v : Nat) :
    Option (ToIdx × FromIdx × Nat) :=
  match phase1B (nodesAt t v) st.1 with
  | none => none
  | some (ti1, q) =>
      match phase2B (sortKey q) (0, 0) st.2.2 ti1 st.2.1 with
      | none => none
      | some (nid2, ti2, fi2) => some (ti2, fi2, nid2)

/-- The level pass of `BDD::reduce`: final `to_index`, `from_index`,
and `next_id`. -/
def bddReducePass (t : Node) : Option (ToIdx × FromIdx × Nat) :=
  (levelsDesc t).foldlM (levelStepB t)
    (initToIdxB t.subNodes, [(0, Node.bool false), (1, Node.bool true)], 2)

/-- `BDD::reduce` (`src/bdd.rs` lines 79-153): run the level pass and
pick `from_index[to_index[root]]` (lines 149-152). -/
def bddReduce (t : Node) : Option Node :=
  match bddReducePass t with
  | none => none
  | some (ti, fi, _) =>
      match flook t ti with
      | none => none
      | some i => flook i fi

/-- The enumeration part of `Node::build_indexer` (`src/node.rs` lines
256-266): the counter starts at 1 and is incremented before each
insertion, so reachable nodes get ids 2, 3, ...; a terminal's
`to_index` entry is its boolean id. -/
def buildIdxAux : List Node → Nat → ToIdx → FromIdx → ToIdx × FromIdx
  | [], _, ti, fi => (ti, fi)
  | n :: r, i, ti, fi =>
      buildIdxAux r (i + 1)
        ((n, match n with | .bool b => cond b 1 0 | .var _ _ _ => i + 1) :: ti)
        ((i + 1, n) :: fi)

/-- `Node::build_indexer` (`src/node.rs` lines 245-268): terminal
entries plus the enumeration of the given roots' reachable nodes.  We
fix preorder enumeration; the Rust hash-set order is unspecified (see
the header comment). -/
def buildIdx (ns : List Node) : ToIdx × FromIdx :=
  buildIdxAux ns 1
    [(Node.bool false, 0), (Node.bool true, 1)]
    [(0, Node.bool false), (1, Node.bool true)]

/-- Phase 1 of a `ZDD::reduce` level (`src/zdd.rs` lines 64-79): a
vertex whose high child has id 0 (the false terminal) is redundant and
aliased to its low child's id; the rest are staged. -/
def phase1Z : List Node → ToIdx → Option (ToIdx × List ((Nat × Nat) × Node))
  | [], ti => some (ti, [])
  | n :: rest, ti =>
      match n with
      | .bool _ => phase1Z rest ti
      | .var v l h =>
          match flook h ti with
          | none => none
          | some ih =>
              if ih = 0 then
                match flook l ti with
                | none => none
                | some il => phase1Z rest ((Node.var v l h, il) :: ti)
              else
                match flook l ti with
                | none => none
                | some il =>
                    match phase1Z rest ti with
                    | none => none
                    | some (ti2, q) => some (ti2, ((il, ih), Node.var v l h) :: q)

/-- Phase 2 of a `ZDD::reduce` level (`src/zdd.rs` lines 80-109).
`old` models `old_key`; its initial `(usize::MAX, usize::MAX)` sentinel
can never equal a real key (ids are bounded by the node count), which we
render as `none`. -/
def phase2Z : List ((Nat × Nat) × Node) → Option (Nat × Nat) → Nat → ToIdx → FromIdx →
    Option (Nat × ToIdx × FromIdx)
  | [], _, nid, ti, fi => some (nid, ti, fi)
  | (key, n) :: rest, old, nid, ti, fi =>
      if some key = old then
        phase2Z rest old nid ((n, nid) :: ti) fi
      else
        match n with
        | .bool b =>
            phase2Z rest (some key) (nid + 1) ((Node.bool b, nid + 1) :: ti)
              ((nid + 1, Node.bool b) :: fi)
        | .var v l h =>
            match flook l ti, flook h ti with
            | some il, some ih =>
                match flook il fi, flook ih fi with
                | some ln, some hn =>
                    phase2Z rest (some key) (nid + 1)
                      ((Node.var v ln hn, nid + 1) :: (Node.var v l h, nid + 1) :: ti)
                      ((nid + 1, Node.var v ln hn) :: fi)
                | _, _ => none
            | _, _ => none

/-- One level of `ZDD::reduce`'s main loop (`src/zdd.rs` lines 63-110). -/
def levelStepZ (t : Node) (st : ToIdx × FromIdx × Nat) (v : Nat) :
    Option (ToIdx × FromIdx × Nat) :=
  match phase1Z (nodesAt t v) st.1 with
  | none => none
  | some (ti1, q) =>
      match phase2Z (sortKey q) none st.2.2 ti1 st.2.1 with
      | none => none
      | some (nid2, ti2, fi2) => some (ti2, fi2, nid2)

/-- The level pass of `ZDD::reduce`, starting from `build_indexer`'s
maps (line 56) and `next_id = 2` (line 62). -/
def zddReducePass (t : Node) : Option (ToIdx × FromIdx × Nat) :=
  (levelsDesc t).foldlM (levelStepZ t)
    ((buildIdx t.subNodes).1, (buildIdx t.subNodes).2, 2)

/-- `ZDD::reduce` (`src/zdd.rs` lines 54-113): run the level pass and
pick `node[&next_id]` — the node registered under the most recently
allocated id (line 112), not under the root's id. -/
def zddReduce (t : Node) : Option Node :=
  match zddReducePass t with
  | none => none
  | some (_, fi, nid) => flook nid fi

/-- The indexer built at the top of `BDD::apply` (`src/bdd.rs` lines
155-172): nodes of both operands enumerated with ids 2, 3, ...;
terminals map to their boolean id in `to_index` but still occupy their
enumeration slot in `from_index`. -/
def applyIdxB : List Node → Nat → ToIdx → FromIdx → ToIdx × FromIdx
  | [], _, ti, fi => (ti, fi)
  | n :: r, i, ti, fi =>
      applyIdxB r (i + 1)
        ((n, match n with | .bool b => cond b 1 0 | .var _ _ _ => i + 2) :: ti)
        ((i + 2, n) :: fi)

/-- Both apply indexer maps for a pair of operands. -/
def bddApplyIdx (a b : Node) : ToIdx × FromIdx :=
  applyIdxB (a.subNodes ++ b.subNodes) 0 []
    [(0, Node.bool false), (1, Node.bool true)]

/-- The recursive `aux` of `BDD::apply` (`src/bdd.rs` lines 210-279),
with explicit fuel.  The body never inserts into `merged` or
`evaluation` (the Smalltalk template in the comments does; the Rust
body does not), and its final statement recurses on the very same pair
before returning `u`.  `none` models a panic
(`var_index().unwrap()` on a terminal operand, lines 263-264), a missing
map entry, or exhausted fuel. -/
def bddApplyAux (op : Bool → Bool → Bool) (unit : Bool) (ti : ToIdx) (fi : FromIdx)
    (evaluation : List (Node × Bool)) (merged : List ((Nat × Nat) × Node)) :
    Nat → Node → Node → Option Node
  | 0, _, _ => none
  | fuel + 1, v1, v2 =>
      match flook v1 ti, flook v2 ti with
      | some i1, some i2 =>
          match flook (i1, i2) merged with
          | some n => some n
          | none =>
              let e1 := flook v1 evaluation
              let e2 := flook v2 evaluation
              let value : Option Bool :=
                if e1 = some unit then some unit
                else if e2 = some unit then some unit
                else match e1, e2 with
                     | some a, some b => some (op a b)
                     | _, _ => none
              match value with
              | some b => flook (cond b 1 0) fi
              | none =>
                  let u : Option Node :=
                    match v1, v2 with
                    | .bool a, .bool b => some (.bool (op a b))
                    | .bool _, .var _ _ _ => none
                    | .var _ _ _, .bool _ => none
                    | .var i _ _, .var j _ _ => some (.var (min i j) v1 v2)
                  match u with
                  | none => none
                  | some u0 =>
                      match bddApplyAux op unit ti fi evaluation merged fuel v1 v2 with
                      | none => none
                      | some _ => some u0
      | _, _ => none

/-- `BDD::apply` (`src/bdd.rs` lines 154-290): build the indexer and
call `aux` with empty caches. -/
def bddApply (op : Bool → Bool → Bool) (unit : Bool) (fuel : Nat) (a b : Node) :
    Option Node :=
  bddApplyAux op unit (bddApplyIdx a b).1 (bddApplyIdx a b).2 [] [] fuel a b

/-- Divergence of `BDD::apply`'s `aux` on a pair: no amount of fuel
makes it return. -/
def bddApplyDiverges (op : Bool → Bool → Bool) (unit : Bool) (a b : Node) : Prop :=
  ∀ fuel, bddApply op unit fuel a b = none

/-- `low()`/`high()` cofactor pair; `none` is the `unwrap` panic on a
terminal. -/
def Node.cofactors : Node → Option (Node × Node)
  | .bool _ => none
  | .var _ l h => some (l, h)

/-- Memo cache of `ZDD::apply` (`merged`). -/
abbrev ZMemo := List ((Nat × Nat) × Node)

/-- The recursive `aux` of `ZDD::apply` (`src/zdd.rs` lines 115-169),
with explicit fuel.  `evaluation` is only written under
`if let Some(b) = value` *after* the early return on `Some(value)` has
already fired (lines 134-136 vs 164-166), i.e. never; it is still
modelled faithfully as an argument.  The memo `merged` is threaded and
extended exactly where line 167 inserts. -/
def zddApplyAux (op : Bool → Bool → Bool) (unit : Bool) (ti : ToIdx) (fi : FromIdx) :
    Nat → List (Node × Bool) → ZMemo → Node → Node → Option (ZMemo × Node)
  | 0, _, _, _, _ => none
  | fuel + 1, evaluation, merged, v1, v2 =>
      match flook v1 ti, flook v2 ti with
      | some i1, some i2 =>
          match flook (i1, i2) merged with
          | some n => some (merged, n)
          | none =>
              let e1 := flook v1 evaluation
              let e2 := flook v2 evaluation
              let value : Option Bool :=
                if e1 = some unit then some unit
                else if e2 = some unit then some unit
                else match e1, e2 with
                     | some a, some b => some (op a b)
                     | _, _ => none
              match value with
              | some b => (flook (cond b 1 0) fi).map (fun n => (merged, n))
              | none =>
                  let k1 := v1.unifiedKey
                  let k2 := v2.unifiedKey
                  let key : Nat :=
                    match decide (k1 < 2), decide (k2 < 2) with
                    | false, false => min k1 k2
                    | false, true => k1
                    | true, false => k2
                    | true, true => cond (op (decide (k1 = 1)) (decide (k2 = 1))) 1 0
                  if key < 2 then
                    let u := Node.bool (decide (key = 1))
                    some (((i1, i2), u) :: merged, u)
                  else
                    match (if k1 = key then v1.cofactors else some (v1, v1)),
                          (if k2 = key then v2.cofactors else some (v2, v2)) with
                    | some (l1, h1), some (l2, h2) =>
                        match zddApplyAux op unit ti fi fuel evaluation merged l1 l2 with
                        | none => none
                        | some (m1, lo) =>
                            match zddApplyAux op unit ti fi fuel evaluation m1 h1 h2 with
                            | none => none
                            | some (m2, hi) =>
                                let u := Node.var (key - 2) lo hi
                                some (((i1, i2), u) :: m2, u)
                    | _, _ => none
      | _, _ => none

/-- The raw combination built by `ZDD::apply` before re-canonicalizing:
`aux` on the two roots with `build_indexer(&[a, b])` and empty caches.
The fuel `a.size + b.size` dominates the recursion depth (each
recursive pair is strictly smaller in total size). -/
def zddApplyRaw (op : Bool → Bool → Bool) (unit : Bool) (a b : Node) :
    Option Node :=
  match zddApplyAux op unit (buildIdx (a.subNodes ++ b.subNodes)).1
      (buildIdx (a.subNodes ++ b.subNodes)).2 (a.size + b.size) [] [] a b with
  | none => none
  | some (_, r) => some r

/-- `ZDD::apply` (`src/zdd.rs` lines 114-181): the raw result of `aux`
passed through `ZDD::new_from`, i.e. `ZDD::reduce` (lines 25-32,
174-180). -/
def zddApply (op : Bool → Bool → Bool) (unit : Bool) (a b : Node) : Option Node :=
  match zddApplyRaw op unit a b with
  | none => none
  | some r => zddReduce r

/-- `ZDD::compose` (`src/zdd.rs` lines 182-184) is `unimplemented!()`:
it panics on every call. -/
def zddCompose (_a _b : Node) (_at : Nat) : Option Node := none

/-! ### The graphviz export -/

/-- One record of the graphviz export, with the cosmetic text (colors,
styles, fonts) elided — the spec calls those conventions
non-normative.  Fields are ids (terminals are 0/1, decision vertices
their enumeration id) and, for vertex records, the variable index. -/
inductive GvRecord where
  | termFalse : GvRecord
  | termTrue : GvRecord
  | varRec : Nat → Nat → GvRecord
  | edgeBoth : Nat → Nat → GvRecord
  | edgeLow : Nat → Nat → GvRecord
  | edgeHigh : Nat → Nat → GvRecord
deriving DecidableEq, Repr

/-- Position of a node in the enumeration list. -/
def posOf (s : Node) : List Node → Nat
  | [] => 0
  | a :: r => if s = a then 0 else posOf s r + 1

/-- The id a node is referred to by in the export: terminals use their
boolean id, decision vertices their enumeration position plus 2. -/
def gvId (ns : List Node) (s : Node) : Nat :=
  match s with
  | .bool b => cond b 1 0
  | _ => posOf s ns + 2

/-- Vertex record for one enumerated node (terminals contribute none). -/
def gvVarRecsOf (ns : List Node) (s : Node) : List GvRecord :=
  match s with
  | .bool _ => []
  | .var v _ _ => [.varRec (posOf s ns + 2) v]

/-- Edge records for one enumerated node: a single edge when the low
and high ids coincide, otherwise a low edge and a high edge. -/
def gvEdgesOf (ns : List Node) (s : Node) : List GvRecord :=
  match s with
  | .bool _ => []
  | .var _ l h =>
      let i := posOf s ns + 2
      let j := gvId ns l
      let k := gvId ns h
      if j = k then [.edgeBoth i j] else [.edgeLow i j, .edgeHigh i k]

/-- `write_as_gv` from `src/node.rs` (lines 85-156): a terminal record
is written only when that terminal value is reachable (lines 96-112),
then one record per reachable decision vertex, then the edges. -/
def nodeGv (t : Node) : List GvRecord :=
  (if Node.bool false ∈ t.subNodes.dedup then [GvRecord.termFalse] else []) ++
  (if Node.bool true ∈ t.subNodes.dedup then [GvRecord.termTrue] else []) ++
  t.subNodes.dedup.flatMap (gvVarRecsOf t.subNodes.dedup) ++
  t.subNodes.dedup.flatMap (gvEdgesOf t.subNodes.dedup)

/-- `write_as_gv` from `src/dd.rs` (lines 158-217): both terminal
records are written unconditionally (lines 172-173), then the vertex
records and edges. -/
def ddGv (t : Node) : List GvRecord :=
  [GvRecord.termFalse, GvRecord.termTrue] ++
  t.subNodes.dedup.flatMap (gvVarRecsOf t.subNodes.dedup) ++
  t.subNodes.dedup.flatMap (gvEdgesOf t.subNodes.dedup)

/-! ### Specification-level predicates used by the theorems below -/

/-- Pointwise update of an assignment. -/
def upd (x : Nat → Bool) (w : Nat) (b : Bool) : Nat → Bool :=
  fun n => if n = w then b else x n

/-- A node is settled once its level is no longer pending: terminals
are always settled, a decision vertex once its variable has been
processed (is not in the remaining-levels list `R`). -/
def resolvedIn (R : List Nat) (s : Node) : Prop :=
  ∀ v, s.varIdx = some v → v ∉ R

/-- Bookkeeping about the remaining-levels list: it is strictly
descending, and every level of the tree already processed (not in `R`)
is larger than everything still pending. -/
def levState (t : Node) (R : List Nat) : Prop :=
  List.Pairwise (fun a b => b < a) R ∧
  (∀ w, (∃ s, s ∈ t.subNodes ∧ s.varIdx = some w) → w ∉ R →
    ∀ u, u ∈ R → u < w)

/-- Loop invariant of `BDD::reduce`'s level pass, with `R` the levels
still to process.  `A`: every settled reachable node has an id whose
registered node is its canonical form; `B`: two settled nodes share an
id exactly when their canonical forms coincide; `C`: the terminal
registry; `nid` bounds all settled ids. -/
def BInv (t : Node) (R : List Nat) (ti : ToIdx) (fi : FromIdx) (nid : Nat) : Prop :=
  (∀ s, s ∈ t.subNodes → resolvedIn R s →
    ∃ i, flook s ti = some i ∧ flook i fi = some (Node.bddCanon s) ∧ i ≤ nid) ∧
  (∀ s s', s ∈ t.subNodes → s' ∈ t.subNodes → resolvedIn R s → resolvedIn R s' →
    (flook s ti = flook s' ti ↔ Node.bddCanon s = Node.bddCanon s')) ∧
  flook 0 fi = some (Node.bool false) ∧ flook 1 fi = some (Node.bool true) ∧
  flook 2 fi = none ∧
  2 ≤ nid ∧
  (∀ i n, 3 ≤ i → i ≤ nid → flook i fi = some n →
    ∃ w cl ch, n = Node.var w cl ch ∧ w ∉ R ∧
      ∃ s, s ∈ t.subNodes ∧ resolvedIn R s ∧ Node.bddCanon s = n) ∧
  (∀ i i' n, 3 ≤ i → i ≤ nid → 3 ≤ i' → i' ≤ nid →
    flook i fi = some n → flook i' fi = some n → i = i')

/-- Loop invariant of `ZDD::reduce`'s level pass: the `BInv`-style
components (with the ZDD canonical form), a refinement of `A` recording
that settled ids avoid the slot 2, and `Z2`: the id 2 slot keeps the
enumeration's first node, the root, which the final `node[&next_id]`
pickup returns when no id was ever allocated. -/
def ZInv (t : Node) (R : List Nat) (ti : ToIdx) (fi : FromIdx) (nid : Nat) : Prop :=
  (∀ s, s ∈ t.subNodes → resolvedIn R s →
    ∃ i, flook s ti = some i ∧ flook i fi = some (Node.zddCanon s) ∧ i ≤ nid ∧
      (i = 0 ∨ i = 1 ∨ 3 ≤ i)) ∧
  (∀ s s', s ∈ t.subNodes → s' ∈ t.subNodes → resolvedIn R s → resolvedIn R s' →
    (flook s ti = flook s' ti ↔ Node.zddCanon s = Node.zddCanon s')) ∧
  flook 0 fi = some (Node.bool false) ∧ flook 1 fi = some (Node.bool true) ∧
  2 ≤ nid ∧
  (∀ i n, 3 ≤ i → i ≤ nid → flook i fi = some n →
    ∃ w cl ch, n = Node.var w cl ch ∧ w ∉ R ∧
      ∃ s, s ∈ t.subNodes ∧ resolvedIn R s ∧ Node.zddCanon s = n) ∧
  (∀ i i' n, 3 ≤ i → i ≤ nid → 3 ≤ i' → i' ≤ nid →
    flook i fi = some n → flook i' fi = some n → i = i') ∧
  flook 2 fi = some t

/-- What the final `node[&next_id]` pickup of `ZDD::reduce` sees:
either no id beyond the initial 2 was ever allocated (which happens
exactly while every settled node's canonical form is a terminal), or
the most recently allocated id registers the canonical decision vertex
of a settled node whose canonical top variable is minimal among all
settled canonical decision vertices. -/
def ZPick (t : Node) (R : List Nat) (fi : FromIdx) (nid : Nat) : Prop :=
  ((∀ s, s ∈ t.subNodes → resolvedIn R s →
      ∃ b, Node.zddCanon s = Node.bool b) ∧ nid = 2) ∨
  (∃ s w cl ch, s ∈ t.subNodes ∧ resolvedIn R s ∧
    Node.zddCanon s = Node.var w cl ch ∧
    flook nid fi = some (Node.zddCanon s) ∧
    (∀ s' w' cl' ch', s' ∈ t.subNodes → resolvedIn R s' →
      Node.zddCanon s' = Node.var w' cl' ch' → w ≤ w'))

/-- Injectivity of a node indexer: one id refers to one node. -/
def tinj (ti : ToIdx) : Prop :=
  ∀ s s' k, flook s ti = some k → flook s' ti = some k → s = s'

/-- Safety of a tree under the zero-suppressed collapse: wherever a
vertex's high subtree has the empty family, so does its low subtree,
which makes the collapse transparent to decision-tree evaluation. -/
def zddSafe (t : Node) : Prop :=
  ∀ v l h, Node.var v l h ∈ t.subNodes → Node.fam h = ∅ → Node.fam l = ∅

/-- Soundness of `ZDD::apply`'s memo cache relative to an indexer: a
cached node combines, under `op` and decision-tree evaluation, the two
operands its key refers to, is ordered, respects every variable bound
the two operands respect, and — when `unit` really absorbs and the
operands are reduced — is safe under the zero-suppressed collapse. -/
def memoOK (op : Bool → Bool → Bool) (unit : Bool) (ti : ToIdx) (m : ZMemo) : Prop :=
  ∀ i j n, flook (i, j) m = some n →
    ∃ a b, flook a ti = some i ∧ flook b ti = some j ∧
      (∀ x, Node.evalT x n = op (Node.evalT x a) (Node.evalT x b)) ∧
      Node.ordered n = true ∧
      (∀ w, Node.ordFrom w a = true → Node.ordFrom w b = true →
        Node.ordFrom w n = true) ∧
      ((∀ c, op unit c = unit) → (∀ c, op c unit = unit) →
        Node.zddReduced a = true → Node.zddReduced b = true → zddSafe n)


/-! ### The ordering invariant as the spec words it -/

/-- Non-decreasing variable indices below a bound: the spec formulates
its ordering invariant as "along every root-to-terminal path,
`variable` values are encountered in non-decreasing order".  This
definition follows those words, allowing a child to repeat its
parent's index; compare `Node.ordFrom`, the strict version the
algorithms actually rely on. -/
def Node.ordFromW (w : Nat) : Node → Bool
  | .bool _ => true
  | .var v l h => decide (w ≤ v) && Node.ordFromW v l && Node.ordFromW v h

/-- The spec-worded (weak, non-decreasing) ordering invariant. -/
def Node.orderedW : Node → Bool
  | .bool _ => true
  | .var v l h => Node.ordFromW v l && Node.ordFromW v h


end Ddir

namespace Ddir

open Node

/-! ### Basic facts about the query layer -/

theorem satisfyOne_eq_satisfyAll_pos (t : Node) :
    t.satisfyOne = decide (0 < t.satisfyAll) := by
  induction t with
  | bool b => cases b <;> rfl
  | var v l h ihl ihh =>
      simp only [Node.satisfyOne, Node.satisfyAll, ihl, ihh]
      rcases Nat.eq_zero_or_pos l.satisfyAll with hl | hl <;>
        rcases Nat.eq_zero_or_pos h.satisfyAll with hh | hh <;>
          simp [hl, hh]

/-! ### Structural lemmas -/

theorem subNodes_self (t : Node) : t ∈ t.subNodes := by
  cases t <;> simp [Node.subNodes]

theorem size_pos (t : Node) : 0 < t.size := by
  cases t <;> simp [Node.size]

theorem mem_subNodes_trans {t s u : Node} (hu : u ∈ s.subNodes)
    (hs : s ∈ t.subNodes) : u ∈ t.subNodes := by
  induction t with
  | bool b =>
      simp [Node.subNodes] at hs
      subst hs
      exact hu
  | var v l h ihl ihh =>
      simp only [Node.subNodes, List.mem_cons, List.mem_append] at hs ⊢
      rcases hs with h1 | h2 | h3
      · subst h1
        simpa [Node.subNodes] using hu
      · exact Or.inr (Or.inl (ihl h2))
      · exact Or.inr (Or.inr (ihh h3))

theorem children_mem_subNodes {t : Node} {v : Nat} {l h : Node}
    (hm : Node.var v l h ∈ t.subNodes) :
    l ∈ t.subNodes ∧ h ∈ t.subNodes := by
  have hl : l ∈ (Node.var v l h).subNodes := by
    simp only [Node.subNodes, List.mem_cons, List.mem_append]
    exact Or.inr (Or.inl (subNodes_self l))
  have hh : h ∈ (Node.var v l h).subNodes := by
    simp only [Node.subNodes, List.mem_cons, List.mem_append]
    exact Or.inr (Or.inr (subNodes_self h))
  exact ⟨mem_subNodes_trans hl hm, mem_subNodes_trans hh hm⟩

/-! ### Ordering lemmas -/

theorem ordFrom_mono {w w' : Nat} {t : Node} (hw : w' ≤ w)
    (h : Node.ordFrom w t = true) : Node.ordFrom w' t = true := by
  cases t with
  | bool b => rfl
  | var v l h' =>
      simp only [Node.ordFrom, Bool.and_eq_true, decide_eq_true_eq] at *
      exact ⟨⟨Nat.lt_of_le_of_lt hw h.1.1, h.1.2⟩, h.2⟩

theorem ordered_of_ordFrom {w : Nat} {t : Node}
    (h : Node.ordFrom w t = true) : Node.ordered t = true := by
  cases t with
  | bool b => rfl
  | var v l h' =>
      simp only [Node.ordFrom, Node.ordered, Bool.and_eq_true] at *
      exact ⟨h.1.2, h.2⟩

theorem ordered_sub {t s : Node} (hm : s ∈ t.subNodes)
    (h : Node.ordered t = true) : Node.ordered s = true := by
  induction t with
  | bool b =>
      simp [Node.subNodes] at hm
      subst hm
      rfl
  | var v l h' ihl ihh =>
      simp only [Node.subNodes, List.mem_cons, List.mem_append] at hm
      simp only [Node.ordered, Bool.and_eq_true] at h
      rcases hm with h1 | h2 | h3
      · subst h1
        simp [Node.ordered, h.1, h.2]
      · exact ihl h2 (ordered_of_ordFrom h.1)
      · exact ihh h3 (ordered_of_ordFrom h.2)

/-! ### Properties of the structural canonical forms -/

theorem evalT_bddCanon (x : Nat → Bool) (t : Node) :
    Node.evalT x (Node.bddCanon t) = Node.evalT x t := by
  induction t with
  | bool b => rfl
  | var v l h ihl ihh =>
      simp only [Node.bddCanon]
      by_cases hc : Node.bddCanon l = Node.bddCanon h
      · rw [if_pos hc]
        have hlh : Node.evalT x l = Node.evalT x h := by
          rw [← ihl, ← ihh, hc]
        simp only [Node.evalT]
        cases hxv : x v <;> simp [ihl, hlh]
      · simp [if_neg hc, Node.evalT, ihl, ihh]

theorem fam_zddCanon (t : Node) : Node.fam (Node.zddCanon t) = Node.fam t := by
  induction t with
  | bool b => rfl
  | var v l h ihl ihh =>
      simp only [Node.zddCanon]
      by_cases hc : Node.zddCanon h = Node.bool false
      · have hfh : Node.fam h = ∅ := by
          rw [← ihh, hc]
          rfl
        simp [if_pos hc, Node.fam, ihl, hfh]
      · simp [if_neg hc, Node.fam, ihl, ihh]

theorem bddReduced_bddCanon (t : Node) :
    Node.bddReduced (Node.bddCanon t) = true := by
  induction t with
  | bool b => rfl
  | var v l h ihl ihh =>
      simp only [Node.bddCanon]
      by_cases hc : Node.bddCanon l = Node.bddCanon h
      · simpa [hc] using ihh
      · simp [hc, Node.bddReduced, ihl, ihh]

theorem zddReduced_zddCanon (t : Node) :
    Node.zddReduced (Node.zddCanon t) = true := by
  induction t with
  | bool b => rfl
  | var v l h ihl ihh =>
      simp only [Node.zddCanon]
      by_cases hc : Node.zddCanon h = Node.bool false
      · simpa [hc] using ihl
      · simp [hc, Node.zddReduced, ihl, ihh]

theorem ordFrom_bddCanon {w : Nat} {t : Node} (h : Node.ordFrom w t = true) :
    Node.ordFrom w (Node.bddCanon t) = true := by
  induction t generalizing w with
  | bool b => rfl
  | var v l h' ihl ihh =>
      simp only [Node.ordFrom, Bool.and_eq_true, decide_eq_true_eq] at h
      simp only [Node.bddCanon]
      by_cases hc : Node.bddCanon l = Node.bddCanon h'
      · rw [if_pos hc]
        exact ordFrom_mono (Nat.le_of_lt h.1.1) (ihl h.1.2)
      · simp only [if_neg hc, Node.ordFrom, Bool.and_eq_true, decide_eq_true_eq]
        exact ⟨⟨h.1.1, ihl h.1.2⟩, ihh h.2⟩

theorem ordered_bddCanon {t : Node} (h : Node.ordered t = true) :
    Node.ordered (Node.bddCanon t) = true := by
  cases t with
  | bool b => rfl
  | var v l h' =>
      simp only [Node.ordered, Bool.and_eq_true] at h
      simp only [Node.bddCanon]
      by_cases hc : Node.bddCanon l = Node.bddCanon h'
      · rw [if_pos hc]
        exact ordered_of_ordFrom (ordFrom_bddCanon h.1)
      · simp only [if_neg hc, Node.ordered, Bool.and_eq_true]
        exact ⟨ordFrom_bddCanon h.1, ordFrom_bddCanon h.2⟩

theorem ordFrom_zddCanon {w : Nat} {t : Node} (h : Node.ordFrom w t = true) :
    Node.ordFrom w (Node.zddCanon t) = true := by
  induction t generalizing w with
  | bool b => rfl
  | var v l h' ihl ihh =>
      simp only [Node.ordFrom, Bool.and_eq_true, decide_eq_true_eq] at h
      simp only [Node.zddCanon]
      by_cases hc : Node.zddCanon h' = Node.bool false
      · rw [if_pos hc]
        exact ordFrom_mono (Nat.le_of_lt h.1.1) (ihl h.1.2)
      · simp only [if_neg hc, Node.ordFrom, Bool.and_eq_true, decide_eq_true_eq]
        exact ⟨⟨h.1.1, ihl h.1.2⟩, ihh h.2⟩

theorem ordered_zddCanon {t : Node} (h : Node.ordered t = true) :
    Node.ordered (Node.zddCanon t) = true := by
  cases t with
  | bool b => rfl
  | var v l h' =>
      simp only [Node.ordered, Bool.and_eq_true] at h
      simp only [Node.zddCanon]
      by_cases hc : Node.zddCanon h' = Node.bool false
      · rw [if_pos hc]
        exact ordered_of_ordFrom (ordFrom_zddCanon h.1)
      · simp only [if_neg hc, Node.ordered, Bool.and_eq_true]
        exact ⟨ordFrom_zddCanon h.1, ordFrom_zddCanon h.2⟩

theorem bddCanon_idem (t : Node) :
    Node.bddCanon (Node.bddCanon t) = Node.bddCanon t := by
  induction t with
  | bool b => rfl
  | var v l h ihl ihh =>
      simp only [Node.bddCanon]
      by_cases hc : Node.bddCanon l = Node.bddCanon h
      · simp [hc, ihh]
      · simp [hc, Node.bddCanon, ihl, ihh]

theorem zddCanon_idem (t : Node) :
    Node.zddCanon (Node.zddCanon t) = Node.zddCanon t := by
  induction t with
  | bool b => rfl
  | var v l h ihl ihh =>
      simp only [Node.zddCanon]
      by_cases hc : Node.zddCanon h = Node.bool false
      · simp [hc, ihl]
      · simp only [if_neg hc, Node.zddCanon, ihl, ihh, if_neg hc]

/-! ### Assignment-update lemmas -/

theorem evalT_upd_deep {t : Node} : ∀ {w u : Nat}, Node.ordFrom w t = true →
    u ≤ w → ∀ (x : Nat → Bool) (b : Bool),
    Node.evalT (upd x u b) t = Node.evalT x t := by
  induction t with
  | bool c => intro w u _ _ x b; rfl
  | var v l h ihl ihh =>
      intro w u hord hu x b
      simp only [Node.ordFrom, Bool.and_eq_true, decide_eq_true_eq] at hord
      have hv : v ≠ u := by omega
      simp only [Node.evalT, upd, if_neg hv]
      rw [ihl hord.1.2 (by omega) x b, ihh hord.2 (by omega) x b]

theorem evalT_upd_node {u v : Nat} {l h : Node}
    (hord : Node.ordered (Node.var v l h) = true) (hu : u < v)
    (x : Nat → Bool) (b : Bool) :
    Node.evalT (upd x u b) (Node.var v l h) = Node.evalT x (Node.var v l h) := by
  simp only [Node.ordered, Bool.and_eq_true] at hord
  have hv : v ≠ u := by omega
  simp only [Node.evalT, upd, if_neg hv]
  rw [evalT_upd_deep hord.1 (Nat.le_of_lt hu) x b,
    evalT_upd_deep hord.2 (Nat.le_of_lt hu) x b]

theorem evalT_cof_false {v : Nat} {l h : Node}
    (hl : Node.ordFrom v l = true) (x : Nat → Bool) :
    Node.evalT (upd x v false) (Node.var v l h) = Node.evalT x l := by
  simp only [Node.evalT, upd, if_pos rfl, cond_false]
  exact evalT_upd_deep hl (Nat.le_refl v) x false

theorem evalT_cof_true {v : Nat} {l h : Node}
    (hh : Node.ordFrom v h = true) (x : Nat → Bool) :
    Node.evalT (upd x v true) (Node.var v l h) = Node.evalT x h := by
  simp only [Node.evalT, upd, if_pos rfl, cond_true]
  exact evalT_upd_deep hh (Nat.le_refl v) x true

/-! ### Canonicity: reduced ordered diagrams are semantically unique -/

theorem bdd_canonical_unique : ∀ n (a b : Node), a.size + b.size ≤ n →
    Node.ordered a = true → Node.ordered b = true →
    Node.bddReduced a = true → Node.bddReduced b = true →
    (∀ x, Node.evalT x a = Node.evalT x b) → a = b := by
  intro n
  induction n with
  | zero =>
      intro a b hsz _ _ _ _ _
      have := size_pos a
      have := size_pos b
      omega
  | succ n ih =>
      intro a b hsz ha hb hra hrb hev
      cases a with
      | bool p =>
          cases b with
          | bool q =>
              have := hev (fun _ => false)
              simp only [Node.evalT] at this
              rw [this]
          | var v2 l2 h2 =>
              exfalso
              simp only [Node.ordered, Bool.and_eq_true] at hb
              simp only [Node.bddReduced, Bool.and_eq_true, decide_eq_true_eq] at hrb
              have hne : ¬ (∀ x, Node.evalT x l2 = Node.evalT x h2) := by
                intro hall
                apply hrb.1.1
                apply ih l2 h2 ?_ (ordered_of_ordFrom hb.1) (ordered_of_ordFrom hb.2)
                    hrb.1.2 hrb.2 hall
                simp only [Node.size] at hsz
                omega
              rcases not_forall.mp hne with ⟨x0, hx0⟩
              have h1 : Node.evalT x0 l2 = p := by
                have hcb := hev (upd x0 v2 false)
                rw [evalT_cof_false hb.1 x0] at hcb
                simpa using hcb.symm
              have h2' : Node.evalT x0 h2 = p := by
                have hcb := hev (upd x0 v2 true)
                rw [evalT_cof_true hb.2 x0] at hcb
                simpa using hcb.symm
              exact hx0 (h1.trans h2'.symm)
      | var v1 l1 h1 =>
          cases b with
          | bool q =>
              exfalso
              simp only [Node.ordered, Bool.and_eq_true] at ha
              simp only [Node.bddReduced, Bool.and_eq_true, decide_eq_true_eq] at hra
              have hne : ¬ (∀ x, Node.evalT x l1 = Node.evalT x h1) := by
                intro hall
                apply hra.1.1
                apply ih l1 h1 ?_ (ordered_of_ordFrom ha.1) (ordered_of_ordFrom ha.2)
                    hra.1.2 hra.2 hall
                simp only [Node.size] at hsz
                omega
              rcases not_forall.mp hne with ⟨x0, hx0⟩
              have h1' : Node.evalT x0 l1 = q := by
                have hcb := hev (upd x0 v1 false)
                rw [evalT_cof_false ha.1 x0] at hcb
                simpa using hcb
              have h2' : Node.evalT x0 h1 = q := by
                have hcb := hev (upd x0 v1 true)
                rw [evalT_cof_true ha.2 x0] at hcb
                simpa using hcb
              exact hx0 (h1'.trans h2'.symm)
          | var v2 l2 h2 =>
              simp only [Node.ordered, Bool.and_eq_true] at ha hb
              simp only [Node.bddReduced, Bool.and_eq_true, decide_eq_true_eq] at hra hrb
              rcases Nat.lt_trichotomy v1 v2 with hv | hv | hv
              · exfalso
                have heq : ∀ x, Node.evalT x l1 = Node.evalT x h1 := by
                  intro x
                  have hbord : Node.ordered (Node.var v2 l2 h2) = true := by
                    simp [Node.ordered, hb.1, hb.2]
                  calc Node.evalT x l1
                      = Node.evalT (upd x v1 false) (Node.var v1 l1 h1) :=
                        (evalT_cof_false ha.1 x).symm
                    _ = Node.evalT (upd x v1 false) (Node.var v2 l2 h2) :=
                        hev (upd x v1 false)
                    _ = Node.evalT x (Node.var v2 l2 h2) :=
                        evalT_upd_node hbord hv x false
                    _ = Node.evalT (upd x v1 true) (Node.var v2 l2 h2) :=
                        (evalT_upd_node hbord hv x true).symm
                    _ = Node.evalT (upd x v1 true) (Node.var v1 l1 h1) :=
                        (hev (upd x v1 true)).symm
                    _ = Node.evalT x h1 := evalT_cof_true ha.2 x
                apply hra.1.1
                apply ih l1 h1 ?_ (ordered_of_ordFrom ha.1) (ordered_of_ordFrom ha.2)
                    hra.1.2 hra.2 heq
                simp only [Node.size] at hsz
                omega
              · subst hv
                have hl : ∀ x, Node.evalT x l1 = Node.evalT x l2 := by
                  intro x
                  rw [← evalT_cof_false ha.1 x, hev (upd x v1 false),
                    evalT_cof_false hb.1 x]
                have hh : ∀ x, Node.evalT x h1 = Node.evalT x h2 := by
                  intro x
                  rw [← evalT_cof_true ha.2 x, hev (upd x v1 true),
                    evalT_cof_true hb.2 x]
                have hsz' : l1.size + l2.size ≤ n ∧ h1.size + h2.size ≤ n := by
                  have := size_pos l1
                  have := size_pos l2
                  have := size_pos h1
                  have := size_pos h2
                  simp only [Node.size] at hsz
                  omega
                have el : l1 = l2 := ih l1 l2 hsz'.1 (ordered_of_ordFrom ha.1)
                  (ordered_of_ordFrom hb.1) hra.1.2 hrb.1.2 hl
                have eh : h1 = h2 := ih h1 h2 hsz'.2 (ordered_of_ordFrom ha.2)
                  (ordered_of_ordFrom hb.2) hra.2 hrb.2 hh
                rw [el, eh]
              · exfalso
                have heq : ∀ x, Node.evalT x l2 = Node.evalT x h2 := by
                  intro x
                  have haord : Node.ordered (Node.var v1 l1 h1) = true := by
                    simp [Node.ordered, ha.1, ha.2]
                  calc Node.evalT x l2
                      = Node.evalT (upd x v2 false) (Node.var v2 l2 h2) :=
                        (evalT_cof_false hb.1 x).symm
                    _ = Node.evalT (upd x v2 false) (Node.var v1 l1 h1) :=
                        (hev (upd x v2 false)).symm
                    _ = Node.evalT x (Node.var v1 l1 h1) :=
                        evalT_upd_node haord hv x false
                    _ = Node.evalT (upd x v2 true) (Node.var v1 l1 h1) :=
                        (evalT_upd_node haord hv x true).symm
                    _ = Node.evalT (upd x v2 true) (Node.var v2 l2 h2) :=
                        hev (upd x v2 true)
                    _ = Node.evalT x h2 := evalT_cof_true hb.2 x
                apply hrb.1.1
                apply ih l2 h2 ?_ (ordered_of_ordFrom hb.1) (ordered_of_ordFrom hb.2)
                    hrb.1.2 hrb.2 heq
                simp only [Node.size] at hsz
                omega

/-! ### Canonicity for the zero-suppressed semantics -/

theorem fam_elem_gt {t : Node} : ∀ {w : Nat}, Node.ordFrom w t = true →
    ∀ s ∈ Node.fam t, ∀ e ∈ s, w < e := by
  induction t with
  | bool b =>
      intro w _ s hs e he
      cases b with
      | false => simp [Node.fam] at hs
      | true =>
          simp [Node.fam] at hs
          subst hs
          simp at he
  | var v l h ihl ihh =>
      intro w hord s hs e he
      simp only [Node.ordFrom, Bool.and_eq_true, decide_eq_true_eq] at hord
      simp only [Node.fam, Finset.mem_union, Finset.mem_image] at hs
      rcases hs with hs | ⟨s0, hs0, rfl⟩
      · exact Nat.lt_trans hord.1.1 (ihl hord.1.2 s hs e he)
      · rcases Finset.mem_insert.mp he with rfl | he0
        · exact hord.1.1
        · exact Nat.lt_trans hord.1.1 (ihh hord.2 s0 hs0 e he0)

theorem fam_nonempty_of_zddReduced {t : Node} (hr : Node.zddReduced t = true)
    (hne : t ≠ Node.bool false) : (Node.fam t).Nonempty := by
  induction t with
  | bool b =>
      cases b with
      | false => exact absurd rfl hne
      | true => exact ⟨∅, by simp [Node.fam]⟩
  | var v l h ihl ihh =>
      simp only [Node.zddReduced, Bool.and_eq_true, decide_eq_true_eq] at hr
      rcases ihh hr.2 hr.1.1 with ⟨s, hs⟩
      exact ⟨insert v s, by
        simp only [Node.fam, Finset.mem_union, Finset.mem_image]
        exact Or.inr ⟨s, hs, rfl⟩⟩

theorem fam_filter_not_mem {v : Nat} {l h : Node}
    (hl : Node.ordFrom v l = true) :
    (Node.fam (Node.var v l h)).filter (fun s => v ∉ s) = Node.fam l := by
  ext s
  simp only [Finset.mem_filter, Node.fam, Finset.mem_union, Finset.mem_image]
  constructor
  · rintro ⟨hs | ⟨s0, _, rfl⟩, hv⟩
    · exact hs
    · exact absurd (Finset.mem_insert_self v s0) hv
  · intro hs
    refine ⟨Or.inl hs, fun hv => ?_⟩
    exact Nat.lt_irrefl v (fam_elem_gt hl s hs v hv)

theorem fam_filter_mem {v : Nat} {l h : Node}
    (hl : Node.ordFrom v l = true) (hh : Node.ordFrom v h = true) :
    ((Node.fam (Node.var v l h)).filter (fun s => v ∈ s)).image
      (fun s => Finset.erase s v) = Node.fam h := by
  ext s
  simp only [Finset.mem_image, Finset.mem_filter, Node.fam, Finset.mem_union]
  constructor
  · rintro ⟨s', ⟨hs' | hs', hv⟩, rfl⟩
    · exact absurd (fam_elem_gt hl s' hs' v hv) (Nat.lt_irrefl v)
    · rcases hs' with ⟨s0, hs0, rfl⟩
      have hv0 : v ∉ s0 := fun hm =>
        Nat.lt_irrefl v (fam_elem_gt hh s0 hs0 v hm)
      rw [Finset.erase_insert hv0]
      exact hs0
  · intro hs
    refine ⟨insert v s, ⟨Or.inr ⟨s, hs, rfl⟩,
      Finset.mem_insert_self v s⟩, ?_⟩
    have hv0 : v ∉ s := fun hm => Nat.lt_irrefl v (fam_elem_gt hh s hs v hm)
    exact Finset.erase_insert hv0

theorem zdd_canonical_unique : ∀ n (a b : Node), a.size + b.size ≤ n →
    Node.ordered a = true → Node.ordered b = true →
    Node.zddReduced a = true → Node.zddReduced b = true →
    Node.fam a = Node.fam b → a = b := by
  intro n
  induction n with
  | zero =>
      intro a b hsz _ _ _ _ _
      have := size_pos a
      have := size_pos b
      omega
  | succ n ih =>
      intro a b hsz ha hb hra hrb hfam
      cases a with
      | bool p =>
          cases b with
          | bool q =>
              cases p <;> cases q <;>
                simp only [Node.fam, cond_true, cond_false] at hfam <;>
                first
                  | rfl
                  | exact absurd hfam (by simp)
                  | exact absurd hfam.symm (by simp)
          | var v2 l2 h2 =>
              exfalso
              simp only [Node.zddReduced, Bool.and_eq_true, decide_eq_true_eq] at hrb
              rcases fam_nonempty_of_zddReduced hrb.2 hrb.1.1 with ⟨s, hs⟩
              have hmem : insert v2 s ∈ Node.fam (Node.bool p) := by
                rw [hfam]
                simp only [Node.fam, Finset.mem_union, Finset.mem_image]
                exact Or.inr ⟨s, hs, rfl⟩
              cases p with
              | false => simp [Node.fam] at hmem
              | true => simp [Node.fam] at hmem
      | var v1 l1 h1 =>
          cases b with
          | bool q =>
              exfalso
              simp only [Node.zddReduced, Bool.and_eq_true, decide_eq_true_eq] at hra
              rcases fam_nonempty_of_zddReduced hra.2 hra.1.1 with ⟨s, hs⟩
              have hmem : insert v1 s ∈ Node.fam (Node.bool q) := by
                rw [← hfam]
                simp only [Node.fam, Finset.mem_union, Finset.mem_image]
                exact Or.inr ⟨s, hs, rfl⟩
              cases q with
              | false => simp [Node.fam] at hmem
              | true => simp [Node.fam] at hmem
          | var v2 l2 h2 =>
              simp only [Node.ordered, Bool.and_eq_true] at ha hb
              simp only [Node.zddReduced, Bool.and_eq_true, decide_eq_true_eq]
                at hra hrb
              have hub : ∀ s ∈ Node.fam (Node.var v2 l2 h2), ∀ e ∈ s, v2 ≤ e := by
                intro s hs e he
                simp only [Node.fam, Finset.mem_union, Finset.mem_image] at hs
                rcases hs with hs | ⟨s0, hs0, rfl⟩
                · exact Nat.le_of_lt (fam_elem_gt hb.1 s hs e he)
                · rcases Finset.mem_insert.mp he with rfl | he0
                  · exact Nat.le_refl e
                  · exact Nat.le_of_lt (fam_elem_gt hb.2 s0 hs0 e he0)
              have hua : ∀ s ∈ Node.fam (Node.var v1 l1 h1), ∀ e ∈ s, v1 ≤ e := by
                intro s hs e he
                simp only [Node.fam, Finset.mem_union, Finset.mem_image] at hs
                rcases hs with hs | ⟨s0, hs0, rfl⟩
                · exact Nat.le_of_lt (fam_elem_gt ha.1 s hs e he)
                · rcases Finset.mem_insert.mp he with rfl | he0
                  · exact Nat.le_refl e
                  · exact Nat.le_of_lt (fam_elem_gt ha.2 s0 hs0 e he0)
              have hv : v1 = v2 := by
                rcases fam_nonempty_of_zddReduced hra.2 hra.1.1 with ⟨s1, hs1⟩
                rcases fam_nonempty_of_zddReduced hrb.2 hrb.1.1 with ⟨s2, hs2⟩
                have hm1 : insert v1 s1 ∈ Node.fam (Node.var v2 l2 h2) := by
                  rw [← hfam]
                  simp only [Node.fam, Finset.mem_union, Finset.mem_image]
                  exact Or.inr ⟨s1, hs1, rfl⟩
                have hm2 : insert v2 s2 ∈ Node.fam (Node.var v1 l1 h1) := by
                  rw [hfam]
                  simp only [Node.fam, Finset.mem_union, Finset.mem_image]
                  exact Or.inr ⟨s2, hs2, rfl⟩
                have h12 := hub (insert v1 s1) hm1 v1 (Finset.mem_insert_self v1 s1)
                have h21 := hua (insert v2 s2) hm2 v2 (Finset.mem_insert_self v2 s2)
                omega
              subst hv
              have hfl : Node.fam l1 = Node.fam l2 := by
                rw [← fam_filter_not_mem (h := h1) ha.1,
                  ← fam_filter_not_mem (h := h2) hb.1, hfam]
              have hfh : Node.fam h1 = Node.fam h2 := by
                rw [← fam_filter_mem ha.1 ha.2, ← fam_filter_mem hb.1 hb.2, hfam]
              have hsz2 : l1.size + l2.size ≤ n ∧ h1.size + h2.size ≤ n := by
                have := size_pos l1
                have := size_pos l2
                have := size_pos h1
                have := size_pos h2
                simp only [Node.size] at hsz
                omega
              have el : l1 = l2 := ih l1 l2 hsz2.1 (ordered_of_ordFrom ha.1)
                (ordered_of_ordFrom hb.1) hra.1.2 hrb.1.2 hfl
              have eh : h1 = h2 := ih h1 h2 hsz2.2 (ordered_of_ordFrom ha.2)
                (ordered_of_ordFrom hb.2) hra.2 hrb.2 hfh
              rw [el, eh]

/-! ### Shape lemmas for the canonical forms -/

theorem bddCanon_var_ne {v : Nat} {l h : Node}
    (hne : Node.bddCanon l ≠ Node.bddCanon h) :
    Node.bddCanon (Node.var v l h) =
      Node.var v (Node.bddCanon l) (Node.bddCanon h) := by
  simp [Node.bddCanon, if_neg hne]

theorem zddCanon_var_ne {v : Nat} {l h : Node}
    (hne : Node.zddCanon h ≠ Node.bool false) :
    Node.zddCanon (Node.var v l h) =
      Node.var v (Node.zddCanon l) (Node.zddCanon h) := by
  simp [Node.zddCanon, if_neg hne]

theorem bddCanon_var_eq {v : Nat} {l h : Node}
    (heq : Node.bddCanon l = Node.bddCanon h) :
    Node.bddCanon (Node.var v l h) = Node.bddCanon l := by
  simp [Node.bddCanon, if_pos heq]

theorem zddCanon_var_eq {v : Nat} {l h : Node}
    (heq : Node.zddCanon h = Node.bool false) :
    Node.zddCanon (Node.var v l h) = Node.zddCanon l := by
  simp [Node.zddCanon, if_pos heq]

theorem ordFrom_of_lt {s : Node} {v w : Nat} (hs : Node.ordered s = true)
    (hw : s.varIdx = some w) (hv : v < w) : Node.ordFrom v s = true := by
  cases s with
  | bool b => rfl
  | var u l h =>
      simp only [Node.varIdx, Option.some.injEq] at hw
      subst hw
      simp only [Node.ordered, Bool.and_eq_true] at hs
      simp only [Node.ordFrom, Bool.and_eq_true, decide_eq_true_eq]
      exact ⟨⟨hv, hs.1⟩, hs.2⟩

/-- Collapsing never lowers the top variable of a BDD canonical form:
below the bound `u`, the canonical form's top variable stays below it. -/
theorem bddCanon_topvar_gt {s : Node} : ∀ {u w : Nat} {cl ch : Node},
    Node.ordFrom u s = true →
    Node.bddCanon s = Node.var w cl ch → u < w := by
  induction s with
  | bool b =>
      intro u w cl ch _ hc
      simp [Node.bddCanon] at hc
  | var v l h ihl ihh =>
      intro u w cl ch hord hc
      simp only [Node.ordFrom, Bool.and_eq_true, decide_eq_true_eq] at hord
      by_cases he : Node.bddCanon l = Node.bddCanon h
      · rw [bddCanon_var_eq he] at hc
        exact Nat.lt_trans hord.1.1 (ihl hord.1.2 hc)
      · rw [bddCanon_var_ne he] at hc
        cases hc
        exact hord.1.1

/-- ZDD analogue of `bddCanon_topvar_gt`. -/
theorem zddCanon_topvar_gt {s : Node} : ∀ {u w : Nat} {cl ch : Node},
    Node.ordFrom u s = true →
    Node.zddCanon s = Node.var w cl ch → u < w := by
  induction s with
  | bool b =>
      intro u w cl ch _ hc
      simp [Node.zddCanon] at hc
  | var v l h ihl ihh =>
      intro u w cl ch hord hc
      simp only [Node.ordFrom, Bool.and_eq_true, decide_eq_true_eq] at hord
      by_cases he : Node.zddCanon h = Node.bool false
      · rw [zddCanon_var_eq he] at hc
        exact Nat.lt_trans hord.1.1 (ihl hord.1.2 hc)
      · rw [zddCanon_var_ne he] at hc
        cases hc
        exact hord.1.1

/-- The children of a reachable level-`v` vertex live at deeper levels. -/
theorem child_varIdx_gt {t : Node} {v : Nat} {l h : Node}
    (hord : Node.ordered t = true) (hm : Node.var v l h ∈ t.subNodes) :
    (∀ w, l.varIdx = some w → v < w) ∧ (∀ w, h.varIdx = some w → v < w) := by
  have hsub := ordered_sub hm hord
  simp only [Node.ordered, Bool.and_eq_true] at hsub
  constructor
  · intro w hw
    cases l with
    | bool b => simp [Node.varIdx] at hw
    | var u a b =>
        simp only [Node.varIdx, Option.some.injEq] at hw
        subst hw
        simp only [Node.ordFrom, Bool.and_eq_true, decide_eq_true_eq] at hsub
        exact hsub.1.1.1
  · intro w hw
    cases h with
    | bool b => simp [Node.varIdx] at hw
    | var u a b =>
        simp only [Node.varIdx, Option.some.injEq] at hw
        subst hw
        simp only [Node.ordFrom, Bool.and_eq_true, decide_eq_true_eq] at hsub
        exact hsub.2.1.1

/-! ### Sorting and level-list lemmas -/

theorem keyLE_total (a b : Nat × Nat) : keyLE a b = true ∨ keyLE b a = true := by
  simp only [keyLE, Bool.or_eq_true, Bool.and_eq_true, decide_eq_true_eq]
  omega

theorem keyLE_trans {a b c : Nat × Nat} (h1 : keyLE a b = true)
    (h2 : keyLE b c = true) : keyLE a c = true := by
  simp only [keyLE, Bool.or_eq_true, Bool.and_eq_true, decide_eq_true_eq] at *
  omega

theorem insKey_mem (e f : (Nat × Nat) × Node) (q : List ((Nat × Nat) × Node)) :
    f ∈ insKey e q ↔ f = e ∨ f ∈ q := by
  induction q with
  | nil => simp [insKey]
  | cons g r ih =>
      simp only [insKey]
      by_cases hk : keyLE e.1 g.1 = true
      · simp [hk]
      · simp only [hk, Bool.false_eq_true, if_false, List.mem_cons, ih]
        tauto

theorem sortKey_mem (e : (Nat × Nat) × Node) (q : List ((Nat × Nat) × Node)) :
    e ∈ sortKey q ↔ e ∈ q := by
  induction q with
  | nil => simp [sortKey]
  | cons g r ih =>
      simp only [sortKey, insKey_mem, List.mem_cons, ih]

theorem insKey_sorted (e : (Nat × Nat) × Node) {q : List ((Nat × Nat) × Node)}
    (hs : List.Pairwise (fun a b => keyLE a.1 b.1 = true) q) :
    List.Pairwise (fun a b => keyLE a.1 b.1 = true) (insKey e q) := by
  induction q with
  | nil => simp [insKey]
  | cons g r ih =>
      rcases List.pairwise_cons.mp hs with ⟨hg, hr⟩
      simp only [insKey]
      by_cases hk : keyLE e.1 g.1 = true
      · rw [if_pos hk]
        refine List.pairwise_cons.mpr ⟨?_, hs⟩
        intro f hf
        rcases List.mem_cons.mp hf with rfl | hf
        · exact hk
        · exact keyLE_trans hk (hg f hf)
      · rw [if_neg hk]
        refine List.pairwise_cons.mpr ⟨?_, ih hr⟩
        intro f hf
        rcases (insKey_mem e f r).mp hf with rfl | hf
        · rcases keyLE_total f.1 g.1 with hc | hc
          · exact absurd hc hk
          · exact hc
        · exact hg f hf

theorem sortKey_sorted (q : List ((Nat × Nat) × Node)) :
    List.Pairwise (fun a b => keyLE a.1 b.1 = true) (sortKey q) := by
  induction q with
  | nil => simp [sortKey]
  | cons g r ih => exact insKey_sorted g ih

theorem insDesc_mem (a x : Nat) (r : List Nat) :
    x ∈ insDesc a r ↔ x = a ∨ x ∈ r := by
  induction r with
  | nil => simp [insDesc]
  | cons b s ih =>
      simp only [insDesc]
      by_cases hb : b < a
      · simp [hb]
      · simp only [hb, if_false, List.mem_cons, ih]
        tauto

theorem sortDesc_mem (x : Nat) (r : List Nat) : x ∈ sortDesc r ↔ x ∈ r := by
  induction r with
  | nil => simp [sortDesc]
  | cons a s ih => simp only [sortDesc, insDesc_mem, List.mem_cons, ih]

theorem insDesc_sorted {a : Nat} {r : List Nat}
    (ha : a ∉ r) (hs : List.Pairwise (fun x y => y < x) r) :
    List.Pairwise (fun x y => y < x) (insDesc a r) := by
  induction r with
  | nil => simp [insDesc]
  | cons b s ih =>
      rcases List.pairwise_cons.mp hs with ⟨hb, hsr⟩
      simp only [List.mem_cons] at ha
      push_neg at ha
      simp only [insDesc]
      by_cases hab : b < a
      · rw [if_pos hab]
        refine List.pairwise_cons.mpr ⟨?_, hs⟩
        intro y hy
        rcases List.mem_cons.mp hy with rfl | hy
        · exact hab
        · exact Nat.lt_trans (hb y hy) hab
      · rw [if_neg hab]
        refine List.pairwise_cons.mpr ⟨?_, ih ha.2 hsr⟩
        intro y hy
        rcases (insDesc_mem a y s).mp hy with rfl | hy
        · omega
        · exact hb y hy

theorem sortDesc_sorted {r : List Nat} (hn : r.Nodup) :
    List.Pairwise (fun x y => y < x) (sortDesc r) := by
  induction r with
  | nil => simp [sortDesc]
  | cons a s ih =>
      rcases List.nodup_cons.mp hn with ⟨ha, hs⟩
      exact insDesc_sorted (fun hx => ha ((sortDesc_mem a s).mp hx)) (ih hs)

theorem levelsDesc_mem {t : Node} {w : Nat} :
    w ∈ levelsDesc t ↔ ∃ s, s ∈ t.subNodes ∧ s.varIdx = some w := by
  simp only [levelsDesc, sortDesc_mem, List.mem_dedup, List.mem_filterMap]

theorem levelsDesc_sorted (t : Node) :
    List.Pairwise (fun x y => y < x) (levelsDesc t) :=
  sortDesc_sorted (List.nodup_dedup _)

theorem levState_init (t : Node) : levState t (levelsDesc t) := by
  refine ⟨levelsDesc_sorted t, ?_⟩
  intro w hw hnot u _
  exact absurd (levelsDesc_mem.mpr hw) hnot

theorem levState_step {t : Node} {v : Nat} {rest : List Nat}
    (h : levState t (v :: rest)) : levState t rest := by
  rcases h with ⟨hp, hc⟩
  rcases List.pairwise_cons.mp hp with ⟨hv, hrest⟩
  refine ⟨hrest, ?_⟩
  intro w hw hnot u hu
  by_cases hwv : w = v
  · subst hwv
    exact hv u hu
  · exact hc w hw (by simp [hwv, hnot]) u (List.mem_cons_of_mem v hu)

theorem levState_head_lt {t : Node} {v : Nat} {rest : List Nat}
    (h : levState t (v :: rest)) : ∀ u, u ∈ rest → u < v :=
  (List.pairwise_cons.mp h.1).1

/-- A settled vertex of the tree lives above the level being processed. -/
theorem resolved_var_gt {t : Node} {v : Nat} {rest : List Nat} {s : Node}
    (hlev : levState t (v :: rest)) (hs : s ∈ t.subNodes)
    (hres : resolvedIn (v :: rest) s) {w : Nat} (hw : s.varIdx = some w) :
    v < w := by
  have hnv : w ∉ v :: rest := hres w hw
  exact hlev.2 w ⟨s, hs, hw⟩ hnv v (List.mem_cons_self v rest)

theorem nodesAt_mem {t : Node} {v : Nat} {s : Node} :
    s ∈ nodesAt t v ↔ s ∈ t.subNodes ∧ s.varIdx = some v := by
  simp [nodesAt]

/-! ### Phase 1 of `BDD::reduce` -/

theorem phase1B_spec {t : Node} {v : Nat} {rest : List Nat} {ti : ToIdx}
    {fi : FromIdx} {nid : Nat}
    (hA : ∀ s, s ∈ t.subNodes → resolvedIn (v :: rest) s →
      ∃ i, flook s ti = some i ∧ flook i fi = some (Node.bddCanon s) ∧ i ≤ nid)
    (hB : ∀ s s', s ∈ t.subNodes → s' ∈ t.subNodes →
      resolvedIn (v :: rest) s → resolvedIn (v :: rest) s' →
      (flook s ti = flook s' ti ↔ Node.bddCanon s = Node.bddCanon s'))
    (hlev : levState t (v :: rest)) (hord : Node.ordered t = true) :
    ∀ (lst : List Node) (tic : ToIdx),
    (∀ s, s ∈ lst → s ∈ t.subNodes ∧ s.varIdx = some v) →
    (∀ s : Node, s.varIdx ≠ some v → flook s tic = flook s ti) →
    ∃ ti1 q, phase1B lst tic = some (ti1, q) ∧
      (∀ s : Node, s.varIdx ≠ some v → flook s ti1 = flook s ti) ∧
      (∀ s : Node, s ∉ lst → flook s ti1 = flook s tic) ∧
      (∀ s l h, s = Node.var v l h → s ∈ lst →
        Node.bddCanon l = Node.bddCanon h →
        ∃ i, flook s ti1 = some i ∧ flook i fi = some (Node.bddCanon s) ∧
          i ≤ nid ∧ flook l ti = some i) ∧
      (∀ k s, (k, s) ∈ q → s ∈ t.subNodes ∧ ∃ l h, s = Node.var v l h ∧
        flook l ti = some k.1 ∧ flook h ti = some k.2 ∧
        Node.bddCanon l ≠ Node.bddCanon h) ∧
      (∀ s l h, s = Node.var v l h → s ∈ lst →
        Node.bddCanon l ≠ Node.bddCanon h → ∃ k, (k, s) ∈ q) := by
  intro lst
  induction lst with
  | nil =>
      intro tic _ htic
      refine ⟨tic, [], rfl, htic, fun s _ => rfl, ?_, ?_, ?_⟩
      · intro s l h _ hm _
        exact absurd hm (List.not_mem_nil s)
      · intro k s hm
        exact absurd hm (List.not_mem_nil (k, s))
      · intro s l h _ hm _
        exact absurd hm (List.not_mem_nil s)
  | cons s0 lst' ih =>
      intro tic hlst htic
      rcases hlst s0 (List.mem_cons_self s0 lst') with ⟨hs0m, hs0v⟩
      obtain ⟨l, h, rfl⟩ : ∃ l h, s0 = Node.var v l h := by
        cases s0 with
        | bool b => simp [Node.varIdx] at hs0v
        | var w l h =>
            simp only [Node.varIdx, Option.some.injEq] at hs0v
            exact ⟨l, h, by rw [hs0v]⟩
      -- children are settled nodes of deeper levels
      rcases children_mem_subNodes hs0m with ⟨hlm, hhm⟩
      have hcgt := child_varIdx_gt hord hs0m
      have hlres : resolvedIn (v :: rest) l := by
        intro u hu
        have hgt := hcgt.1 u hu
        intro hmem
        rcases List.mem_cons.mp hmem with rfl | hmem
        · omega
        · exact absurd (levState_head_lt hlev u hmem) (by omega)
      have hhres : resolvedIn (v :: rest) h := by
        intro u hu
        have hgt := hcgt.2 u hu
        intro hmem
        rcases List.mem_cons.mp hmem with rfl | hmem
        · omega
        · exact absurd (levState_head_lt hlev u hmem) (by omega)
      have hlvne : l.varIdx ≠ some v := by
        intro hc
        exact absurd (hcgt.1 v hc) (Nat.lt_irrefl v)
      have hhvne : h.varIdx ≠ some v := by
        intro hc
        exact absurd (hcgt.2 v hc) (Nat.lt_irrefl v)
      rcases hA l hlm hlres with ⟨il, hlti, hfil, hiln⟩
      rcases hA h hhm hhres with ⟨ihh, hhti, hfih, hihn⟩
      have hltic : flook l tic = some il := by rw [htic l hlvne]; exact hlti
      have hhtic : flook h tic = some ihh := by rw [htic h hhvne]; exact hhti
      have hiff : il = ihh ↔ Node.bddCanon l = Node.bddCanon h := by
        constructor
        · intro he
          exact (hB l h hlm hhm hlres hhres).mp (by rw [hlti, hhti, he])
        · intro he
          have := (hB l h hlm hhm hlres hhres).mpr he
          rw [hlti, hhti] at this
          exact Option.some.inj this
      by_cases hcan : Node.bddCanon l = Node.bddCanon h
      · -- redundant vertex: alias to the child's id
        have hil : il = ihh := hiff.mpr hcan
        have hcond : flook l tic = flook h tic := by
          rw [hltic, hhtic, hil]
        have hstep : phase1B (Node.var v l h :: lst') tic =
            phase1B lst' ((Node.var v l h, il) :: tic) := by
          simp only [phase1B]
          rw [if_pos hcond, hltic]
        rcases ih ((Node.var v l h, il) :: tic)
            (fun s hs => hlst s (List.mem_cons_of_mem _ hs))
            (fun s hsv => by
              rw [flook]
              rw [if_neg (fun hc => hsv (by rw [hc]; rfl))]
              exact htic s hsv) with
          ⟨ti1, q, hrun, hp1, hp2, hp3, hp4, hp5⟩
        refine ⟨ti1, q, by rw [hstep]; exact hrun, hp1, ?_, ?_, hp4, ?_⟩
        · intro s hs
          have hs' : s ∉ lst' := fun hc => hs (List.mem_cons_of_mem _ hc)
          have hsne : s ≠ Node.var v l h := fun hc => hs (hc ▸ List.mem_cons_self _ _)
          rw [hp2 s hs']
          rw [flook, if_neg hsne]
        · intro s l2 h2 hseq hsm hcan2
          rcases List.mem_cons.mp hsm with rfl | hsm
          · -- the head vertex itself
            injection hseq with hv0 hl0 hh0
            subst hl0
            subst hh0
            by_cases hdup : Node.var v l h ∈ lst'
            · exact hp3 (Node.var v l h) l h rfl hdup hcan
            · have hval := hp2 (Node.var v l h) hdup
              simp only [flook, if_pos] at hval
              refine ⟨il, hval, ?_, hiln, hlti⟩
              rw [bddCanon_var_eq hcan]
              exact hfil
          · exact hp3 s l2 h2 hseq hsm hcan2
        · intro s l2 h2 hseq hsm hcan2
          rcases List.mem_cons.mp hsm with rfl | hsm
          · cases hseq
            exact absurd hcan hcan2
          · exact hp5 s l2 h2 hseq hsm hcan2
      · -- staged vertex
        have hil : il ≠ ihh := fun hc => hcan (hiff.mp hc)
        have hcond : ¬ flook l tic = flook h tic := by
          rw [hltic, hhtic]
          intro hc
          exact hil (Option.some.inj hc)
        rcases ih tic (fun s hs => hlst s (List.mem_cons_of_mem _ hs)) htic with
          ⟨ti1, q, hrun, hp1, hp2, hp3, hp4, hp5⟩
        have hstep : phase1B (Node.var v l h :: lst') tic =
            some (ti1, ((il, ihh), Node.var v l h) :: q) := by
          simp only [phase1B]
          rw [if_neg hcond, hltic, hhtic, hrun]
        refine ⟨ti1, ((il, ihh), Node.var v l h) :: q, hstep, hp1, ?_, ?_, ?_, ?_⟩
        · intro s hs
          exact hp2 s (fun hc => hs (List.mem_cons_of_mem _ hc))
        · intro s l2 h2 hseq hsm hcan2
          rcases List.mem_cons.mp hsm with rfl | hsm
          · cases hseq
            exact absurd hcan2 hcan
          · exact hp3 s l2 h2 hseq hsm hcan2
        · intro k s hm
          rcases List.mem_cons.mp hm with heq | hm
          · have hk1 : k = (il, ihh) := congrArg Prod.fst heq
            have hs1 : s = Node.var v l h := congrArg Prod.snd heq
            subst hk1
            subst hs1
            exact ⟨hs0m, l, h, rfl, hlti, hhti, hcan⟩
          · exact hp4 k s hm
        · intro s l2 h2 hseq hsm hcan2
          rcases List.mem_cons.mp hsm with rfl | hsm
          · cases hseq
            exact ⟨(il, ihh), List.mem_cons_self _ _⟩
          · rcases hp5 s l2 h2 hseq hsm hcan2 with ⟨k, hk⟩
            exact ⟨k, List.mem_cons_of_mem _ hk⟩

/-! ### Phase 2 of `BDD::reduce`: helpers -/

theorem keyLE_antisymm {a b : Nat × Nat} (h1 : keyLE a b = true)
    (h2 : keyLE b a = true) : a = b := by
  simp only [keyLE, Bool.or_eq_true, Bool.and_eq_true, decide_eq_true_eq] at h1 h2
  rcases a with ⟨a1, a2⟩
  rcases b with ⟨b1, b2⟩
  simp only [Prod.mk.injEq]
  omega

/-- The children of a reachable level-`v` vertex are reachable, settled,
and live strictly below level `v`. -/
theorem child_facts {t : Node} {v : Nat} {rest : List Nat} {l h : Node}
    (hlev : levState t (v :: rest)) (hord : Node.ordered t = true)
    (hm : Node.var v l h ∈ t.subNodes) :
    l ∈ t.subNodes ∧ h ∈ t.subNodes ∧
    resolvedIn (v :: rest) l ∧ resolvedIn (v :: rest) h ∧
    l.varIdx ≠ some v ∧ h.varIdx ≠ some v := by
  rcases children_mem_subNodes hm with ⟨hlm, hhm⟩
  have hcgt := child_varIdx_gt hord hm
  refine ⟨hlm, hhm, ?_, ?_, ?_, ?_⟩
  · intro u hu hmem
    have hgt := hcgt.1 u hu
    rcases List.mem_cons.mp hmem with rfl | hmem
    · omega
    · exact absurd (levState_head_lt hlev u hmem) (by omega)
  · intro u hu hmem
    have hgt := hcgt.2 u hu
    rcases List.mem_cons.mp hmem with rfl | hmem
    · omega
    · exact absurd (levState_head_lt hlev u hmem) (by omega)
  · intro hc
    exact absurd (hcgt.1 v hc) (Nat.lt_irrefl v)
  · intro hc
    exact absurd (hcgt.2 v hc) (Nat.lt_irrefl v)

/-- Two staged vertices with equal canonical children carry equal merge
keys. -/
theorem staged_key_eq {t : Node} {v : Nat} {rest : List Nat} {ti : ToIdx}
    {fi : FromIdx} {nid : Nat}
    (hA : ∀ s, s ∈ t.subNodes → resolvedIn (v :: rest) s →
      ∃ i, flook s ti = some i ∧ flook i fi = some (Node.bddCanon s) ∧ i ≤ nid)
    (hB : ∀ s s', s ∈ t.subNodes → s' ∈ t.subNodes →
      resolvedIn (v :: rest) s → resolvedIn (v :: rest) s' →
      (flook s ti = flook s' ti ↔ Node.bddCanon s = Node.bddCanon s'))
    (hlev : levState t (v :: rest)) (hord : Node.ordered t = true)
    {k1 k2 : Nat × Nat} {l h l2 h2 : Node}
    (h1m : Node.var v l h ∈ t.subNodes)
    (h1l : flook l ti = some k1.1) (h1h : flook h ti = some k1.2)
    (h2m : Node.var v l2 h2 ∈ t.subNodes)
    (h2l : flook l2 ti = some k2.1) (h2h : flook h2 ti = some k2.2)
    (hcl : Node.bddCanon l = Node.bddCanon l2)
    (hch : Node.bddCanon h = Node.bddCanon h2) : k1 = k2 := by
  rcases child_facts hlev hord h1m with ⟨hlm, hhm, hlres, hhres, _, _⟩
  rcases child_facts hlev hord h2m with ⟨hlm2, hhm2, hlres2, hhres2, _, _⟩
  have e1 := (hB l l2 hlm hlm2 hlres hlres2).mpr hcl
  have e2 := (hB h h2 hhm hhm2 hhres hhres2).mpr hch
  rw [h1l, h2l] at e1
  rw [h1h, h2h] at e2
  exact Prod.ext (Option.some.inj e1) (Option.some.inj e2)

/-- The canonical form of a staged vertex is determined by its merge
key through the canonical registry. -/
theorem staged_canon_det {t : Node} {v : Nat} {rest : List Nat} {ti : ToIdx}
    {fi : FromIdx} {nid : Nat}
    (hA : ∀ s, s ∈ t.subNodes → resolvedIn (v :: rest) s →
      ∃ i, flook s ti = some i ∧ flook i fi = some (Node.bddCanon s) ∧ i ≤ nid)
    (hlev : levState t (v :: rest)) (hord : Node.ordered t = true)
    {k : Nat × Nat} {l h : Node} {cl ch : Node}
    (hm : Node.var v l h ∈ t.subNodes)
    (hl : flook l ti = some k.1) (hh : flook h ti = some k.2)
    (hcd : Node.bddCanon l ≠ Node.bddCanon h)
    (hfcl : flook k.1 fi = some cl) (hfch : flook k.2 fi = some ch) :
    Node.bddCanon (Node.var v l h) = Node.var v cl ch ∧
    Node.bddCanon l = cl ∧ Node.bddCanon h = ch := by
  rcases child_facts hlev hord hm with ⟨hlm, hhm, hlres, hhres, _, _⟩
  rcases hA l hlm hlres with ⟨il, hlti, hfil, _⟩
  rcases hA h hhm hhres with ⟨ih2, hhti, hfih, _⟩
  have hil : il = k.1 := Option.some.inj (hlti.symm.trans hl)
  have hih : ih2 = k.2 := Option.some.inj (hhti.symm.trans hh)
  subst hil
  subst hih
  have hcl : Node.bddCanon l = cl := Option.some.inj (hfil.symm.trans hfcl)
  have hch : Node.bddCanon h = ch := Option.some.inj (hfih.symm.trans hfch)
  refine ⟨?_, hcl, hch⟩
  rw [bddCanon_var_ne hcd, hcl, hch]

/-- A merged vertex built from canonical children is its own canonical
form. -/
theorem merged_canon_self {v : Nat} {l h : Node}
    (hcd : Node.bddCanon l ≠ Node.bddCanon h) :
    Node.bddCanon (Node.var v (Node.bddCanon l) (Node.bddCanon h)) =
      Node.var v (Node.bddCanon l) (Node.bddCanon h) := by
  have hne : Node.bddCanon (Node.bddCanon l) ≠ Node.bddCanon (Node.bddCanon h) := by
    rw [bddCanon_idem, bddCanon_idem]
    exact hcd
  rw [bddCanon_var_ne hne, bddCanon_idem, bddCanon_idem]

/-- The two components of a staged merge key always differ. -/
theorem staged_key_ne {t : Node} {v : Nat} {rest : List Nat} {ti : ToIdx}
    {fi : FromIdx} {nid : Nat}
    (hA : ∀ s, s ∈ t.subNodes → resolvedIn (v :: rest) s →
      ∃ i, flook s ti = some i ∧ flook i fi = some (Node.bddCanon s) ∧ i ≤ nid)
    (hB : ∀ s s', s ∈ t.subNodes → s' ∈ t.subNodes →
      resolvedIn (v :: rest) s → resolvedIn (v :: rest) s' →
      (flook s ti = flook s' ti ↔ Node.bddCanon s = Node.bddCanon s'))
    (hlev : levState t (v :: rest)) (hord : Node.ordered t = true)
    {k : Nat × Nat} {l h : Node}
    (hm : Node.var v l h ∈ t.subNodes)
    (hkl : flook l ti = some k.1) (hkh : flook h ti = some k.2)
    (hcd : Node.bddCanon l ≠ Node.bddCanon h) : k.1 ≠ k.2 := by
  rcases child_facts hlev hord hm with ⟨hlm, hhm, hlres, hhres, _, _⟩
  intro hc
  apply hcd
  apply (hB l h hlm hhm hlres hhres).mp
  rw [hkl, hkh, hc]

/-- Complete behaviour of phase 2 of a `BDD::reduce` level over a
sorted staged list: the walk succeeds, equal keys merge to one fresh
id, the merged vertex is the staged vertex's canonical form and is
registered in both maps, and all other entries survive. -/
theorem phase2B_spec {t : Node} {v : Nat} {rest : List Nat} {ti : ToIdx}
    {fi : FromIdx} {nid : Nat}
    (hA : ∀ s, s ∈ t.subNodes → resolvedIn (v :: rest) s →
      ∃ i, flook s ti = some i ∧ flook i fi = some (Node.bddCanon s) ∧ i ≤ nid)
    (hB : ∀ s s', s ∈ t.subNodes → s' ∈ t.subNodes →
      resolvedIn (v :: rest) s → resolvedIn (v :: rest) s' →
      (flook s ti = flook s' ti ↔ Node.bddCanon s = Node.bddCanon s'))
    (hlev : levState t (v :: rest)) (hord : Node.ordered t = true) :
    ∀ (q : List ((Nat × Nat) × Node)) (old : Nat × Nat) (nid' : Nat)
      (tic : ToIdx) (fic : FromIdx),
    List.Pairwise (fun a b => keyLE a.1 b.1 = true) q →
    (∀ k s, (k, s) ∈ q → s ∈ t.subNodes ∧ ∃ l h, s = Node.var v l h ∧
      flook l ti = some k.1 ∧ flook h ti = some k.2 ∧
      Node.bddCanon l ≠ Node.bddCanon h) →
    (∀ s : Node, s.varIdx ≠ some v → flook s tic = flook s ti) →
    (∀ i, i ≤ nid → flook i fic = flook i fi) →
    nid ≤ nid' →
    ((old = (0, 0) ∧ nid' = nid) ∨
      (nid < nid' ∧ ∃ n0, flook nid' fic = some n0 ∧
        (∀ k2 s2, (k2, s2) ∈ q → keyLE old k2 = true) ∧
        (∀ k2 s2, (k2, s2) ∈ q → k2 = old → Node.bddCanon s2 = n0))) →
    ∃ nid2 ti2 fi2,
      phase2B q old nid' tic fic = some (nid2, ti2, fi2) ∧
      nid' ≤ nid2 ∧
      (∀ s : Node, flook s ti2 = flook s tic ∨
        (s.varIdx = some v ∧ ∃ j k2 s2, (k2, s2) ∈ q ∧
          flook s2 ti2 = some j ∧ flook s ti2 = some j ∧
          nid < j ∧ j ≤ nid2 ∧ flook j fi2 = some (Node.bddCanon s) ∧
          Node.bddCanon s = Node.bddCanon s2)) ∧
      (∀ k2 s2, (k2, s2) ∈ q → ∃ j, flook s2 ti2 = some j ∧
        nid < j ∧ j ≤ nid2 ∧ flook j fi2 = some (Node.bddCanon s2) ∧
        (∀ k3 s3, (k3, s3) ∈ q → k3 = k2 → flook s3 ti2 = some j)) ∧
      (∀ k2 s2, (k2, s2) ∈ q → k2 = old → flook s2 ti2 = some nid') ∧
      (∀ i, i ≤ nid' → flook i fi2 = flook i fic) ∧
      (∀ i n, nid' < i → i ≤ nid2 → flook i fi2 = some n →
        ∃ k2 s2, (k2, s2) ∈ q ∧ s2 ∈ t.subNodes ∧ s2.varIdx = some v ∧
          Node.bddCanon s2 = n ∧ flook s2 ti2 = some i) := by
  intro q
  induction q with
  | nil =>
      intro old nid' tic fic _ _ _ _ _ _
      refine ⟨nid', tic, fic, rfl, Nat.le_refl _, fun s => Or.inl rfl, ?_, ?_,
        fun i _ => rfl, ?_⟩
      · intro k2 s2 hm2
        exact absurd hm2 (List.not_mem_nil (k2, s2))
      · intro k2 s2 hm2
        exact absurd hm2 (List.not_mem_nil (k2, s2))
      · intro i n hgt hle _
        omega
  | cons e q ih =>
      obtain ⟨key, n⟩ := e
      intro old nid' tic fic hsortc hq htic hfic hnn hmid
      obtain ⟨hsort1, hsort2⟩ := List.pairwise_cons.mp hsortc
      obtain ⟨hnm, l, h, rfl, hkl, hkh, hcd⟩ :=
        hq key n (List.mem_cons_self _ _)
      rcases child_facts hlev hord hnm with ⟨hlm, hhm, hlres, hhres, hlvne, hhvne⟩
      rcases hA l hlm hlres with ⟨il, hlti, hfil, hiln⟩
      rcases hA h hhm hhres with ⟨ihh, hhti, hfih, hihn⟩
      have hil : il = key.1 := Option.some.inj (hlti.symm.trans hkl)
      have hih : ihh = key.2 := Option.some.inj (hhti.symm.trans hkh)
      subst hil
      subst hih
      have hk12 : key.1 ≠ key.2 :=
        staged_key_ne hA hB hlev hord hnm hkl hkh hcd
      have hltic : flook l tic = some key.1 := by
        rw [htic l hlvne]; exact hkl
      have hhtic : flook h tic = some key.2 := by
        rw [htic h hhvne]; exact hkh
      by_cases hko : key = old
      · -- a key equal to the previous one reuses the current id
        rcases hmid with ⟨hold0, _⟩ | ⟨hlt, n0, hfn0, hge, hsame⟩
        · exfalso
          apply hk12
          rw [hko, hold0]
        · have hn0 : Node.bddCanon (Node.var v l h) = n0 :=
            hsame key (Node.var v l h) (List.mem_cons_self _ _) hko
          have hstep : phase2B ((key, Node.var v l h) :: q) old nid' tic fic =
              phase2B q old nid' ((Node.var v l h, nid') :: tic) fic := by
            simp only [phase2B]
            rw [if_pos hko]
          rcases ih old nid' ((Node.var v l h, nid') :: tic) fic
              hsort2
              (fun k2 s2 hm2 => hq k2 s2 (List.mem_cons_of_mem _ hm2))
              (fun s hsv => by
                rw [flook, if_neg (fun hc => hsv (by rw [hc]; rfl))]
                exact htic s hsv)
              hfic hnn
              (Or.inr ⟨hlt, n0, hfn0,
                fun k2 s2 hm2 => hge k2 s2 (List.mem_cons_of_mem _ hm2),
                fun k2 s2 hm2 hk2 => hsame k2 s2 (List.mem_cons_of_mem _ hm2) hk2⟩)
            with ⟨nid2, ti2, fi2, hrun, hle, hcW, hc4, hc10, hc5, hc6⟩
          have hheadval : flook (Node.var v l h) ti2 = some nid' := by
            rcases hcW (Node.var v l h) with hpres |
              ⟨_, j, k2, s2, hm2, hs2v, hsv, hjgt, hjle, hfj, hceq⟩
            · rw [hpres]
              simp [flook]
            · obtain ⟨hs2m, l2, h2, rfl, h2l, h2h, hcd2⟩ :=
                hq k2 s2 (List.mem_cons_of_mem _ hm2)
              have hcc : Node.bddCanon l = Node.bddCanon l2 ∧
                  Node.bddCanon h = Node.bddCanon h2 := by
                rw [bddCanon_var_ne hcd, bddCanon_var_ne hcd2] at hceq
                injection hceq with e0 e1 e2
                exact ⟨e1, e2⟩
              have hkk : key = k2 :=
                staged_key_eq hA hB hlev hord hnm hkl hkh hs2m h2l h2h hcc.1 hcc.2
              have h10 := hc10 k2 _ hm2 (by rw [← hkk]; exact hko)
              have hj : j = nid' := Option.some.inj (hs2v.symm.trans h10)
              rw [hsv, hj]
          refine ⟨nid2, ti2, fi2, by rw [hstep]; exact hrun, hle, ?_, ?_, ?_, hc5, ?_⟩
          · intro s
            rcases hcW s with hpres | ⟨hsv, j, k2, s2, hm2, hrest'⟩
            · by_cases hse : s = Node.var v l h
              · subst hse
                right
                refine ⟨rfl, nid', key, Node.var v l h, List.mem_cons_self _ _,
                  hheadval, hheadval, hlt, Nat.le_trans (Nat.le_refl _) hle, ?_, rfl⟩
                rw [hc5 nid' (Nat.le_refl _), hfn0, hn0]
              · left
                rw [hpres, flook, if_neg hse]
            · right
              exact ⟨hsv, j, k2, s2, List.mem_cons_of_mem _ hm2, hrest'⟩
          · intro k2 s2 hm2
            rcases List.mem_cons.mp hm2 with heq | hm2
            · have hk2 : k2 = key := congrArg Prod.fst heq
              have hs2 : s2 = Node.var v l h := congrArg Prod.snd heq
              subst hk2; subst hs2
              refine ⟨nid', hheadval, hlt, hle, ?_, ?_⟩
              · rw [hc5 nid' (Nat.le_refl _), hfn0, hn0]
              · intro k3 s3 hm3 hk3
                rcases List.mem_cons.mp hm3 with heq3 | hm3
                · have hs3 : s3 = Node.var v l h := congrArg Prod.snd heq3
                  subst hs3
                  exact hheadval
                · exact hc10 k3 s3 hm3 (by rw [hk3, hko])
            · rcases hc4 k2 s2 hm2 with ⟨j, hjv, hjgt, hjle, hjfi, hcons⟩
              refine ⟨j, hjv, hjgt, hjle, hjfi, ?_⟩
              intro k3 s3 hm3 hk3
              rcases List.mem_cons.mp hm3 with heq3 | hm3
              · have hk3a : k3 = key := congrArg Prod.fst heq3
                have hs3 : s3 = Node.var v l h := congrArg Prod.snd heq3
                subst hs3
                have hk2o : k2 = old := by rw [← hk3, hk3a, hko]
                have h10 := hc10 k2 s2 hm2 hk2o
                have hj : j = nid' := Option.some.inj (hjv.symm.trans h10)
                rw [hj]
                exact hheadval
              · exact hcons k3 s3 hm3 hk3
          · intro k2 s2 hm2 hk2
            rcases List.mem_cons.mp hm2 with heq | hm2
            · have hs2 : s2 = Node.var v l h := congrArg Prod.snd heq
              subst hs2
              exact hheadval
            · exact hc10 k2 s2 hm2 hk2
          · intro i nn hgt hle2 hfi2i
            rcases hc6 i nn hgt hle2 hfi2i with ⟨k2, s2, hm2, hrest'⟩
            exact ⟨k2, s2, List.mem_cons_of_mem _ hm2, hrest'⟩
      · -- a new id is allocated and the merged vertex registered
        have hficl : flook key.1 fic = some (Node.bddCanon l) := by
          rw [hfic key.1 hiln]; exact hfil
        have hfich : flook key.2 fic = some (Node.bddCanon h) := by
          rw [hfic key.2 hihn]; exact hfih
        have hstep : phase2B ((key, Node.var v l h) :: q) old nid' tic fic =
            phase2B q key (nid' + 1)
              ((Node.var v (Node.bddCanon l) (Node.bddCanon h), nid' + 1) ::
                (Node.var v l h, nid' + 1) :: tic)
              ((nid' + 1, Node.var v (Node.bddCanon l) (Node.bddCanon h)) :: fic) := by
          simp only [phase2B, hltic, hhtic, hficl, hfich]
          rw [if_neg hko]
        set m := Node.var v (Node.bddCanon l) (Node.bddCanon h) with hm
        have hcanm : Node.bddCanon (Node.var v l h) = m := bddCanon_var_ne hcd
        have hmm : Node.bddCanon m = m := merged_canon_self hcd
        have hmvar : m.varIdx = some v := by rw [hm]; rfl
        have hsamek : ∀ k2 s2, (k2, s2) ∈ q → k2 = key →
            Node.bddCanon s2 = m := by
          intro k2 s2 hm2 hk2
          obtain ⟨hs2m, l2, h2, rfl, h2l, h2h, hcd2⟩ :=
            hq k2 s2 (List.mem_cons_of_mem _ hm2)
          subst hk2
          exact (staged_canon_det hA hlev hord hs2m h2l h2h hcd2 hfil hfih).1
        rcases ih key (nid' + 1)
            ((m, nid' + 1) :: (Node.var v l h, nid' + 1) :: tic)
            ((nid' + 1, m) :: fic)
            hsort2
            (fun k2 s2 hm2 => hq k2 s2 (List.mem_cons_of_mem _ hm2))
            (fun s hsv => by
              rw [flook, if_neg (fun hc => hsv (by rw [hc, hm]; rfl)),
                flook, if_neg (fun hc => hsv (by rw [hc]; rfl))]
              exact htic s hsv)
            (fun i hi => by
              rw [flook, if_neg (by omega)]
              exact hfic i hi)
            (by omega)
            (Or.inr ⟨by omega, m, by simp [flook],
              fun k2 s2 hm2 => hsort1 (k2, s2) hm2,
              hsamek⟩)
          with ⟨nid2, ti2, fi2, hrun, hle, hcW, hc4, hc10, hc5, hc6⟩
        have hfi21 : flook (nid' + 1) fi2 = some m := by
          rw [hc5 (nid' + 1) (Nat.le_refl _)]
          simp [flook]
        have hheadval : flook (Node.var v l h) ti2 = some (nid' + 1) := by
          rcases hcW (Node.var v l h) with hpres |
            ⟨_, j, k2, s2, hm2, hs2v, hsv, hjgt, hjle, hfj, hceq⟩
          · rw [hpres]
            by_cases hhm2 : Node.var v l h = m
            · rw [flook, if_pos hhm2]
            · rw [flook, if_neg hhm2]
              simp [flook]
          · obtain ⟨hs2m, l2, h2, rfl, h2l, h2h, hcd2⟩ :=
              hq k2 s2 (List.mem_cons_of_mem _ hm2)
            have hcc : Node.bddCanon l = Node.bddCanon l2 ∧
                Node.bddCanon h = Node.bddCanon h2 := by
              rw [bddCanon_var_ne hcd, bddCanon_var_ne hcd2] at hceq
              injection hceq with e0 e1 e2
              exact ⟨e1, e2⟩
            have hkk : key = k2 :=
              staged_key_eq hA hB hlev hord hnm hkl hkh hs2m h2l h2h hcc.1 hcc.2
            have h10 := hc10 k2 _ hm2 hkk.symm
            have hj : j = nid' + 1 := Option.some.inj (hs2v.symm.trans h10)
            rw [hsv, hj]
        have hmval : flook m ti2 = some (nid' + 1) := by
          rcases hcW m with hpres |
            ⟨_, j, k2, s2, hm2, hs2v, hsv, hjgt, hjle, hfj, hceq⟩
          · rw [hpres]
            simp [flook]
          · obtain ⟨hs2m, l2, h2, rfl, h2l, h2h, hcd2⟩ :=
              hq k2 s2 (List.mem_cons_of_mem _ hm2)
            rw [hmm, hm] at hceq
            rw [bddCanon_var_ne hcd2] at hceq
            have hcc : Node.bddCanon l = Node.bddCanon l2 ∧
                Node.bddCanon h = Node.bddCanon h2 := by
              injection hceq with e0 e1 e2
              exact ⟨e1, e2⟩
            have hkk : key = k2 :=
              staged_key_eq hA hB hlev hord hnm hkl hkh hs2m h2l h2h hcc.1 hcc.2
            have h10 := hc10 k2 _ hm2 hkk.symm
            have hj : j = nid' + 1 := Option.some.inj (hs2v.symm.trans h10)
            rw [hsv, hj]
        refine ⟨nid2, ti2, fi2, by rw [hstep]; exact hrun, by omega,
          ?_, ?_, ?_, ?_, ?_⟩
        · intro s
          rcases hcW s with hpres | ⟨hsv, j, k2, s2, hm2, hrest'⟩
          · by_cases hsm1 : s = m
            · subst hsm1
              right
              refine ⟨hmvar, nid' + 1, key, Node.var v l h,
                List.mem_cons_self _ _, hheadval, hmval, by omega, hle, ?_, ?_⟩
              · rw [hmm]
                exact hfi21
              · rw [hmm, hcanm]
            · by_cases hsh : s = Node.var v l h
              · subst hsh
                right
                refine ⟨rfl, nid' + 1, key, Node.var v l h,
                  List.mem_cons_self _ _, hheadval, hheadval, by omega, hle,
                  ?_, rfl⟩
                rw [hcanm]
                exact hfi21
              · left
                rw [hpres, flook, if_neg hsm1, flook, if_neg hsh]
          · right
            exact ⟨hsv, j, k2, s2, List.mem_cons_of_mem _ hm2, hrest'⟩
        · intro k2 s2 hm2
          rcases List.mem_cons.mp hm2 with heq | hm2
          · have hk2 : k2 = key := congrArg Prod.fst heq
            have hs2 : s2 = Node.var v l h := congrArg Prod.snd heq
            subst hk2; subst hs2
            refine ⟨nid' + 1, hheadval, by omega, hle, ?_, ?_⟩
            · rw [hcanm]
              exact hfi21
            · intro k3 s3 hm3 hk3
              rcases List.mem_cons.mp hm3 with heq3 | hm3
              · have hs3 : s3 = Node.var v l h := congrArg Prod.snd heq3
                subst hs3
                exact hheadval
              · exact hc10 k3 s3 hm3 hk3
          · rcases hc4 k2 s2 hm2 with ⟨j, hjv, hjgt, hjle, hjfi, hcons⟩
            refine ⟨j, hjv, hjgt, hjle, hjfi, ?_⟩
            intro k3 s3 hm3 hk3
            rcases List.mem_cons.mp hm3 with heq3 | hm3
            · have hk3a : k3 = key := congrArg Prod.fst heq3
              have hs3 : s3 = Node.var v l h := congrArg Prod.snd heq3
              subst hs3
              have hk2k : k2 = key := by rw [← hk3, hk3a]
              have h10 := hc10 k2 s2 hm2 hk2k
              have hj : j = nid' + 1 := Option.some.inj (hjv.symm.trans h10)
              rw [hj]
              exact hheadval
            · exact hcons k3 s3 hm3 hk3
        · intro k2 s2 hm2 hk2
          rcases List.mem_cons.mp hm2 with heq | hm2
          · exfalso
            apply hko
            rw [← hk2]
            exact (congrArg Prod.fst heq).symm
          · exfalso
            rcases hmid with ⟨hold0, _⟩ | ⟨_, n0, _, hge, _⟩
            · obtain ⟨hs2m, l2, h2, rfl, h2l, h2h, hcd2⟩ :=
                hq k2 s2 (List.mem_cons_of_mem _ hm2)
              have := staged_key_ne hA hB hlev hord hs2m h2l h2h hcd2
              apply this
              rw [hk2, hold0]
            · have hge1 : keyLE old key = true :=
                hge key (Node.var v l h) (List.mem_cons_self _ _)
              have hge2 : keyLE key k2 = true := hsort1 (k2, s2) hm2
              rw [hk2] at hge2
              exact hko (keyLE_antisymm hge2 hge1)
        · intro i hi
          rw [hc5 i (by omega), flook, if_neg (by omega)]
        · intro i nn hgt hle2 hfi2i
          by_cases hieq : i = nid' + 1
          · subst hieq
            have hnm2 : nn = m := (Option.some.inj (hfi21.symm.trans hfi2i)).symm
            subst hnm2
            exact ⟨key, Node.var v l h, List.mem_cons_self _ _, hnm, rfl,
              hcanm, hheadval⟩
          · rcases hc6 i nn (by omega) hle2 hfi2i with ⟨k2, s2, hm2, hrest'⟩
            exact ⟨k2, s2, List.mem_cons_of_mem _ hm2, hrest'⟩

/-! ### The `BDD::reduce` level pass -/

theorem resolvedIn_tail {v : Nat} {rest : List Nat} {s : Node}
    (h : resolvedIn (v :: rest) s) : resolvedIn rest s := by
  intro w hw hmem
  exact h w hw (List.mem_cons_of_mem v hmem)

theorem resolvedIn_cons_of {v : Nat} {rest : List Nat} {s : Node}
    (h : resolvedIn rest s) (hv : s.varIdx ≠ some v) :
    resolvedIn (v :: rest) s := by
  intro w hw hmem
  rcases List.mem_cons.mp hmem with rfl | hmem
  · exact hv hw
  · exact h w hw hmem

/-- The canonical form of a vertex settled before level `v` cannot sit
at level `v` or above. -/
theorem canon_resolved_topvar {t : Node} {v : Nat} {rest : List Nat} {s : Node}
    (hlev : levState t (v :: rest)) (hord : Node.ordered t = true)
    (hs : s ∈ t.subNodes) (hres : resolvedIn (v :: rest) s)
    {w : Nat} {cl ch : Node}
    (hc : Node.bddCanon s = Node.var w cl ch) : v < w := by
  cases s with
  | bool b => simp [Node.bddCanon] at hc
  | var u l h =>
      have hvu : v < u := resolved_var_gt hlev hs hres rfl
      have hof : Node.ordFrom v (Node.var u l h) = true :=
        ordFrom_of_lt (ordered_sub hs hord) rfl hvu
      exact bddCanon_topvar_gt hof hc

/-- Before any level is processed, only terminals are settled. -/
theorem resolved_init_terminal {t : Node} {s : Node} (hs : s ∈ t.subNodes)
    (hres : resolvedIn (levelsDesc t) s) : ∃ b, s = Node.bool b := by
  cases s with
  | bool b => exact ⟨b, rfl⟩
  | var u l h =>
      exact absurd (levelsDesc_mem.mpr ⟨Node.var u l h, hs, rfl⟩) (hres u rfl)

/-- Initial `to_index` lookup of a terminal. -/
theorem initToIdxB_bool : ∀ {lst : List Node} {b : Bool},
    Node.bool b ∈ lst →
    flook (Node.bool b) (initToIdxB lst) = some (cond b 1 0) := by
  intro lst
  induction lst with
  | nil =>
      intro b h
      exact absurd h (List.not_mem_nil _)
  | cons n r ih =>
      intro b h
      by_cases hbn : Node.bool b = n
      · subst hbn
        simp [initToIdxB, flook]
      · have hm : Node.bool b ∈ r := by
          rcases List.mem_cons.mp h with heq | hm
          · exact absurd heq hbn
          · exact hm
        simp only [initToIdxB]
        rw [flook, if_neg hbn]
        exact ih hm

/-- The invariant holds before the first level. -/
theorem BInv_init (t : Node) :
    BInv t (levelsDesc t) (initToIdxB t.subNodes)
      [(0, Node.bool false), (1, Node.bool true)] 2 := by
  refine ⟨?_, ?_, by simp [flook], by simp [flook], by simp [flook],
    Nat.le_refl 2, ?_, ?_⟩
  · intro s hs hres
    rcases resolved_init_terminal hs hres with ⟨b, rfl⟩
    refine ⟨cond b 1 0, initToIdxB_bool hs, ?_, by cases b <;> simp⟩
    cases b <;> simp [flook, Node.bddCanon]
  · intro s s' hs hs' hres hres'
    rcases resolved_init_terminal hs hres with ⟨b, rfl⟩
    rcases resolved_init_terminal hs' hres' with ⟨b', rfl⟩
    rw [initToIdxB_bool hs, initToIdxB_bool hs']
    cases b <;> cases b' <;> simp [Node.bddCanon]
  · intro i n h3 h2 _
    omega
  · intro i i' n h3 h2 _ _ _ _
    omega

/-- One level of `BDD::reduce` preserves the invariant. -/
theorem BInv_step {t : Node} {v : Nat} {rest : List Nat} {ti : ToIdx}
    {fi : FromIdx} {nid : Nat}
    (hlev : levState t (v :: rest)) (hord : Node.ordered t = true)
    (hinv : BInv t (v :: rest) ti fi nid) :
    ∃ ti2 fi2 nid2, levelStepB t (ti, fi, nid) v = some (ti2, fi2, nid2) ∧
      nid ≤ nid2 ∧ BInv t rest ti2 fi2 nid2 := by
  obtain ⟨hA, hB, h0, h1, hN, hn2, hD, hFJ⟩ := hinv
  rcases phase1B_spec hA hB hlev hord (nodesAt t v) ti
      (fun s hs => nodesAt_mem.mp hs) (fun s _ => rfl) with
    ⟨ti1, q, hrun1, hp1, hp2, hp3, hp4, hp5⟩
  have hq' : ∀ k s, (k, s) ∈ sortKey q → s ∈ t.subNodes ∧
      ∃ l h, s = Node.var v l h ∧ flook l ti = some k.1 ∧
        flook h ti = some k.2 ∧ Node.bddCanon l ≠ Node.bddCanon h :=
    fun k s hm => hp4 k s ((sortKey_mem _ _).mp hm)
  rcases phase2B_spec hA hB hlev hord (sortKey q) (0, 0) nid ti1 fi
      (sortKey_sorted q) hq' hp1 (fun i _ => rfl) (Nat.le_refl nid)
      (Or.inl ⟨rfl, rfl⟩) with
    ⟨nid2, ti2, fi2, hrun2, hle, hcW, hc4, hc10, hc5, hc6⟩
  have hstep : levelStepB t (ti, fi, nid) v = some (ti2, fi2, nid2) := by
    simp only [levelStepB, hrun1, hrun2]
  have hvrest : v ∉ rest := by
    intro hc
    exact absurd (levState_head_lt hlev v hc) (Nat.lt_irrefl v)
  have hival : ∀ s : Node, s.varIdx ≠ some v → flook s ti2 = flook s ti := by
    intro s hsv
    rcases hcW s with hpres | ⟨hsv', _⟩
    · rw [hpres, hp1 s hsv]
    · exact absurd hsv' hsv
  have hA2 : ∀ s, s ∈ t.subNodes → resolvedIn rest s →
      ∃ i, flook s ti2 = some i ∧ flook i fi2 = some (Node.bddCanon s) ∧
        i ≤ nid2 := by
    intro s hs hres
    by_cases hsv : s.varIdx = some v
    · obtain ⟨l, h, rfl⟩ : ∃ l h, s = Node.var v l h := by
        cases s with
        | bool b => simp [Node.varIdx] at hsv
        | var w l h =>
            simp only [Node.varIdx, Option.some.injEq] at hsv
            exact ⟨l, h, by rw [hsv]⟩
      by_cases hcan : Node.bddCanon l = Node.bddCanon h
      · rcases hp3 (Node.var v l h) l h rfl (nodesAt_mem.mpr ⟨hs, rfl⟩) hcan with
          ⟨i, hti1, hfii, hile, hlti⟩
        refine ⟨i, ?_, ?_, Nat.le_trans hile hle⟩
        · rcases hcW (Node.var v l h) with hpres |
            ⟨_, j, k2, s2, hm2, _, _, _, _, _, hceq⟩
          · rw [hpres]
            exact hti1
          · exfalso
            obtain ⟨hs2m, l2, h2, rfl, _, _, hcd2⟩ := hq' k2 s2 hm2
            rw [bddCanon_var_eq hcan, bddCanon_var_ne hcd2] at hceq
            rcases child_facts hlev hord hs with ⟨hlm, _, hlres, _, _, _⟩
            exact absurd (canon_resolved_topvar hlev hord hlm hlres hceq)
              (Nat.lt_irrefl v)
        · rw [hc5 i hile]
          exact hfii
      · rcases hp5 (Node.var v l h) l h rfl (nodesAt_mem.mpr ⟨hs, rfl⟩) hcan with
          ⟨k, hkq⟩
        rcases hc4 k _ ((sortKey_mem _ _).mpr hkq) with ⟨j, hjv, _, hjle, hjfi, _⟩
        exact ⟨j, hjv, hjfi, hjle⟩
    · have hres' : resolvedIn (v :: rest) s := resolvedIn_cons_of hres hsv
      rcases hA s hs hres' with ⟨i, hti, hfii, hile⟩
      refine ⟨i, ?_, ?_, Nat.le_trans hile hle⟩
      · rw [hival s hsv]
        exact hti
      · rw [hc5 i hile]
        exact hfii
  have h02 : flook 0 fi2 = some (Node.bool false) := by
    rw [hc5 0 (by omega)]
    exact h0
  have h12 : flook 1 fi2 = some (Node.bool true) := by
    rw [hc5 1 (by omega)]
    exact h1
  have hN2 : flook 2 fi2 = none := by
    rw [hc5 2 hn2]
    exact hN
  have hD2 : ∀ i n, 3 ≤ i → i ≤ nid2 → flook i fi2 = some n →
      ∃ w cl ch, n = Node.var w cl ch ∧ w ∉ rest ∧
        ∃ s, s ∈ t.subNodes ∧ resolvedIn rest s ∧ Node.bddCanon s = n := by
    intro i n h3 hle2 hfi2
    by_cases hin : i ≤ nid
    · rw [hc5 i hin] at hfi2
      rcases hD i n h3 hin hfi2 with ⟨w, cl, ch, hn, hwr, s, hsm, hsres, hsc⟩
      exact ⟨w, cl, ch, hn, fun hc => hwr (List.mem_cons_of_mem v hc),
        s, hsm, resolvedIn_tail hsres, hsc⟩
    · rcases hc6 i n (by omega) hle2 hfi2 with ⟨k2, s2, hm2, hs2m, hs2v, hs2c, _⟩
      obtain ⟨_, l2, h2, rfl, _, _, hcd2⟩ := hq' k2 s2 hm2
      refine ⟨v, Node.bddCanon l2, Node.bddCanon h2, ?_, hvrest,
        Node.var v l2 h2, hs2m, ?_, hs2c⟩
      · rw [← hs2c, bddCanon_var_ne hcd2]
      · intro w hw hmem
        simp only [Node.varIdx, Option.some.injEq] at hw
        subst hw
        exact hvrest hmem
  have hFJ2 : ∀ i i' n, 3 ≤ i → i ≤ nid2 → 3 ≤ i' → i' ≤ nid2 →
      flook i fi2 = some n → flook i' fi2 = some n → i = i' := by
    have hmix : ∀ i i' n, 3 ≤ i → i ≤ nid → nid < i' → i' ≤ nid2 →
        flook i fi2 = some n → flook i' fi2 = some n → False := by
      intro i i' n h3 hin hgt hle2 hfia hfib
      rw [hc5 i hin] at hfia
      rcases hD i n h3 hin hfia with ⟨w, cl, ch, hn, hwr, _⟩
      rcases hc6 i' n hgt hle2 hfib with ⟨k2, s2, hm2, _, _, hs2c, _⟩
      obtain ⟨_, l2, h2, rfl, _, _, hcd2⟩ := hq' k2 s2 hm2
      rw [bddCanon_var_ne hcd2, hn] at hs2c
      injection hs2c with hv0 _ _
      exact hwr (hv0 ▸ List.mem_cons_self v rest)
    intro i i' n h3 hle2 h3' hle2' hfia hfib
    by_cases hin : i ≤ nid
    · by_cases hin' : i' ≤ nid
      · rw [hc5 i hin] at hfia
        rw [hc5 i' hin'] at hfib
        exact hFJ i i' n h3 hin h3' hin' hfia hfib
      · exact (hmix i i' n h3 hin (by omega) hle2' hfia hfib).elim
    · by_cases hin' : i' ≤ nid
      · exact (hmix i' i n h3' hin' (by omega) hle2 hfib hfia).elim
      · rcases hc6 i n (by omega) hle2 hfia with ⟨k2, s2, hm2, _, _, hs2c, hs2t⟩
        rcases hc6 i' n (by omega) hle2' hfib with ⟨k3, s3, hm3, _, _, hs3c, hs3t⟩
        obtain ⟨hs2m, l2, h2, rfl, h2l, h2h, hcd2⟩ := hq' k2 s2 hm2
        obtain ⟨hs3m, l3, h3x, rfl, h3l, h3h, hcd3⟩ := hq' k3 s3 hm3
        have hcc : Node.bddCanon l2 = Node.bddCanon l3 ∧
            Node.bddCanon h2 = Node.bddCanon h3x := by
          have hcx := hs2c.trans hs3c.symm
          rw [bddCanon_var_ne hcd2, bddCanon_var_ne hcd3] at hcx
          injection hcx with e0 e1 e2
          exact ⟨e1, e2⟩
        have hkk : k2 = k3 :=
          staged_key_eq hA hB hlev hord hs2m h2l h2h hs3m h3l h3h hcc.1 hcc.2
        rcases hc4 k2 _ hm2 with ⟨j, hjv, _, _, _, hcons⟩
        have hi1 : i = j := Option.some.inj (hs2t.symm.trans hjv)
        have hi2 : i' = j :=
          Option.some.inj (hs3t.symm.trans (hcons k3 _ hm3 hkk.symm))
        rw [hi1, hi2]
  have hB2 : ∀ s s', s ∈ t.subNodes → s' ∈ t.subNodes →
      resolvedIn rest s → resolvedIn rest s' →
      (flook s ti2 = flook s' ti2 ↔ Node.bddCanon s = Node.bddCanon s') := by
    intro s s' hs hs' hres hres'
    rcases hA2 s hs hres with ⟨i, hti, hfii, hile⟩
    rcases hA2 s' hs' hres' with ⟨i', hti', hfii', hile'⟩
    constructor
    · intro he
      rw [hti, hti'] at he
      have hii : i = i' := Option.some.inj he
      subst hii
      exact Option.some.inj (hfii.symm.trans hfii')
    · intro hcc
      rw [← hcc] at hfii'
      rw [hti, hti']
      cases hcn : Node.bddCanon s with
      | bool b =>
          rw [hcn] at hfii hfii'
          have pin : ∀ j, j ≤ nid2 → flook j fi2 = some (Node.bool b) →
              j = cond b 1 0 := by
            intro j hj hfj
            by_cases h3j : 3 ≤ j
            · rcases hD2 j _ h3j hj hfj with ⟨w, cl, ch, hn, _⟩
              exact absurd hn (by simp)
            · have hj3 : j = 0 ∨ j = 1 ∨ j = 2 := by omega
              rcases hj3 with rfl | rfl | rfl
              · rw [h02] at hfj
                have hb : false = b := by
                  have hx := Option.some.inj hfj
                  injection hx
                rw [← hb]
                rfl
              · rw [h12] at hfj
                have hb : true = b := by
                  have hx := Option.some.inj hfj
                  injection hx
                rw [← hb]
                rfl
              · rw [hN2] at hfj
                exact Option.noConfusion hfj
          rw [pin i hile hfii, pin i' hile' hfii']
      | var w cl ch =>
          rw [hcn] at hfii hfii'
          have big : ∀ j, j ≤ nid2 → flook j fi2 = some (Node.var w cl ch) →
              3 ≤ j := by
            intro j hj hfj
            by_cases h3j : 3 ≤ j
            · exact h3j
            · have hj3 : j = 0 ∨ j = 1 ∨ j = 2 := by omega
              rcases hj3 with rfl | rfl | rfl
              · rw [h02] at hfj
                exact absurd (Option.some.inj hfj) (by simp)
              · rw [h12] at hfj
                exact absurd (Option.some.inj hfj) (by simp)
              · rw [hN2] at hfj
                exact Option.noConfusion hfj
          rw [hFJ2 i i' _ (big i hile hfii) hile (big i' hile' hfii') hile'
            hfii hfii']
  exact ⟨ti2, fi2, nid2, hstep, hle, hA2, hB2, h02, h12, hN2, by omega,
    hD2, hFJ2⟩

/-- The whole level pass of `BDD::reduce` establishes the invariant with
no level left. -/
theorem bddReducePass_spec {t : Node} (hord : Node.ordered t = true) :
    ∃ ti fi nid, bddReducePass t = some (ti, fi, nid) ∧
      BInv t [] ti fi nid := by
  suffices h : ∀ (L : List Nat) (ti : ToIdx) (fi : FromIdx) (nid : Nat),
      levState t L → BInv t L ti fi nid →
      ∃ ti2 fi2 nid2,
        List.foldlM (levelStepB t) (ti, fi, nid) L = some (ti2, fi2, nid2) ∧
        BInv t [] ti2 fi2 nid2 by
    simp only [bddReducePass]
    exact h (levelsDesc t) _ _ _ (levState_init t) (BInv_init t)
  intro L
  induction L with
  | nil =>
      intro ti fi nid _ hinv
      exact ⟨ti, fi, nid, rfl, hinv⟩
  | cons v rest ih =>
      intro ti fi nid hlev hinv
      rcases BInv_step hlev hord hinv with ⟨ti2, fi2, nid2, hstep, _, hinv2⟩
      rcases ih ti2 fi2 nid2 (levState_step hlev) hinv2 with
        ⟨ti3, fi3, nid3, hrun, hinv3⟩
      refine ⟨ti3, fi3, nid3, ?_, hinv3⟩
      rw [List.foldlM_cons, hstep]
      exact hrun

/-- `BDD::reduce` of an ordered tree produces exactly the structural
canonical form. -/
theorem bddReduce_eq_canon {t : Node} (hord : Node.ordered t = true) :
    bddReduce t = some (Node.bddCanon t) := by
  rcases bddReducePass_spec hord with ⟨ti, fi, nid, hpass, hinv⟩
  obtain ⟨hA, _⟩ := hinv
  rcases hA t (subNodes_self t) (fun w _ => List.not_mem_nil w) with
    ⟨i, hti, hfii, _⟩
  simp only [bddReduce, hpass, hti]
  exact hfii

/-! ### ZDD reduce: pure structure lemmas -/

theorem ordFrom_sub : ∀ {t : Node} {w : Nat} {s : Node},
    Node.ordFrom w t = true → s ∈ t.subNodes → Node.ordFrom w s = true := by
  intro t
  induction t with
  | bool b =>
      intro w s _ hm
      simp [Node.subNodes] at hm
      subst hm
      rfl
  | var v l h ihl ihh =>
      intro w s hord hm
      simp only [Node.ordFrom, Bool.and_eq_true, decide_eq_true_eq] at hord
      simp only [Node.subNodes, List.mem_cons, List.mem_append] at hm
      rcases hm with rfl | hm | hm
      · simp only [Node.ordFrom, Bool.and_eq_true, decide_eq_true_eq]
        exact ⟨⟨hord.1.1, hord.1.2⟩, hord.2⟩
      · exact ordFrom_mono (Nat.le_of_lt hord.1.1) (ihl hord.1.2 hm)
      · exact ordFrom_mono (Nat.le_of_lt hord.1.1) (ihh hord.2 hm)

theorem fam_empty_sub : ∀ {t s : Node}, Node.fam t = ∅ → s ∈ t.subNodes →
    Node.fam s = ∅ := by
  intro t
  induction t with
  | bool b =>
      intro s hf hm
      simp [Node.subNodes] at hm
      subst hm
      exact hf
  | var v l h ihl ihh =>
      intro s hf hm
      have hlh : Node.fam l = ∅ ∧ Node.fam h = ∅ := by
        simp only [Node.fam] at hf
        refine ⟨(Finset.union_eq_empty.mp hf).1, ?_⟩
        exact Finset.image_eq_empty.mp (Finset.union_eq_empty.mp hf).2
      simp only [Node.subNodes, List.mem_cons, List.mem_append] at hm
      rcases hm with rfl | hm | hm
      · exact hf
      · exact ihl hlh.1 hm
      · exact ihh hlh.2 hm

/-- The ZDD canonical form is the false terminal exactly for the empty
family. -/
theorem zddCanon_eq_false_iff {t : Node} :
    Node.zddCanon t = Node.bool false ↔ Node.fam t = ∅ := by
  constructor
  · intro hc
    rw [← fam_zddCanon, hc]
    rfl
  · intro hf
    cases hcn : Node.zddCanon t with
    | bool b =>
        cases b with
        | false => rfl
        | true =>
            have hfc : Node.fam (Node.zddCanon t) = Node.fam t := fam_zddCanon t
            rw [hcn, hf] at hfc
            exact absurd hfc (by simp [Node.fam])
    | var w cl ch =>
        have hr : Node.zddReduced (Node.zddCanon t) = true := zddReduced_zddCanon t
        rw [hcn] at hr
        rcases fam_nonempty_of_zddReduced hr (by simp) with ⟨s, hs⟩
        have hfc : Node.fam (Node.zddCanon t) = Node.fam t := fam_zddCanon t
        rw [hcn, hf] at hfc
        rw [hfc] at hs
        exact absurd hs (Finset.not_mem_empty s)

/-- A subtree whose ZDD canonical form is a decision vertex pins the
whole tree's canonical top variable from below, with equality only for
the tree's own canonical form. -/
theorem zddCanon_sub_min : ∀ {t : Node}, Node.ordered t = true →
    ∀ {s : Node}, s ∈ t.subNodes → ∀ {w' : Nat} {cl ch : Node},
    Node.zddCanon s = Node.var w' cl ch →
    ∃ w cl0 ch0, Node.zddCanon t = Node.var w cl0 ch0 ∧ w ≤ w' ∧
      (w = w' → Node.zddCanon s = Node.zddCanon t) := by
  intro t
  induction t with
  | bool b =>
      intro _ s hm w' cl ch hc
      simp [Node.subNodes] at hm
      subst hm
      simp [Node.zddCanon] at hc
  | var v l h ihl ihh =>
      intro hord s hm w' cl ch hc
      simp only [Node.ordered, Bool.and_eq_true] at hord
      simp only [Node.subNodes, List.mem_cons, List.mem_append] at hm
      rcases hm with rfl | hm | hm
      · exact ⟨w', cl, ch, hc, Nat.le_refl _, fun _ => rfl⟩
      · rcases ihl (ordered_of_ordFrom hord.1) hm hc with
          ⟨w, cl0, ch0, hcl, hwle, heq⟩
        by_cases hhF : Node.zddCanon h = Node.bool false
        · refine ⟨w, cl0, ch0, ?_, hwle, ?_⟩
          · rw [zddCanon_var_eq hhF]
            exact hcl
          · intro hww
            rw [zddCanon_var_eq hhF]
            exact heq hww
        · have hvs : Node.ordFrom v s = true := ordFrom_sub hord.1 hm
          refine ⟨v, Node.zddCanon l, Node.zddCanon h, zddCanon_var_ne hhF, ?_, ?_⟩
          · exact Nat.le_of_lt (zddCanon_topvar_gt hvs hc)
          · intro hvw
            exact absurd (zddCanon_topvar_gt hvs hc) (by omega)
      · by_cases hhF : Node.zddCanon h = Node.bool false
        · exfalso
          have hfh : Node.fam h = ∅ := zddCanon_eq_false_iff.mp hhF
          have hfs : Node.fam s = ∅ := fam_empty_sub hfh hm
          have hsf : Node.zddCanon s = Node.bool false :=
            zddCanon_eq_false_iff.mpr hfs
          rw [hc] at hsf
          exact Node.noConfusion hsf
        · have hvs : Node.ordFrom v s = true := ordFrom_sub hord.2 hm
          refine ⟨v, Node.zddCanon l, Node.zddCanon h, zddCanon_var_ne hhF, ?_, ?_⟩
          · exact Nat.le_of_lt (zddCanon_topvar_gt hvs hc)
          · intro hvw
            exact absurd (zddCanon_topvar_gt hvs hc) (by omega)

/-- ZDD analogue of `canon_resolved_topvar`. -/
theorem canonZ_resolved_topvar {t : Node} {v : Nat} {rest : List Nat} {s : Node}
    (hlev : levState t (v :: rest)) (hord : Node.ordered t = true)
    (hs : s ∈ t.subNodes) (hres : resolvedIn (v :: rest) s)
    {w : Nat} {cl ch : Node}
    (hc : Node.zddCanon s = Node.var w cl ch) : v < w := by
  cases s with
  | bool b => simp [Node.zddCanon] at hc
  | var u l h =>
      have hvu : v < u := resolved_var_gt hlev hs hres rfl
      have hof : Node.ordFrom v (Node.var u l h) = true :=
        ordFrom_of_lt (ordered_sub hs hord) rfl hvu
      exact zddCanon_topvar_gt hof hc

/-! ### ZDD reduce: staged-vertex helpers -/

/-- ZDD analogue of `staged_key_eq`. -/
theorem staged_key_eq_z {t : Node} {v : Nat} {rest : List Nat} {ti : ToIdx}
    (hB : ∀ s s', s ∈ t.subNodes → s' ∈ t.subNodes →
      resolvedIn (v :: rest) s → resolvedIn (v :: rest) s' →
      (flook s ti = flook s' ti ↔ Node.zddCanon s = Node.zddCanon s'))
    (hlev : levState t (v :: rest)) (hord : Node.ordered t = true)
    {k1 k2 : Nat × Nat} {l h l2 h2 : Node}
    (h1m : Node.var v l h ∈ t.subNodes)
    (h1l : flook l ti = some k1.1) (h1h : flook h ti = some k1.2)
    (h2m : Node.var v l2 h2 ∈ t.subNodes)
    (h2l : flook l2 ti = some k2.1) (h2h : flook h2 ti = some k2.2)
    (hcl : Node.zddCanon l = Node.zddCanon l2)
    (hch : Node.zddCanon h = Node.zddCanon h2) : k1 = k2 := by
  rcases child_facts hlev hord h1m with ⟨hlm, hhm, hlres, hhres, _, _⟩
  rcases child_facts hlev hord h2m with ⟨hlm2, hhm2, hlres2, hhres2, _, _⟩
  have e1 := (hB l l2 hlm hlm2 hlres hlres2).mpr hcl
  have e2 := (hB h h2 hhm hhm2 hhres hhres2).mpr hch
  rw [h1l, h2l] at e1
  rw [h1h, h2h] at e2
  exact Prod.ext (Option.some.inj e1) (Option.some.inj e2)

/-- ZDD analogue of `staged_canon_det`. -/
theorem staged_canon_det_z {t : Node} {v : Nat} {rest : List Nat} {ti : ToIdx}
    {fi : FromIdx} {nid : Nat}
    (hA : ∀ s, s ∈ t.subNodes → resolvedIn (v :: rest) s →
      ∃ i, flook s ti = some i ∧ flook i fi = some (Node.zddCanon s) ∧
        i ≤ nid ∧ (i = 0 ∨ i = 1 ∨ 3 ≤ i))
    (hlev : levState t (v :: rest)) (hord : Node.ordered t = true)
    {k : Nat × Nat} {l h : Node} {cl ch : Node}
    (hm : Node.var v l h ∈ t.subNodes)
    (hl : flook l ti = some k.1) (hh : flook h ti = some k.2)
    (hcd : Node.zddCanon h ≠ Node.bool false)
    (hfcl : flook k.1 fi = some cl) (hfch : flook k.2 fi = some ch) :
    Node.zddCanon (Node.var v l h) = Node.var v cl ch ∧
    Node.zddCanon l = cl ∧ Node.zddCanon h = ch := by
  rcases child_facts hlev hord hm with ⟨hlm, hhm, hlres, hhres, _, _⟩
  rcases hA l hlm hlres with ⟨il, hlti, hfil, _, _⟩
  rcases hA h hhm hhres with ⟨ih2, hhti, hfih, _, _⟩
  have hil : il = k.1 := Option.some.inj (hlti.symm.trans hl)
  have hih : ih2 = k.2 := Option.some.inj (hhti.symm.trans hh)
  subst hil
  subst hih
  have hcl : Node.zddCanon l = cl := Option.some.inj (hfil.symm.trans hfcl)
  have hch : Node.zddCanon h = ch := Option.some.inj (hfih.symm.trans hfch)
  refine ⟨?_, hcl, hch⟩
  rw [zddCanon_var_ne hcd, hcl, hch]

/-- ZDD analogue of `merged_canon_self`. -/
theorem merged_canon_self_z {v : Nat} {l h : Node}
    (hcd : Node.zddCanon h ≠ Node.bool false) :
    Node.zddCanon (Node.var v (Node.zddCanon l) (Node.zddCanon h)) =
      Node.var v (Node.zddCanon l) (Node.zddCanon h) := by
  have hne : Node.zddCanon (Node.zddCanon h) ≠ Node.bool false := by
    rw [zddCanon_idem]
    exact hcd
  rw [zddCanon_var_ne hne, zddCanon_idem, zddCanon_idem]

/-! ### `Node::build_indexer` lemmas -/

theorem buildIdxAux_fst_bool : ∀ (lst : List Node) (i : Nat) (ti : ToIdx)
    (fi : FromIdx) (b : Bool),
    flook (Node.bool b) ti = some (cond b 1 0) →
    flook (Node.bool b) (buildIdxAux lst i ti fi).1 = some (cond b 1 0) := by
  intro lst
  induction lst with
  | nil =>
      intro i ti fi b h
      exact h
  | cons n r ih =>
      intro i ti fi b h
      simp only [buildIdxAux]
      by_cases hc : Node.bool b = n
      · subst hc
        apply ih
        rw [flook, if_pos rfl]
      · apply ih
        rw [flook, if_neg hc]
        exact h

theorem buildIdxAux_snd_low : ∀ (lst : List Node) (i : Nat) (ti : ToIdx)
    (fi : FromIdx) (k : Nat), k ≤ i →
    flook k (buildIdxAux lst i ti fi).2 = flook k fi := by
  intro lst
  induction lst with
  | nil =>
      intro i ti fi k _
      rfl
  | cons n r ih =>
      intro i ti fi k hk
      simp only [buildIdxAux]
      rw [ih (i + 1) _ _ k (by omega)]
      rw [flook, if_neg (by omega)]

theorem buildIdx_fst_bool (lst : List Node) (b : Bool) :
    flook (Node.bool b) (buildIdx lst).1 = some (cond b 1 0) := by
  simp only [buildIdx]
  apply buildIdxAux_fst_bool
  cases b <;> simp [flook]

theorem buildIdx_snd_low (lst : List Node) (k : Nat) (hk : k ≤ 1) :
    flook k (buildIdx lst).2 =
      flook k [(0, Node.bool false), (1, Node.bool true)] := by
  simp only [buildIdx]
  exact buildIdxAux_snd_low lst 1 _ _ k hk

theorem buildIdx_snd_root (n : Node) (r : List Node) :
    flook 2 (buildIdx (n :: r)).2 = some n := by
  simp only [buildIdx, buildIdxAux]
  rw [buildIdxAux_snd_low r 2 _ _ 2 (Nat.le_refl 2)]
  simp [flook]

theorem subNodes_head : ∀ t : Node, ∃ r, t.subNodes = t :: r := by
  intro t
  cases t with
  | bool b => exact ⟨[], rfl⟩
  | var v l h => exact ⟨_, rfl⟩

/-! ### Phase 1 of `ZDD::reduce` -/

theorem phase1Z_spec {t : Node} {v : Nat} {rest : List Nat} {ti : ToIdx}
    {fi : FromIdx} {nid : Nat}
    (hA : ∀ s, s ∈ t.subNodes → resolvedIn (v :: rest) s →
      ∃ i, flook s ti = some i ∧ flook i fi = some (Node.zddCanon s) ∧
        i ≤ nid ∧ (i = 0 ∨ i = 1 ∨ 3 ≤ i))
    (h0 : flook 0 fi = some (Node.bool false))
    (h1 : flook 1 fi = some (Node.bool true))
    (hD : ∀ i n, 3 ≤ i → i ≤ nid → flook i fi = some n →
      ∃ w cl ch, n = Node.var w cl ch ∧ w ∉ v :: rest ∧
        ∃ s, s ∈ t.subNodes ∧ resolvedIn (v :: rest) s ∧ Node.zddCanon s = n)
    (hlev : levState t (v :: rest)) (hord : Node.ordered t = true) :
    ∀ (lst : List Node) (tic : ToIdx),
    (∀ s, s ∈ lst → s ∈ t.subNodes ∧ s.varIdx = some v) →
    (∀ s : Node, s.varIdx ≠ some v → flook s tic = flook s ti) →
    ∃ ti1 q, phase1Z lst tic = some (ti1, q) ∧
      (∀ s : Node, s.varIdx ≠ some v → flook s ti1 = flook s ti) ∧
      (∀ s : Node, s ∉ lst → flook s ti1 = flook s tic) ∧
      (∀ s l h, s = Node.var v l h → s ∈ lst →
        Node.zddCanon h = Node.bool false →
        ∃ i, flook s ti1 = some i ∧ flook i fi = some (Node.zddCanon s) ∧
          i ≤ nid ∧ (i = 0 ∨ i = 1 ∨ 3 ≤ i) ∧ flook l ti = some i) ∧
      (∀ k s, (k, s) ∈ q → s ∈ t.subNodes ∧ ∃ l h, s = Node.var v l h ∧
        flook l ti = some k.1 ∧ flook h ti = some k.2 ∧
        Node.zddCanon h ≠ Node.bool false) ∧
      (∀ s l h, s = Node.var v l h → s ∈ lst →
        Node.zddCanon h ≠ Node.bool false → ∃ k, (k, s) ∈ q) := by
  intro lst
  induction lst with
  | nil =>
      intro tic _ htic
      refine ⟨tic, [], rfl, htic, fun s _ => rfl, ?_, ?_, ?_⟩
      · intro s l h _ hm _
        exact absurd hm (List.not_mem_nil s)
      · intro k s hm
        exact absurd hm (List.not_mem_nil (k, s))
      · intro s l h _ hm _
        exact absurd hm (List.not_mem_nil s)
  | cons s0 lst' ih =>
      intro tic hlst htic
      rcases hlst s0 (List.mem_cons_self s0 lst') with ⟨hs0m, hs0v⟩
      obtain ⟨l, h, rfl⟩ : ∃ l h, s0 = Node.var v l h := by
        cases s0 with
        | bool b => simp [Node.varIdx] at hs0v
        | var w l h =>
            simp only [Node.varIdx, Option.some.injEq] at hs0v
            exact ⟨l, h, by rw [hs0v]⟩
      rcases child_facts hlev hord hs0m with
        ⟨hlm, hhm, hlres, hhres, hlvne, hhvne⟩
      rcases hA l hlm hlres with ⟨il, hlti, hfil, hiln, hilr⟩
      rcases hA h hhm hhres with ⟨ihh, hhti, hfih, hihn, hihr⟩
      have hltic : flook l tic = some il := by
        rw [htic l hlvne]
        exact hlti
      have hhtic : flook h tic = some ihh := by
        rw [htic h hhvne]
        exact hhti
      have hiff : ihh = 0 ↔ Node.zddCanon h = Node.bool false := by
        constructor
        · intro he
          rw [he, h0] at hfih
          exact (Option.some.inj hfih).symm
        · intro he
          rcases hihr with h0c | h1c | h3c
          · exact h0c
          · exfalso
            rw [h1c] at hfih
            rw [h1] at hfih
            have hx := Option.some.inj hfih
            rw [he] at hx
            injection hx with hb
            exact Bool.noConfusion hb
          · exfalso
            rcases hD ihh _ h3c hihn hfih with ⟨w, cl, ch, hn, _⟩
            rw [he] at hn
            exact Node.noConfusion hn
      by_cases hcan : Node.zddCanon h = Node.bool false
      · -- redundant vertex: alias to the low child's id
        have hih0 : ihh = 0 := hiff.mpr hcan
        have hstep : phase1Z (Node.var v l h :: lst') tic =
            phase1Z lst' ((Node.var v l h, il) :: tic) := by
          simp only [phase1Z, hhtic, hltic]
          rw [if_pos hih0]
        rcases ih ((Node.var v l h, il) :: tic)
            (fun s hs => hlst s (List.mem_cons_of_mem _ hs))
            (fun s hsv => by
              rw [flook]
              rw [if_neg (fun hc => hsv (by rw [hc]; rfl))]
              exact htic s hsv) with
          ⟨ti1, q, hrun, hp1, hp2, hp3, hp4, hp5⟩
        refine ⟨ti1, q, by rw [hstep]; exact hrun, hp1, ?_, ?_, hp4, ?_⟩
        · intro s hs
          have hs' : s ∉ lst' := fun hc => hs (List.mem_cons_of_mem _ hc)
          have hsne : s ≠ Node.var v l h := fun hc => hs (hc ▸ List.mem_cons_self _ _)
          rw [hp2 s hs']
          rw [flook, if_neg hsne]
        · intro s l2 h2 hseq hsm hcan2
          rcases List.mem_cons.mp hsm with rfl | hsm
          · injection hseq with hv0 hl0 hh0
            subst hl0
            subst hh0
            by_cases hdup : Node.var v l h ∈ lst'
            · exact hp3 (Node.var v l h) l h rfl hdup hcan
            · have hval := hp2 (Node.var v l h) hdup
              simp only [flook, if_pos] at hval
              refine ⟨il, hval, ?_, hiln, hilr, hlti⟩
              rw [zddCanon_var_eq hcan]
              exact hfil
          · exact hp3 s l2 h2 hseq hsm hcan2
        · intro s l2 h2 hseq hsm hcan2
          rcases List.mem_cons.mp hsm with rfl | hsm
          · cases hseq
            exact absurd hcan hcan2
          · exact hp5 s l2 h2 hseq hsm hcan2
      · -- staged vertex
        have hih0 : ihh ≠ 0 := fun hc => hcan (hiff.mp hc)
        rcases ih tic (fun s hs => hlst s (List.mem_cons_of_mem _ hs)) htic with
          ⟨ti1, q, hrun, hp1, hp2, hp3, hp4, hp5⟩
        have hstep : phase1Z (Node.var v l h :: lst') tic =
            some (ti1, ((il, ihh), Node.var v l h) :: q) := by
          simp only [phase1Z, hhtic, hltic, hrun]
          rw [if_neg hih0]
        refine ⟨ti1, ((il, ihh), Node.var v l h) :: q, hstep, hp1, ?_, ?_, ?_, ?_⟩
        · intro s hs
          exact hp2 s (fun hc => hs (List.mem_cons_of_mem _ hc))
        · intro s l2 h2 hseq hsm hcan2
          rcases List.mem_cons.mp hsm with rfl | hsm
          · cases hseq
            exact absurd hcan2 hcan
          · exact hp3 s l2 h2 hseq hsm hcan2
        · intro k s hm
          rcases List.mem_cons.mp hm with heq | hm
          · have hk1 : k = (il, ihh) := congrArg Prod.fst heq
            have hs1 : s = Node.var v l h := congrArg Prod.snd heq
            subst hk1
            subst hs1
            exact ⟨hs0m, l, h, rfl, hlti, hhti, hcan⟩
          · exact hp4 k s hm
        · intro s l2 h2 hseq hsm hcan2
          rcases List.mem_cons.mp hsm with rfl | hsm
          · cases hseq
            exact ⟨(il, ihh), List.mem_cons_self _ _⟩
          · rcases hp5 s l2 h2 hseq hsm hcan2 with ⟨k, hk⟩
            exact ⟨k, List.mem_cons_of_mem _ hk⟩

/-- Complete behaviour of phase 2 of a `ZDD::reduce` level over a
sorted staged list; mirrors `phase2B_spec`, with the `usize::MAX`
sentinel rendered as `none` and the additional observation (last
conjunct) that the most recent id registers the canonical form of one
of the staged vertices. -/
theorem phase2Z_spec {t : Node} {v : Nat} {rest : List Nat} {ti : ToIdx}
    {fi : FromIdx} {nid : Nat}
    (hA : ∀ s, s ∈ t.subNodes → resolvedIn (v :: rest) s →
      ∃ i, flook s ti = some i ∧ flook i fi = some (Node.zddCanon s) ∧
        i ≤ nid ∧ (i = 0 ∨ i = 1 ∨ 3 ≤ i))
    (hB : ∀ s s', s ∈ t.subNodes → s' ∈ t.subNodes →
      resolvedIn (v :: rest) s → resolvedIn (v :: rest) s' →
      (flook s ti = flook s' ti ↔ Node.zddCanon s = Node.zddCanon s'))
    (hlev : levState t (v :: rest)) (hord : Node.ordered t = true) :
    ∀ (q : List ((Nat × Nat) × Node)) (old : Option (Nat × Nat)) (nid' : Nat)
      (tic : ToIdx) (fic : FromIdx),
    List.Pairwise (fun a b => keyLE a.1 b.1 = true) q →
    (∀ k s, (k, s) ∈ q → s ∈ t.subNodes ∧ ∃ l h, s = Node.var v l h ∧
      flook l ti = some k.1 ∧ flook h ti = some k.2 ∧
      Node.zddCanon h ≠ Node.bool false) →
    (∀ s : Node, s.varIdx ≠ some v → flook s tic = flook s ti) →
    (∀ i, i ≤ nid → flook i fic = flook i fi) →
    nid ≤ nid' →
    ((old = none ∧ nid' = nid) ∨
      (nid < nid' ∧ ∃ ok n0, old = some ok ∧ flook nid' fic = some n0 ∧
        (∀ k2 s2, (k2, s2) ∈ q → keyLE ok k2 = true) ∧
        (∀ k2 s2, (k2, s2) ∈ q → k2 = ok → Node.zddCanon s2 = n0))) →
    ∃ nid2 ti2 fi2,
      phase2Z q old nid' tic fic = some (nid2, ti2, fi2) ∧
      nid' ≤ nid2 ∧
      (∀ s : Node, flook s ti2 = flook s tic ∨
        (s.varIdx = some v ∧ ∃ j k2 s2, (k2, s2) ∈ q ∧
          flook s2 ti2 = some j ∧ flook s ti2 = some j ∧
          nid < j ∧ j ≤ nid2 ∧ flook j fi2 = some (Node.zddCanon s) ∧
          Node.zddCanon s = Node.zddCanon s2)) ∧
      (∀ k2 s2, (k2, s2) ∈ q → ∃ j, flook s2 ti2 = some j ∧
        nid < j ∧ j ≤ nid2 ∧ flook j fi2 = some (Node.zddCanon s2) ∧
        (∀ k3 s3, (k3, s3) ∈ q → k3 = k2 → flook s3 ti2 = some j)) ∧
      (∀ k2 s2, (k2, s2) ∈ q → some k2 = old → flook s2 ti2 = some nid') ∧
      (∀ i, i ≤ nid' → flook i fi2 = flook i fic) ∧
      (∀ i n, nid' < i → i ≤ nid2 → flook i fi2 = some n →
        ∃ k2 s2, (k2, s2) ∈ q ∧ s2 ∈ t.subNodes ∧ s2.varIdx = some v ∧
          Node.zddCanon s2 = n ∧ flook s2 ti2 = some i) ∧
      (nid2 = nid' ∨ ∃ k2 s2, (k2, s2) ∈ q ∧
        flook nid2 fi2 = some (Node.zddCanon s2)) := by
  intro q
  induction q with
  | nil =>
      intro old nid' tic fic _ _ _ _ _ _
      refine ⟨nid', tic, fic, rfl, Nat.le_refl _, fun s => Or.inl rfl, ?_, ?_,
        fun i _ => rfl, ?_, Or.inl rfl⟩
      · intro k2 s2 hm2
        exact absurd hm2 (List.not_mem_nil (k2, s2))
      · intro k2 s2 hm2
        exact absurd hm2 (List.not_mem_nil (k2, s2))
      · intro i n hgt hle _
        omega
  | cons e q ih =>
      obtain ⟨key, n⟩ := e
      intro old nid' tic fic hsortc hq htic hfic hnn hmid
      obtain ⟨hsort1, hsort2⟩ := List.pairwise_cons.mp hsortc
      obtain ⟨hnm, l, h, rfl, hkl, hkh, hcd⟩ :=
        hq key n (List.mem_cons_self _ _)
      rcases child_facts hlev hord hnm with ⟨hlm, hhm, hlres, hhres, hlvne, hhvne⟩
      rcases hA l hlm hlres with ⟨il, hlti, hfil, hiln, _⟩
      rcases hA h hhm hhres with ⟨ihh, hhti, hfih, hihn, _⟩
      have hil : il = key.1 := Option.some.inj (hlti.symm.trans hkl)
      have hih : ihh = key.2 := Option.some.inj (hhti.symm.trans hkh)
      subst hil
      subst hih
      have hltic : flook l tic = some key.1 := by
        rw [htic l hlvne]; exact hkl
      have hhtic : flook h tic = some key.2 := by
        rw [htic h hhvne]; exact hkh
      by_cases hko : some key = old
      · -- a key equal to the previous one reuses the current id
        rcases hmid with ⟨hold0, _⟩ | ⟨hlt, ok, n0, holdk, hfn0, hge, hsame⟩
        · exfalso
          rw [hold0] at hko
          exact Option.noConfusion hko
        · have hkok : key = ok := by
            rw [holdk] at hko
            exact Option.some.inj hko
          have hn0 : Node.zddCanon (Node.var v l h) = n0 :=
            hsame key (Node.var v l h) (List.mem_cons_self _ _) hkok
          have hstep : phase2Z ((key, Node.var v l h) :: q) old nid' tic fic =
              phase2Z q old nid' ((Node.var v l h, nid') :: tic) fic := by
            simp only [phase2Z]
            rw [if_pos hko]
          rcases ih old nid' ((Node.var v l h, nid') :: tic) fic
              hsort2
              (fun k2 s2 hm2 => hq k2 s2 (List.mem_cons_of_mem _ hm2))
              (fun s hsv => by
                rw [flook, if_neg (fun hc => hsv (by rw [hc]; rfl))]
                exact htic s hsv)
              hfic hnn
              (Or.inr ⟨hlt, ok, n0, holdk, hfn0,
                fun k2 s2 hm2 => hge k2 s2 (List.mem_cons_of_mem _ hm2),
                fun k2 s2 hm2 hk2 => hsame k2 s2 (List.mem_cons_of_mem _ hm2) hk2⟩)
            with ⟨nid2, ti2, fi2, hrun, hle, hcW, hc4, hc10, hc5, hc6, hc7⟩
          have hheadval : flook (Node.var v l h) ti2 = some nid' := by
            rcases hcW (Node.var v l h) with hpres |
              ⟨_, j, k2, s2, hm2, hs2v, hsv, hjgt, hjle, hfj, hceq⟩
            · rw [hpres]
              simp [flook]
            · obtain ⟨hs2m, l2, h2, rfl, h2l, h2h, hcd2⟩ :=
                hq k2 s2 (List.mem_cons_of_mem _ hm2)
              have hcc : Node.zddCanon l = Node.zddCanon l2 ∧
                  Node.zddCanon h = Node.zddCanon h2 := by
                rw [zddCanon_var_ne hcd, zddCanon_var_ne hcd2] at hceq
                injection hceq with e0 e1 e2
                exact ⟨e1, e2⟩
              have hkk : key = k2 :=
                staged_key_eq_z hB hlev hord hnm hkl hkh hs2m h2l h2h hcc.1 hcc.2
              have h10 := hc10 k2 _ hm2 (by rw [← hkk, holdk, hkok])
              have hj : j = nid' := Option.some.inj (hs2v.symm.trans h10)
              rw [hsv, hj]
          refine ⟨nid2, ti2, fi2, by rw [hstep]; exact hrun, hle, ?_, ?_, ?_,
            hc5, ?_, ?_⟩
          · intro s
            rcases hcW s with hpres | ⟨hsv, j, k2, s2, hm2, hrest'⟩
            · by_cases hse : s = Node.var v l h
              · subst hse
                right
                refine ⟨rfl, nid', key, Node.var v l h, List.mem_cons_self _ _,
                  hheadval, hheadval, hlt, Nat.le_trans (Nat.le_refl _) hle, ?_, rfl⟩
                rw [hc5 nid' (Nat.le_refl _), hfn0, hn0]
              · left
                rw [hpres, flook, if_neg hse]
            · right
              exact ⟨hsv, j, k2, s2, List.mem_cons_of_mem _ hm2, hrest'⟩
          · intro k2 s2 hm2
            rcases List.mem_cons.mp hm2 with heq | hm2
            · have hk2 : k2 = key := congrArg Prod.fst heq
              have hs2 : s2 = Node.var v l h := congrArg Prod.snd heq
              subst hk2; subst hs2
              refine ⟨nid', hheadval, hlt, hle, ?_, ?_⟩
              · rw [hc5 nid' (Nat.le_refl _), hfn0, hn0]
              · intro k3 s3 hm3 hk3
                rcases List.mem_cons.mp hm3 with heq3 | hm3
                · have hs3 : s3 = Node.var v l h := congrArg Prod.snd heq3
                  subst hs3
                  exact hheadval
                · exact hc10 k3 s3 hm3 (by rw [hk3, holdk, hkok])
            · rcases hc4 k2 s2 hm2 with ⟨j, hjv, hjgt, hjle, hjfi, hcons⟩
              refine ⟨j, hjv, hjgt, hjle, hjfi, ?_⟩
              intro k3 s3 hm3 hk3
              rcases List.mem_cons.mp hm3 with heq3 | hm3
              · have hk3a : k3 = key := congrArg Prod.fst heq3
                have hs3 : s3 = Node.var v l h := congrArg Prod.snd heq3
                subst hs3
                have hk2o : some k2 = old := by rw [← hk3, hk3a, hko]
                have h10 := hc10 k2 s2 hm2 hk2o
                have hj : j = nid' := Option.some.inj (hjv.symm.trans h10)
                rw [hj]
                exact hheadval
              · exact hcons k3 s3 hm3 hk3
          · intro k2 s2 hm2 hk2
            rcases List.mem_cons.mp hm2 with heq | hm2
            · have hs2 : s2 = Node.var v l h := congrArg Prod.snd heq
              subst hs2
              exact hheadval
            · exact hc10 k2 s2 hm2 hk2
          · intro i nn hgt hle2 hfi2i
            rcases hc6 i nn hgt hle2 hfi2i with ⟨k2, s2, hm2, hrest'⟩
            exact ⟨k2, s2, List.mem_cons_of_mem _ hm2, hrest'⟩
          · rcases hc7 with he | ⟨k2, s2, hm2, hv2⟩
            · exact Or.inl he
            · exact Or.inr ⟨k2, s2, List.mem_cons_of_mem _ hm2, hv2⟩
      · -- a new id is allocated and the merged vertex registered
        have hficl : flook key.1 fic = some (Node.zddCanon l) := by
          rw [hfic key.1 hiln]; exact hfil
        have hfich : flook key.2 fic = some (Node.zddCanon h) := by
          rw [hfic key.2 hihn]; exact hfih
        have hstep : phase2Z ((key, Node.var v l h) :: q) old nid' tic fic =
            phase2Z q (some key) (nid' + 1)
              ((Node.var v (Node.zddCanon l) (Node.zddCanon h), nid' + 1) ::
                (Node.var v l h, nid' + 1) :: tic)
              ((nid' + 1, Node.var v (Node.zddCanon l) (Node.zddCanon h)) :: fic) := by
          simp only [phase2Z, hltic, hhtic, hficl, hfich]
          rw [if_neg hko]
        set m := Node.var v (Node.zddCanon l) (Node.zddCanon h) with hm
        have hcanm : Node.zddCanon (Node.var v l h) = m := zddCanon_var_ne hcd
        have hmm : Node.zddCanon m = m := merged_canon_self_z hcd
        have hmvar : m.varIdx = some v := by rw [hm]; rfl
        have hsamek : ∀ k2 s2, (k2, s2) ∈ q → k2 = key →
            Node.zddCanon s2 = m := by
          intro k2 s2 hm2 hk2
          obtain ⟨hs2m, l2, h2, rfl, h2l, h2h, hcd2⟩ :=
            hq k2 s2 (List.mem_cons_of_mem _ hm2)
          subst hk2
          exact (staged_canon_det_z hA hlev hord hs2m h2l h2h hcd2 hfil hfih).1
        rcases ih (some key) (nid' + 1)
            ((m, nid' + 1) :: (Node.var v l h, nid' + 1) :: tic)
            ((nid' + 1, m) :: fic)
            hsort2
            (fun k2 s2 hm2 => hq k2 s2 (List.mem_cons_of_mem _ hm2))
            (fun s hsv => by
              rw [flook, if_neg (fun hc => hsv (by rw [hc, hm]; rfl)),
                flook, if_neg (fun hc => hsv (by rw [hc]; rfl))]
              exact htic s hsv)
            (fun i hi => by
              rw [flook, if_neg (by omega)]
              exact hfic i hi)
            (by omega)
            (Or.inr ⟨by omega, key, m, rfl, by simp [flook],
              fun k2 s2 hm2 => hsort1 (k2, s2) hm2,
              hsamek⟩)
          with ⟨nid2, ti2, fi2, hrun, hle, hcW, hc4, hc10, hc5, hc6, hc7⟩
        have hfi21 : flook (nid' + 1) fi2 = some m := by
          rw [hc5 (nid' + 1) (Nat.le_refl _)]
          simp [flook]
        have hheadval : flook (Node.var v l h) ti2 = some (nid' + 1) := by
          rcases hcW (Node.var v l h) with hpres |
            ⟨_, j, k2, s2, hm2, hs2v, hsv, hjgt, hjle, hfj, hceq⟩
          · rw [hpres]
            by_cases hhm2 : Node.var v l h = m
            · rw [flook, if_pos hhm2]
            · rw [flook, if_neg hhm2]
              simp [flook]
          · obtain ⟨hs2m, l2, h2, rfl, h2l, h2h, hcd2⟩ :=
              hq k2 s2 (List.mem_cons_of_mem _ hm2)
            have hcc : Node.zddCanon l = Node.zddCanon l2 ∧
                Node.zddCanon h = Node.zddCanon h2 := by
              rw [zddCanon_var_ne hcd, zddCanon_var_ne hcd2] at hceq
              injection hceq with e0 e1 e2
              exact ⟨e1, e2⟩
            have hkk : key = k2 :=
              staged_key_eq_z hB hlev hord hnm hkl hkh hs2m h2l h2h hcc.1 hcc.2
            have h10 := hc10 k2 _ hm2 (by rw [hkk])
            have hj : j = nid' + 1 := Option.some.inj (hs2v.symm.trans h10)
            rw [hsv, hj]
        have hmval : flook m ti2 = some (nid' + 1) := by
          rcases hcW m with hpres |
            ⟨_, j, k2, s2, hm2, hs2v, hsv, hjgt, hjle, hfj, hceq⟩
          · rw [hpres]
            simp [flook]
          · obtain ⟨hs2m, l2, h2, rfl, h2l, h2h, hcd2⟩ :=
              hq k2 s2 (List.mem_cons_of_mem _ hm2)
            rw [hmm, hm] at hceq
            rw [zddCanon_var_ne hcd2] at hceq
            have hcc : Node.zddCanon l = Node.zddCanon l2 ∧
                Node.zddCanon h = Node.zddCanon h2 := by
              injection hceq with e0 e1 e2
              exact ⟨e1, e2⟩
            have hkk : key = k2 :=
              staged_key_eq_z hB hlev hord hnm hkl hkh hs2m h2l h2h hcc.1 hcc.2
            have h10 := hc10 k2 _ hm2 (by rw [hkk])
            have hj : j = nid' + 1 := Option.some.inj (hs2v.symm.trans h10)
            rw [hsv, hj]
        refine ⟨nid2, ti2, fi2, by rw [hstep]; exact hrun, by omega,
          ?_, ?_, ?_, ?_, ?_, ?_⟩
        · intro s
          rcases hcW s with hpres | ⟨hsv, j, k2, s2, hm2, hrest'⟩
          · by_cases hsm1 : s = m
            · subst hsm1
              right
              refine ⟨hmvar, nid' + 1, key, Node.var v l h,
                List.mem_cons_self _ _, hheadval, hmval, by omega, hle, ?_, ?_⟩
              · rw [hmm]
                exact hfi21
              · rw [hmm, hcanm]
            · by_cases hsh : s = Node.var v l h
              · subst hsh
                right
                refine ⟨rfl, nid' + 1, key, Node.var v l h,
                  List.mem_cons_self _ _, hheadval, hheadval, by omega, hle,
                  ?_, rfl⟩
                rw [hcanm]
                exact hfi21
              · left
                rw [hpres, flook, if_neg hsm1, flook, if_neg hsh]
          · right
            exact ⟨hsv, j, k2, s2, List.mem_cons_of_mem _ hm2, hrest'⟩
        · intro k2 s2 hm2
          rcases List.mem_cons.mp hm2 with heq | hm2
          · have hk2 : k2 = key := congrArg Prod.fst heq
            have hs2 : s2 = Node.var v l h := congrArg Prod.snd heq
            subst hk2; subst hs2
            refine ⟨nid' + 1, hheadval, by omega, hle, ?_, ?_⟩
            · rw [hcanm]
              exact hfi21
            · intro k3 s3 hm3 hk3
              rcases List.mem_cons.mp hm3 with heq3 | hm3
              · have hs3 : s3 = Node.var v l h := congrArg Prod.snd heq3
                subst hs3
                exact hheadval
              · exact hc10 k3 s3 hm3 (by rw [hk3])
          · rcases hc4 k2 s2 hm2 with ⟨j, hjv, hjgt, hjle, hjfi, hcons⟩
            refine ⟨j, hjv, hjgt, hjle, hjfi, ?_⟩
            intro k3 s3 hm3 hk3
            rcases List.mem_cons.mp hm3 with heq3 | hm3
            · have hk3a : k3 = key := congrArg Prod.fst heq3
              have hs3 : s3 = Node.var v l h := congrArg Prod.snd heq3
              subst hs3
              have hk2k : some k2 = some key := by rw [← hk3, hk3a]
              have h10 := hc10 k2 s2 hm2 hk2k
              have hj : j = nid' + 1 := Option.some.inj (hjv.symm.trans h10)
              rw [hj]
              exact hheadval
            · exact hcons k3 s3 hm3 hk3
        · intro k2 s2 hm2 hk2
          rcases List.mem_cons.mp hm2 with heq | hm2
          · exfalso
            apply hko
            rw [← hk2]
            have hk2a : k2 = key := congrArg Prod.fst heq
            rw [hk2a]
          · exfalso
            rcases hmid with ⟨hold0, _⟩ | ⟨_, ok, n0, holdk, _, hge, _⟩
            · rw [hold0] at hk2
              exact Option.noConfusion hk2
            · have hk2o : k2 = ok := by
                rw [holdk] at hk2
                exact Option.some.inj hk2
              have hge1 : keyLE ok key = true :=
                hge key (Node.var v l h) (List.mem_cons_self _ _)
              have hge2 : keyLE key k2 = true := hsort1 (k2, s2) hm2
              rw [hk2o] at hge2
              apply hko
              rw [holdk, keyLE_antisymm hge2 hge1]
        · intro i hi
          rw [hc5 i (by omega), flook, if_neg (by omega)]
        · intro i nn hgt hle2 hfi2i
          by_cases hieq : i = nid' + 1
          · subst hieq
            have hnm2 : nn = m := (Option.some.inj (hfi21.symm.trans hfi2i)).symm
            subst hnm2
            exact ⟨key, Node.var v l h, List.mem_cons_self _ _, hnm, rfl,
              hcanm, hheadval⟩
          · rcases hc6 i nn (by omega) hle2 hfi2i with ⟨k2, s2, hm2, hrest'⟩
            exact ⟨k2, s2, List.mem_cons_of_mem _ hm2, hrest'⟩
        · rcases hc7 with he | ⟨k2, s2, hm2, hv2⟩
          · refine Or.inr ⟨key, Node.var v l h, List.mem_cons_self _ _, ?_⟩
            rw [he, hcanm]
            exact hfi21
          · exact Or.inr ⟨k2, s2, List.mem_cons_of_mem _ hm2, hv2⟩

/-! ### The `ZDD::reduce` level pass -/

theorem var_of_varIdx {s : Node} {v : Nat} (h : s.varIdx = some v) :
    ∃ l hh, s = Node.var v l hh := by
  cases s with
  | bool b => simp [Node.varIdx] at h
  | var w l hh =>
      simp only [Node.varIdx, Option.some.injEq] at h
      exact ⟨l, hh, by rw [h]⟩

/-- The ZDD invariant holds before the first level. -/
theorem ZInv_init (t : Node) :
    ZInv t (levelsDesc t) (buildIdx t.subNodes).1 (buildIdx t.subNodes).2 2 := by
  have hf0 : flook 0 (buildIdx t.subNodes).2 = some (Node.bool false) := by
    rw [buildIdx_snd_low t.subNodes 0 (by omega)]
    simp [flook]
  have hf1 : flook 1 (buildIdx t.subNodes).2 = some (Node.bool true) := by
    rw [buildIdx_snd_low t.subNodes 1 (by omega)]
    simp [flook]
  refine ⟨?_, ?_, hf0, hf1, Nat.le_refl 2, ?_, ?_, ?_⟩
  · intro s hs hres
    rcases resolved_init_terminal hs hres with ⟨b, rfl⟩
    refine ⟨cond b 1 0, buildIdx_fst_bool _ b, ?_, by cases b <;> simp,
      by cases b <;> simp⟩
    cases b
    · exact hf0
    · exact hf1
  · intro s s' hs hs' hres hres'
    rcases resolved_init_terminal hs hres with ⟨b, rfl⟩
    rcases resolved_init_terminal hs' hres' with ⟨b', rfl⟩
    rw [buildIdx_fst_bool _ b, buildIdx_fst_bool _ b']
    cases b <;> cases b' <;> simp [Node.zddCanon]
  · intro i n h3 h2 _
    omega
  · intro i i' n h3 h2 _ _ _ _
    omega
  · rcases subNodes_head t with ⟨r, hr⟩
    rw [hr]
    exact buildIdx_snd_root t r

/-- The pickup tracker holds before the first level. -/
theorem ZPick_init (t : Node) :
    ZPick t (levelsDesc t) (buildIdx t.subNodes).2 2 := by
  left
  refine ⟨?_, rfl⟩
  intro s hs hres
  rcases resolved_init_terminal hs hres with ⟨b, rfl⟩
  exact ⟨b, rfl⟩

/-- One level of `ZDD::reduce` preserves the invariant and the pickup
tracker. -/
theorem ZInv_step {t : Node} {v : Nat} {rest : List Nat} {ti : ToIdx}
    {fi : FromIdx} {nid : Nat}
    (hlev : levState t (v :: rest)) (hord : Node.ordered t = true)
    (hinv : ZInv t (v :: rest) ti fi nid)
    (hpick : ZPick t (v :: rest) fi nid) :
    ∃ ti2 fi2 nid2, levelStepZ t (ti, fi, nid) v = some (ti2, fi2, nid2) ∧
      nid ≤ nid2 ∧ ZInv t rest ti2 fi2 nid2 ∧ ZPick t rest fi2 nid2 := by
  obtain ⟨hA, hB, h0, h1, hn2, hD, hFJ, hZ2⟩ := hinv
  rcases phase1Z_spec hA h0 h1 hD hlev hord (nodesAt t v) ti
      (fun s hs => nodesAt_mem.mp hs) (fun s _ => rfl) with
    ⟨ti1, q, hrun1, hp1, hp2, hp3, hp4, hp5⟩
  have hq' : ∀ k s, (k, s) ∈ sortKey q → s ∈ t.subNodes ∧
      ∃ l h, s = Node.var v l h ∧ flook l ti = some k.1 ∧
        flook h ti = some k.2 ∧ Node.zddCanon h ≠ Node.bool false :=
    fun k s hm => hp4 k s ((sortKey_mem _ _).mp hm)
  rcases phase2Z_spec hA hB hlev hord (sortKey q) none nid ti1 fi
      (sortKey_sorted q) hq' hp1 (fun i _ => rfl) (Nat.le_refl nid)
      (Or.inl ⟨rfl, rfl⟩) with
    ⟨nid2, ti2, fi2, hrun2, hle, hcW, hc4, hc10, hc5, hc6, hc7⟩
  have hstep : levelStepZ t (ti, fi, nid) v = some (ti2, fi2, nid2) := by
    simp only [levelStepZ, hrun1, hrun2]
  have hvrest : v ∉ rest := by
    intro hc
    exact absurd (levState_head_lt hlev v hc) (Nat.lt_irrefl v)
  have hival : ∀ s : Node, s.varIdx ≠ some v → flook s ti2 = flook s ti := by
    intro s hsv
    rcases hcW s with hpres | ⟨hsv', _⟩
    · rw [hpres, hp1 s hsv]
    · exact absurd hsv' hsv
  have hA2 : ∀ s, s ∈ t.subNodes → resolvedIn rest s →
      ∃ i, flook s ti2 = some i ∧ flook i fi2 = some (Node.zddCanon s) ∧
        i ≤ nid2 ∧ (i = 0 ∨ i = 1 ∨ 3 ≤ i) := by
    intro s hs hres
    by_cases hsv : s.varIdx = some v
    · obtain ⟨l, h, rfl⟩ := var_of_varIdx hsv
      by_cases hcan : Node.zddCanon h = Node.bool false
      · rcases hp3 (Node.var v l h) l h rfl (nodesAt_mem.mpr ⟨hs, rfl⟩) hcan with
          ⟨i, hti1, hfii, hile, hir, hlti⟩
        refine ⟨i, ?_, ?_, Nat.le_trans hile hle, hir⟩
        · rcases hcW (Node.var v l h) with hpres |
            ⟨_, j, k2, s2, hm2, _, _, _, _, _, hceq⟩
          · rw [hpres]
            exact hti1
          · exfalso
            obtain ⟨hs2m, l2, h2, rfl, _, _, hcd2⟩ := hq' k2 s2 hm2
            rw [zddCanon_var_eq hcan, zddCanon_var_ne hcd2] at hceq
            rcases child_facts hlev hord hs with ⟨hlm, _, hlres, _, _, _⟩
            exact absurd (canonZ_resolved_topvar hlev hord hlm hlres hceq)
              (Nat.lt_irrefl v)
        · rw [hc5 i hile]
          exact hfii
      · rcases hp5 (Node.var v l h) l h rfl (nodesAt_mem.mpr ⟨hs, rfl⟩) hcan with
          ⟨k, hkq⟩
        rcases hc4 k _ ((sortKey_mem _ _).mpr hkq) with ⟨j, hjv, hjgt, hjle, hjfi, _⟩
        exact ⟨j, hjv, hjfi, hjle, Or.inr (Or.inr (by omega))⟩
    · have hres' : resolvedIn (v :: rest) s := resolvedIn_cons_of hres hsv
      rcases hA s hs hres' with ⟨i, hti, hfii, hile, hir⟩
      refine ⟨i, ?_, ?_, Nat.le_trans hile hle, hir⟩
      · rw [hival s hsv]
        exact hti
      · rw [hc5 i hile]
        exact hfii
  have h02 : flook 0 fi2 = some (Node.bool false) := by
    rw [hc5 0 (by omega)]
    exact h0
  have h12 : flook 1 fi2 = some (Node.bool true) := by
    rw [hc5 1 (by omega)]
    exact h1
  have hZ22 : flook 2 fi2 = some t := by
    rw [hc5 2 hn2]
    exact hZ2
  have hD2 : ∀ i n, 3 ≤ i → i ≤ nid2 → flook i fi2 = some n →
      ∃ w cl ch, n = Node.var w cl ch ∧ w ∉ rest ∧
        ∃ s, s ∈ t.subNodes ∧ resolvedIn rest s ∧ Node.zddCanon s = n := by
    intro i n h3 hle2 hfi2
    by_cases hin : i ≤ nid
    · rw [hc5 i hin] at hfi2
      rcases hD i n h3 hin hfi2 with ⟨w, cl, ch, hn, hwr, s, hsm, hsres, hsc⟩
      exact ⟨w, cl, ch, hn, fun hc => hwr (List.mem_cons_of_mem v hc),
        s, hsm, resolvedIn_tail hsres, hsc⟩
    · rcases hc6 i n (by omega) hle2 hfi2 with ⟨k2, s2, hm2, hs2m, hs2v, hs2c, _⟩
      obtain ⟨_, l2, h2, rfl, _, _, hcd2⟩ := hq' k2 s2 hm2
      refine ⟨v, Node.zddCanon l2, Node.zddCanon h2, ?_, hvrest,
        Node.var v l2 h2, hs2m, ?_, hs2c⟩
      · rw [← hs2c, zddCanon_var_ne hcd2]
      · intro w hw hmem
        simp only [Node.varIdx, Option.some.injEq] at hw
        subst hw
        exact hvrest hmem
  have hFJ2 : ∀ i i' n, 3 ≤ i → i ≤ nid2 → 3 ≤ i' → i' ≤ nid2 →
      flook i fi2 = some n → flook i' fi2 = some n → i = i' := by
    have hmix : ∀ i i' n, 3 ≤ i → i ≤ nid → nid < i' → i' ≤ nid2 →
        flook i fi2 = some n → flook i' fi2 = some n → False := by
      intro i i' n h3 hin hgt hle2 hfia hfib
      rw [hc5 i hin] at hfia
      rcases hD i n h3 hin hfia with ⟨w, cl, ch, hn, hwr, _⟩
      rcases hc6 i' n hgt hle2 hfib with ⟨k2, s2, hm2, _, _, hs2c, _⟩
      obtain ⟨_, l2, h2, rfl, _, _, hcd2⟩ := hq' k2 s2 hm2
      rw [zddCanon_var_ne hcd2, hn] at hs2c
      injection hs2c with hv0 _ _
      exact hwr (hv0 ▸ List.mem_cons_self v rest)
    intro i i' n h3 hle2 h3' hle2' hfia hfib
    by_cases hin : i ≤ nid
    · by_cases hin' : i' ≤ nid
      · rw [hc5 i hin] at hfia
        rw [hc5 i' hin'] at hfib
        exact hFJ i i' n h3 hin h3' hin' hfia hfib
      · exact (hmix i i' n h3 hin (by omega) hle2' hfia hfib).elim
    · by_cases hin' : i' ≤ nid
      · exact (hmix i' i n h3' hin' (by omega) hle2 hfib hfia).elim
      · rcases hc6 i n (by omega) hle2 hfia with ⟨k2, s2, hm2, _, _, hs2c, hs2t⟩
        rcases hc6 i' n (by omega) hle2' hfib with ⟨k3, s3, hm3, _, _, hs3c, hs3t⟩
        obtain ⟨hs2m, l2, h2, rfl, h2l, h2h, hcd2⟩ := hq' k2 s2 hm2
        obtain ⟨hs3m, l3, h3x, rfl, h3l, h3h, hcd3⟩ := hq' k3 s3 hm3
        have hcc : Node.zddCanon l2 = Node.zddCanon l3 ∧
            Node.zddCanon h2 = Node.zddCanon h3x := by
          have hcx := hs2c.trans hs3c.symm
          rw [zddCanon_var_ne hcd2, zddCanon_var_ne hcd3] at hcx
          injection hcx with e0 e1 e2
          exact ⟨e1, e2⟩
        have hkk : k2 = k3 :=
          staged_key_eq_z hB hlev hord hs2m h2l h2h hs3m h3l h3h hcc.1 hcc.2
        rcases hc4 k2 _ hm2 with ⟨j, hjv, _, _, _, hcons⟩
        have hi1 : i = j := Option.some.inj (hs2t.symm.trans hjv)
        have hi2 : i' = j :=
          Option.some.inj (hs3t.symm.trans (hcons k3 _ hm3 hkk.symm))
        rw [hi1, hi2]
  have hB2 : ∀ s s', s ∈ t.subNodes → s' ∈ t.subNodes →
      resolvedIn rest s → resolvedIn rest s' →
      (flook s ti2 = flook s' ti2 ↔ Node.zddCanon s = Node.zddCanon s') := by
    intro s s' hs hs' hres hres'
    rcases hA2 s hs hres with ⟨i, hti, hfii, hile, hir⟩
    rcases hA2 s' hs' hres' with ⟨i', hti', hfii', hile', hir'⟩
    constructor
    · intro he
      rw [hti, hti'] at he
      have hii : i = i' := Option.some.inj he
      subst hii
      exact Option.some.inj (hfii.symm.trans hfii')
    · intro hcc
      rw [← hcc] at hfii'
      rw [hti, hti']
      cases hcn : Node.zddCanon s with
      | bool b =>
          rw [hcn] at hfii hfii'
          have pin : ∀ j, j ≤ nid2 → (j = 0 ∨ j = 1 ∨ 3 ≤ j) →
              flook j fi2 = some (Node.bool b) → j = cond b 1 0 := by
            intro j hj hjr hfj
            rcases hjr with rfl | rfl | h3j
            · rw [h02] at hfj
              have hb : false = b := by
                have hx := Option.some.inj hfj
                injection hx
              rw [← hb]
              rfl
            · rw [h12] at hfj
              have hb : true = b := by
                have hx := Option.some.inj hfj
                injection hx
              rw [← hb]
              rfl
            · rcases hD2 j _ h3j hj hfj with ⟨w, cl, ch, hn, _⟩
              exact absurd hn (by simp)
          rw [pin i hile hir hfii, pin i' hile' hir' hfii']
      | var w cl ch =>
          rw [hcn] at hfii hfii'
          have big : ∀ j, j ≤ nid2 → (j = 0 ∨ j = 1 ∨ 3 ≤ j) →
              flook j fi2 = some (Node.var w cl ch) → 3 ≤ j := by
            intro j hj hjr hfj
            rcases hjr with rfl | rfl | h3j
            · rw [h02] at hfj
              exact absurd (Option.some.inj hfj) (by simp)
            · rw [h12] at hfj
              exact absurd (Option.some.inj hfj) (by simp)
            · exact h3j
          rw [hFJ2 i i' _ (big i hile hir hfii) hile
            (big i' hile' hir' hfii') hile' hfii hfii']
  refine ⟨ti2, fi2, nid2, hstep, hle,
    ⟨hA2, hB2, h02, h12, by omega, hD2, hFJ2, hZ22⟩, ?_⟩
  -- the pickup tracker
  rcases hc7 with hnoalloc | ⟨k1, s1, hm1, hv1⟩
  · have hq_empty : ∀ k2 s2, (k2, s2) ∈ sortKey q → False := by
      intro k2 s2 hm2
      rcases hc4 k2 s2 hm2 with ⟨j, _, hjgt, hjle, _, _⟩
      omega
    rcases hpick with ⟨hallc, hnid_eq⟩ | ⟨s0, w, cl, ch, hs0m, hs0res, hs0c, hs0v, hmin⟩
    · left
      refine ⟨?_, by omega⟩
      intro s hs hres
      by_cases hsv : s.varIdx = some v
      · obtain ⟨l, h, rfl⟩ := var_of_varIdx hsv
        by_cases hcan : Node.zddCanon h = Node.bool false
        · rw [zddCanon_var_eq hcan]
          rcases child_facts hlev hord hs with ⟨hlm, _, hlres, _, _, _⟩
          exact hallc l hlm hlres
        · exfalso
          rcases hp5 _ l h rfl (nodesAt_mem.mpr ⟨hs, rfl⟩) hcan with ⟨k, hkq⟩
          exact hq_empty k _ ((sortKey_mem _ _).mpr hkq)
      · exact hallc s hs (resolvedIn_cons_of hres hsv)
    · right
      refine ⟨s0, w, cl, ch, hs0m, resolvedIn_tail hs0res, hs0c, ?_, ?_⟩
      · rw [hnoalloc, hc5 nid (Nat.le_refl _)]
        exact hs0v
      · intro s' w' cl' ch' hs' hres' hc'
        by_cases hsv : s'.varIdx = some v
        · obtain ⟨l, h, rfl⟩ := var_of_varIdx hsv
          by_cases hcan : Node.zddCanon h = Node.bool false
          · rw [zddCanon_var_eq hcan] at hc'
            rcases child_facts hlev hord hs' with ⟨hlm, _, hlres, _, _, _⟩
            exact hmin l w' cl' ch' hlm hlres hc'
          · exfalso
            rcases hp5 _ l h rfl (nodesAt_mem.mpr ⟨hs', rfl⟩) hcan with ⟨k, hkq⟩
            exact hq_empty k _ ((sortKey_mem _ _).mpr hkq)
        · exact hmin s' w' cl' ch' hs' (resolvedIn_cons_of hres' hsv) hc'
  · obtain ⟨hs1m, l1, h1, rfl, _, _, hcd1⟩ := hq' k1 s1 hm1
    right
    refine ⟨Node.var v l1 h1, v, Node.zddCanon l1, Node.zddCanon h1, hs1m, ?_,
      zddCanon_var_ne hcd1, hv1, ?_⟩
    · intro w hw hmem
      simp only [Node.varIdx, Option.some.injEq] at hw
      subst hw
      exact hvrest hmem
    · intro s' w' cl' ch' hs' hres' hc'
      by_cases hsv : s'.varIdx = some v
      · obtain ⟨l, h, rfl⟩ := var_of_varIdx hsv
        by_cases hcan : Node.zddCanon h = Node.bool false
        · rw [zddCanon_var_eq hcan] at hc'
          rcases child_facts hlev hord hs' with ⟨hlm, _, hlres, _, _, _⟩
          exact Nat.le_of_lt (canonZ_resolved_topvar hlev hord hlm hlres hc')
        · have hcv : Node.zddCanon (Node.var v l h) =
              Node.var v (Node.zddCanon l) (Node.zddCanon h) :=
            zddCanon_var_ne hcan
          rw [hcv] at hc'
          injection hc' with hv0 _ _
          omega
      · exact Nat.le_of_lt (canonZ_resolved_topvar hlev hord hs'
          (resolvedIn_cons_of hres' hsv) hc')

/-- The whole level pass of `ZDD::reduce`. -/
theorem zddReducePass_spec {t : Node} (hord : Node.ordered t = true) :
    ∃ ti fi nid, zddReducePass t = some (ti, fi, nid) ∧
      ZInv t [] ti fi nid ∧ ZPick t [] fi nid := by
  suffices h : ∀ (L : List Nat) (ti : ToIdx) (fi : FromIdx) (nid : Nat),
      levState t L → ZInv t L ti fi nid → ZPick t L fi nid →
      ∃ ti2 fi2 nid2,
        List.foldlM (levelStepZ t) (ti, fi, nid) L = some (ti2, fi2, nid2) ∧
        ZInv t [] ti2 fi2 nid2 ∧ ZPick t [] fi2 nid2 by
    simp only [zddReducePass]
    exact h (levelsDesc t) _ _ _ (levState_init t) (ZInv_init t) (ZPick_init t)
  intro L
  induction L with
  | nil =>
      intro ti fi nid _ hinv hpick
      exact ⟨ti, fi, nid, rfl, hinv, hpick⟩
  | cons v rest ih =>
      intro ti fi nid hlev hinv hpick
      rcases ZInv_step hlev hord hinv hpick with
        ⟨ti2, fi2, nid2, hstep, _, hinv2, hpick2⟩
      rcases ih ti2 fi2 nid2 (levState_step hlev) hinv2 hpick2 with
        ⟨ti3, fi3, nid3, hrun, hinv3, hpick3⟩
      refine ⟨ti3, fi3, nid3, ?_, hinv3, hpick3⟩
      rw [List.foldlM_cons, hstep]
      exact hrun

/-- When the ZDD canonical form of an ordered tree is a decision
vertex, `ZDD::reduce` returns it. -/
theorem zddReduce_of_var {t : Node} (hord : Node.ordered t = true)
    {w : Nat} {cl ch : Node} (hc : Node.zddCanon t = Node.var w cl ch) :
    zddReduce t = some (Node.zddCanon t) := by
  rcases zddReducePass_spec hord with ⟨ti, fi, nid, hpass, hinv, hpick⟩
  rcases hpick with ⟨hallc, _⟩ | ⟨s, w0, cl0, ch0, hsm, _, hsc, hsv, hmin⟩
  · rcases hallc t (subNodes_self t) (fun u _ => List.not_mem_nil u) with ⟨b, hcb⟩
    rw [hc] at hcb
    exact Node.noConfusion hcb
  · rcases zddCanon_sub_min hord hsm hsc with ⟨w1, cl1, ch1, hct, hw1le, heq⟩
    have hw0le : w0 ≤ w1 :=
      hmin t w1 cl1 ch1 (subNodes_self t) (fun u _ => List.not_mem_nil u) hct
    have hw01 : w1 = w0 := by omega
    have hscts : Node.zddCanon s = Node.zddCanon t := heq hw01
    simp only [zddReduce, hpass]
    rw [hsv, hscts]

/-- When the ZDD canonical form of an ordered tree is a terminal,
`ZDD::reduce` returns the input tree unchanged: the pickup
`node[&next_id]` still sees the enumeration's slot 2, the root. -/
theorem zddReduce_of_const {t : Node} (hord : Node.ordered t = true)
    {b : Bool} (hc : Node.zddCanon t = Node.bool b) :
    zddReduce t = some t := by
  rcases zddReducePass_spec hord with ⟨ti, fi, nid, hpass, hinv, hpick⟩
  obtain ⟨_, _, _, _, _, _, _, hZ2⟩ := hinv
  rcases hpick with ⟨_, hnid_eq⟩ | ⟨s, w0, cl0, ch0, hsm, _, hsc, _, _⟩
  · simp only [zddReduce, hpass]
    rw [hnid_eq]
    exact hZ2
  · exfalso
    rcases zddCanon_sub_min hord hsm hsc with ⟨w1, cl1, ch1, hct, _, _⟩
    rw [hc] at hct
    exact Node.noConfusion hct

/-! ### `BDD::apply`: the recursion never returns -/

/-- `BDD::apply`'s `aux` never fills its caches and always re-invokes
itself on the very pair it was called with, so it never produces a
value: mixed operands panic on `var_index().unwrap()`, and every other
pair recurses forever. -/
theorem bddApplyAux_none (op : Bool → Bool → Bool) (unit : Bool)
    (ti : ToIdx) (fi : FromIdx) :
    ∀ (fuel : Nat) (v1 v2 : Node),
      bddApplyAux op unit ti fi [] [] fuel v1 v2 = none := by
  intro fuel
  induction fuel with
  | zero =>
      intro v1 v2
      rfl
  | succ n ih =>
      intro v1 v2
      cases h1 : flook v1 ti with
      | none => simp [bddApplyAux, h1]
      | some i1 =>
          cases h2 : flook v2 ti with
          | none => simp [bddApplyAux, h1, h2]
          | some i2 =>
              cases v1 <;> cases v2 <;>
                simp [bddApplyAux, h1, h2, flook, ih]

/-- `BDD::apply` never returns, whatever the operands. -/
theorem bddApply_diverges (op : Bool → Bool → Bool) (unit : Bool)
    (a b : Node) : bddApplyDiverges op unit a b := by
  intro fuel
  exact bddApplyAux_none op unit _ _ fuel a b

/-! ### `build_indexer` coverage and injectivity -/

theorem buildIdxAux_fst_mem : ∀ (lst : List Node) (i : Nat) (ti : ToIdx)
    (fi : FromIdx) (s : Node),
    s ∈ lst ∨ (flook s ti).isSome = true →
    (flook s (buildIdxAux lst i ti fi).1).isSome = true := by
  intro lst
  induction lst with
  | nil =>
      intro i ti fi s h
      rcases h with h | h
      · exact absurd h (List.not_mem_nil s)
      · exact h
  | cons n r ih =>
      intro i ti fi s h
      simp only [buildIdxAux]
      apply ih
      by_cases hc : s = n
      · right
        rw [flook, if_pos hc]
        rfl
      · rcases h with hm | hv
        · rcases List.mem_cons.mp hm with heq | hm'
          · exact absurd heq hc
          · exact Or.inl hm'
        · right
          rw [flook, if_neg hc]
          exact hv

theorem buildIdx_fst_mem {lst : List Node} {s : Node} (h : s ∈ lst) :
    (flook s (buildIdx lst).1).isSome = true := by
  simp only [buildIdx]
  exact buildIdxAux_fst_mem lst 1 _ _ s (Or.inl h)

theorem buildIdxAux_tinj : ∀ (lst : List Node) (i : Nat) (ti : ToIdx)
    (fi : FromIdx), 1 ≤ i →
    (∀ s k, flook s ti = some k →
      (s = Node.bool false ∧ k = 0) ∨ (s = Node.bool true ∧ k = 1) ∨
      (2 ≤ k ∧ k ≤ i)) →
    tinj ti →
    tinj (buildIdxAux lst i ti fi).1 := by
  intro lst
  induction lst with
  | nil =>
      intro i ti fi _ _ ht
      exact ht
  | cons n r ih =>
      intro i ti fi hi hbound ht
      simp only [buildIdxAux]
      apply ih (i + 1)
      · omega
      · intro s k hf
        by_cases hc : s = n
        · subst hc
          rw [flook, if_pos rfl] at hf
          have hk := Option.some.inj hf
          cases s with
          | bool b =>
              cases b
              · exact Or.inl ⟨rfl, hk.symm⟩
              · exact Or.inr (Or.inl ⟨rfl, hk.symm⟩)
          | var w l h =>
              have hk' : i + 1 = k := hk
              exact Or.inr (Or.inr ⟨by omega, by omega⟩)
        · rw [flook, if_neg hc] at hf
          rcases hbound s k hf with h1 | h2 | h3
          · exact Or.inl h1
          · exact Or.inr (Or.inl h2)
          · exact Or.inr (Or.inr ⟨h3.1, by omega⟩)
      · intro s s' k hf hf'
        by_cases hc : s = n <;> by_cases hc' : s' = n
        · rw [hc, hc']
        · subst hc
          rw [flook, if_pos rfl] at hf
          rw [flook, if_neg hc'] at hf'
          cases s with
          | bool b =>
              cases b
              · have hk0 : k = 0 := (Option.some.inj hf).symm
                rcases hbound s' k hf' with ⟨hs', _⟩ | ⟨_, hk1⟩ | ⟨hk2, _⟩
                · rw [hs']
                · omega
                · omega
              · have hk1 : k = 1 := (Option.some.inj hf).symm
                rcases hbound s' k hf' with ⟨_, hk0⟩ | ⟨hs', _⟩ | ⟨hk2, _⟩
                · omega
                · rw [hs']
                · omega
          | var w l h =>
              have hk : k = i + 1 := (Option.some.inj hf).symm
              rcases hbound s' k hf' with ⟨_, hk0⟩ | ⟨_, hk1⟩ | ⟨_, hki⟩ <;> omega
        · subst hc'
          rw [flook, if_pos rfl] at hf'
          rw [flook, if_neg hc] at hf
          cases s' with
          | bool b =>
              cases b
              · have hk0 : k = 0 := (Option.some.inj hf').symm
                rcases hbound s k hf with ⟨hs, _⟩ | ⟨_, hk1⟩ | ⟨hk2, _⟩
                · rw [hs]
                · omega
                · omega
              · have hk1 : k = 1 := (Option.some.inj hf').symm
                rcases hbound s k hf with ⟨_, hk0⟩ | ⟨hs, _⟩ | ⟨hk2, _⟩
                · omega
                · rw [hs]
                · omega
          | var w l h =>
              have hk : k = i + 1 := (Option.some.inj hf').symm
              rcases hbound s k hf with ⟨_, hk0⟩ | ⟨_, hk1⟩ | ⟨_, hki⟩ <;> omega
        · rw [flook, if_neg hc] at hf
          rw [flook, if_neg hc'] at hf'
          exact ht s s' k hf hf'

theorem buildIdx_tinj (lst : List Node) : tinj (buildIdx lst).1 := by
  have hshape : ∀ (s : Node) (k : Nat),
      flook s [(Node.bool false, 0), (Node.bool true, 1)] = some k →
      (s = Node.bool false ∧ k = 0) ∨ (s = Node.bool true ∧ k = 1) := by
    intro s k hf
    simp only [flook] at hf
    by_cases hf0 : s = Node.bool false
    · rw [if_pos hf0] at hf
      exact Or.inl ⟨hf0, (Option.some.inj hf).symm⟩
    · rw [if_neg hf0] at hf
      by_cases hf1 : s = Node.bool true
      · rw [if_pos hf1] at hf
        exact Or.inr ⟨hf1, (Option.some.inj hf).symm⟩
      · rw [if_neg hf1] at hf
        exact Option.noConfusion hf
  simp only [buildIdx]
  apply buildIdxAux_tinj lst 1 _ _ (Nat.le_refl 1)
  · intro s k hf
    rcases hshape s k hf with h1 | h2
    · exact Or.inl h1
    · exact Or.inr (Or.inl h2)
  · intro s s' k hf hf'
    rcases hshape s k hf with ⟨hs, hk⟩ | ⟨hs, hk⟩ <;>
      rcases hshape s' k hf' with ⟨hs', hk'⟩ | ⟨hs', hk'⟩
    · rw [hs, hs']
    · omega
    · omega
    · rw [hs, hs']

/-! ### `ZDD::apply`: the recursive merge -/

theorem fam_empty_evalT_false : ∀ {t : Node}, Node.fam t = ∅ →
    ∀ x, Node.evalT x t = false := by
  intro t
  induction t with
  | bool b =>
      intro hf x
      cases b
      · rfl
      · exact absurd hf (by simp [Node.fam])
  | var v l h ihl ihh =>
      intro hf x
      have hlh : Node.fam l = ∅ ∧ Node.fam h = ∅ := by
        simp only [Node.fam] at hf
        exact ⟨(Finset.union_eq_empty.mp hf).1,
          Finset.image_eq_empty.mp (Finset.union_eq_empty.mp hf).2⟩
      simp only [Node.evalT, ihl hlh.1, ihh hlh.2]
      cases x v <;> rfl

theorem evalT_false_fam_empty : ∀ {t : Node}, Node.ordered t = true →
    (∀ x, Node.evalT x t = false) → Node.fam t = ∅ := by
  intro t
  induction t with
  | bool b =>
      intro _ hf
      cases b
      · rfl
      · exact absurd (hf (fun _ => true)) (by simp [Node.evalT])
  | var v l h ihl ihh =>
      intro hord hf
      simp only [Node.ordered, Bool.and_eq_true] at hord
      have hl : ∀ x, Node.evalT x l = false := by
        intro x
        have h0 : Node.evalT (upd x v false) l = false := by
          have hx := hf (upd x v false)
          simpa [Node.evalT, upd] using hx
        rw [evalT_upd_deep hord.1 (Nat.le_refl v) x false] at h0
        exact h0
      have hh : ∀ x, Node.evalT x h = false := by
        intro x
        have h0 : Node.evalT (upd x v true) h = false := by
          have hx := hf (upd x v true)
          simpa [Node.evalT, upd] using hx
        rw [evalT_upd_deep hord.2 (Nat.le_refl v) x true] at h0
        exact h0
      have hfl := ihl (ordered_of_ordFrom hord.1) hl
      have hfh := ihh (ordered_of_ordFrom hord.2) hh
      simp [Node.fam, hfl, hfh]

/-- A reduced ZDD tree other than the false terminal evaluates to true
under the all-true assignment: its rightmost leaf is a true terminal. -/
theorem reduced_true_allTrue : ∀ {t : Node}, Node.zddReduced t = true →
    t ≠ Node.bool false → Node.evalT (fun _ => true) t = true := by
  intro t
  induction t with
  | bool b =>
      intro _ hne
      cases b
      · exact absurd rfl hne
      · rfl
  | var v l h ihl ihh =>
      intro hred _
      simp only [Node.zddReduced, Bool.and_eq_true, decide_eq_true_eq] at hred
      have hstep : Node.evalT (fun _ => true) (Node.var v l h) =
          Node.evalT (fun _ => true) h := by
        simp [Node.evalT]
      rw [hstep]
      exact ihh hred.2 hred.1.1

theorem zddReduced_parts {v : Nat} {l h : Node}
    (hr : Node.zddReduced (Node.var v l h) = true) :
    h ≠ Node.bool false ∧ Node.zddReduced l = true ∧
    Node.zddReduced h = true := by
  simp only [Node.zddReduced, Bool.and_eq_true, decide_eq_true_eq] at hr
  exact ⟨hr.1.1, hr.1.2, hr.2⟩

theorem zddSafe_bool (c : Bool) : zddSafe (Node.bool c) := by
  intro v l h hm
  simp [Node.subNodes] at hm

theorem zddSafe_sub {t s : Node} (hs : zddSafe t) (hm : s ∈ t.subNodes) :
    zddSafe s :=
  fun v l h hm2 hfam => hs v l h (mem_subNodes_trans hm2 hm) hfam

/-- On a safe ordered tree the zero-suppressed collapse is transparent
to decision-tree evaluation. -/
theorem evalT_zddCanon_of_safe : ∀ {t : Node}, Node.ordered t = true →
    zddSafe t → ∀ x, Node.evalT x (Node.zddCanon t) = Node.evalT x t := by
  intro t
  induction t with
  | bool b =>
      intro _ _ x
      rfl
  | var v l h ihl ihh =>
      intro hord hsafe x
      simp only [Node.ordered, Bool.and_eq_true] at hord
      rcases children_mem_subNodes (subNodes_self (Node.var v l h)) with ⟨hlm, hhm⟩
      have hsl : zddSafe l := zddSafe_sub hsafe hlm
      have hsh : zddSafe h := zddSafe_sub hsafe hhm
      by_cases hc : Node.zddCanon h = Node.bool false
      · have hfh : Node.fam h = ∅ := zddCanon_eq_false_iff.mp hc
        have hfl : Node.fam l = ∅ := hsafe v l h (subNodes_self _) hfh
        rw [zddCanon_var_eq hc]
        rw [ihl (ordered_of_ordFrom hord.1) hsl x]
        have hel : Node.evalT x l = false := fam_empty_evalT_false hfl x
        have heh : Node.evalT x h = false := fam_empty_evalT_false hfh x
        simp only [Node.evalT, hel, heh]
        cases x v <;> rfl
      · rw [zddCanon_var_ne hc]
        simp only [Node.evalT, ihl (ordered_of_ordFrom hord.1) hsl,
          ihh (ordered_of_ordFrom hord.2) hsh]

/-- The heart of the safety argument for `ZDD::apply` with a genuinely
absorbing `unit`: when a merged vertex's high side combines to the empty
family, its low side does too, because each operand side either
evaluates to true under the all-true assignment or contributes the same
all-false tree to both sides. -/
theorem absorb_root_safe {op : Bool → Bool → Bool} {unit : Bool}
    (habs1 : ∀ c, op unit c = unit) (habs2 : ∀ c, op c unit = unit)
    {hi lo fl fh gl gh : Node}
    (hhi : ∀ x, Node.evalT x hi = op (Node.evalT x fh) (Node.evalT x gh))
    (hlo : ∀ x, Node.evalT x lo = op (Node.evalT x fl) (Node.evalT x gl))
    (hordlo : Node.ordered lo = true)
    (hf : Node.evalT (fun _ => true) fh = true ∨
      (fh = fl ∧ ∀ x, Node.evalT x fh = false))
    (hg : Node.evalT (fun _ => true) gh = true ∨
      (gh = gl ∧ ∀ x, Node.evalT x gh = false))
    (hhiF : Node.fam hi = ∅) : Node.fam lo = ∅ := by
  have hhf : ∀ x, Node.evalT x hi = false := fam_empty_evalT_false hhiF
  rcases hf with hfT | ⟨hfe, hff⟩
  · rcases hg with hgT | ⟨hge, hgf⟩
    · have h0 := hhf (fun _ => true)
      rw [hhi, hfT, hgT] at h0
      cases hu : unit
      · subst hu
        apply evalT_false_fam_empty hordlo
        intro x
        rw [hlo]
        cases hfl : Node.evalT x fl <;> cases hgl : Node.evalT x gl
        · exact habs1 _
        · exact habs1 _
        · exact habs2 _
        · exact h0
      · subst hu
        rw [habs1 true] at h0
        exact Bool.noConfusion h0
    · cases hu : unit
      · subst hu
        apply evalT_false_fam_empty hordlo
        intro x
        rw [hlo]
        have hgl : Node.evalT x gl = false := by
          rw [← hge]
          exact hgf x
        rw [hgl]
        exact habs2 _
      · subst hu
        have h0 := hhf (fun _ => true)
        rw [hhi, hfT, hgf] at h0
        rw [habs1 false] at h0
        exact Bool.noConfusion h0
  · rcases hg with hgT | ⟨hge, hgf⟩
    · cases hu : unit
      · subst hu
        apply evalT_false_fam_empty hordlo
        intro x
        rw [hlo]
        have hfl : Node.evalT x fl = false := by
          rw [← hfe]
          exact hff x
        rw [hfl]
        exact habs1 _
      · subst hu
        have h0 := hhf (fun _ => true)
        rw [hhi, hff, hgT] at h0
        rw [habs2 false] at h0
        exact Bool.noConfusion h0
    · apply evalT_false_fam_empty hordlo
      intro x
      rw [hlo]
      have hfl : Node.evalT x fl = false := by
        rw [← hfe]
        exact hff x
      have hgl : Node.evalT x gl = false := by
        rw [← hge]
        exact hgf x
      rw [hfl, hgl]
      have h0 := hhf x
      rw [hhi, hff, hgf] at h0
      exact h0

set_option maxHeartbeats 1600000 in
/-- `ZDD::apply`'s `aux` terminates with enough fuel and combines its
operands pointwise under decision-tree evaluation; the result is
ordered whenever the operands are.  The memo cache stays sound
throughout. -/
theorem zddApplyAux_spec (op : Bool → Bool → Bool) (unit : Bool) {ti : ToIdx}
    {fi : FromIdx} (htinj : tinj ti) :
    ∀ (fuel : Nat) (v1 v2 : Node) (merged : ZMemo),
    v1.size + v2.size ≤ fuel →
    (∀ s, s ∈ v1.subNodes → (flook s ti).isSome = true) →
    (∀ s, s ∈ v2.subNodes → (flook s ti).isSome = true) →
    Node.ordered v1 = true → Node.ordered v2 = true →
    memoOK op unit ti merged →
    ∃ m2 r, zddApplyAux op unit ti fi fuel [] merged v1 v2 = some (m2, r) ∧
      memoOK op unit ti m2 ∧
      (∀ x, Node.evalT x r = op (Node.evalT x v1) (Node.evalT x v2)) ∧
      Node.ordered r = true ∧
      (∀ w, Node.ordFrom w v1 = true → Node.ordFrom w v2 = true →
        Node.ordFrom w r = true) ∧
      ((∀ c, op unit c = unit) → (∀ c, op c unit = unit) →
        Node.zddReduced v1 = true → Node.zddReduced v2 = true →
        zddSafe r) := by
  intro fuel
  induction fuel with
  | zero =>
      intro v1 v2 merged hfuel _ _ _ _ _
      have := size_pos v1
      omega
  | succ fuel ih =>
      intro v1 v2 merged hfuel hcov1 hcov2 hord1 hord2 hmok
      rcases Option.isSome_iff_exists.mp (hcov1 v1 (subNodes_self v1)) with ⟨i1, hg1⟩
      rcases Option.isSome_iff_exists.mp (hcov2 v2 (subNodes_self v2)) with ⟨i2, hg2⟩
      cases hmemo : flook (i1, i2) merged with
      | some n =>
          rcases hmok i1 i2 n hmemo with ⟨a, b, ha, hb, hev, hordn, hof, hsafe⟩
          have ha' : a = v1 := htinj a v1 i1 ha hg1
          have hb' : b = v2 := htinj b v2 i2 hb hg2
          subst ha'
          subst hb'
          exact ⟨merged, n, by simp [zddApplyAux, hg1, hg2, hmemo], hmok, hev,
            hordn, hof, hsafe⟩
      | none =>
          cases v1 with
          | bool b1 =>
              cases v2 with
              | bool b2 =>
                  have hd1 : decide ((cond b1 1 0 : Nat) < 2) = true :=
                    decide_eq_true (by cases b1 <;> simp)
                  have hd2 : decide ((cond b2 1 0 : Nat) < 2) = true :=
                    decide_eq_true (by cases b2 <;> simp)
                  have he1 : decide ((cond b1 1 0 : Nat) = 1) = b1 := by
                    cases b1 <;> rfl
                  have he2 : decide ((cond b2 1 0 : Nat) = 1) = b2 := by
                    cases b2 <;> rfl
                  have hklt : (cond (op b1 b2) 1 0 : Nat) < 2 := by
                    cases op b1 b2 <;> simp
                  have hdk : decide ((cond (op b1 b2) 1 0 : Nat) = 1) =
                      op b1 b2 := by
                    cases op b1 b2 <;> rfl
                  have hstep : zddApplyAux op unit ti fi (fuel + 1) [] merged
                      (Node.bool b1) (Node.bool b2) =
                      some (((i1, i2), Node.bool (op b1 b2)) :: merged,
                        Node.bool (op b1 b2)) := by
                    simp [zddApplyAux, hg1, hg2, hmemo, flook, Node.unifiedKey,
                      hd1, hd2, he1, he2, hklt, hdk]
                  have hsafeu : (∀ c, op unit c = unit) →
                      (∀ c, op c unit = unit) →
                      Node.zddReduced (Node.bool b1) = true →
                      Node.zddReduced (Node.bool b2) = true →
                      zddSafe (Node.bool (op b1 b2)) :=
                    fun _ _ _ _ => zddSafe_bool _
                  have hmoku : memoOK op unit ti
                      (((i1, i2), Node.bool (op b1 b2)) :: merged) := by
                    intro i j nn hf
                    rw [flook] at hf
                    by_cases hc : (i, j) = (i1, i2)
                    · rw [if_pos hc] at hf
                      have hnn : nn = Node.bool (op b1 b2) :=
                        (Option.some.inj hf).symm
                      subst hnn
                      have hi' : i = i1 := congrArg Prod.fst hc
                      have hj' : j = i2 := congrArg Prod.snd hc
                      subst hi'
                      subst hj'
                      exact ⟨Node.bool b1, Node.bool b2, hg1, hg2, fun x => rfl,
                        rfl, fun w _ _ => rfl, hsafeu⟩
                    · rw [if_neg hc] at hf
                      exact hmok i j nn hf
                  exact ⟨_, _, hstep, hmoku, fun x => rfl, rfl, fun w _ _ => rfl, hsafeu⟩
              | var w2 l2 h2 =>
                  rcases children_mem_subNodes
                      (subNodes_self (Node.var w2 l2 h2)) with ⟨hl2m, hh2m⟩
                  have hcovl : ∀ s, s ∈ l2.subNodes → (flook s ti).isSome = true :=
                    fun s hs => hcov2 s (mem_subNodes_trans hs hl2m)
                  have hcovh : ∀ s, s ∈ h2.subNodes → (flook s ti).isSome = true :=
                    fun s hs => hcov2 s (mem_subNodes_trans hs hh2m)
                  have hord2' : Node.ordFrom w2 l2 = true ∧
                      Node.ordFrom w2 h2 = true := by
                    simpa [Node.ordered] using hord2
                  have hfl : (Node.bool b1).size + l2.size ≤ fuel := by
                    simp only [Node.size] at hfuel ⊢
                    omega
                  have hfh : (Node.bool b1).size + h2.size ≤ fuel := by
                    simp only [Node.size] at hfuel ⊢
                    omega
                  rcases ih (Node.bool b1) l2 merged hfl hcov1 hcovl hord1
                      (ordered_of_ordFrom hord2'.1) hmok with
                    ⟨m1, lo, hrun1, hmok1, hev1, hordlo, hoflo, hsafelo⟩
                  rcases ih (Node.bool b1) h2 m1 hfh hcov1 hcovh hord1
                      (ordered_of_ordFrom hord2'.2) hmok1 with
                    ⟨m2x, hix, hrun2, hmok2, hev2, hordhi, hofhi, hsafehi⟩
                  have hd1 : decide ((cond b1 1 0 : Nat) < 2) = true :=
                    decide_eq_true (by cases b1 <;> simp)
                  have hd2 : decide ((w2 + 2 : Nat) < 2) = false :=
                    decide_eq_false (by omega)
                  have hkge : ¬ ((w2 + 2 : Nat) < 2) := by omega
                  have hne1 : ¬ ((cond b1 1 0 : Nat) = w2 + 2) := by
                    cases b1 <;> simp <;> omega
                  have hstep : zddApplyAux op unit ti fi (fuel + 1) [] merged
                      (Node.bool b1) (Node.var w2 l2 h2) =
                      some (((i1, i2), Node.var w2 lo hix) :: m2x,
                        Node.var w2 lo hix) := by
                    simp [zddApplyAux, hg1, hg2, hmemo, flook, Node.unifiedKey,
                      Node.cofactors, hd1, hd2, hkge, hne1, hrun1, hrun2]
                  have hevu : ∀ x, Node.evalT x (Node.var w2 lo hix) =
                      op (Node.evalT x (Node.bool b1))
                        (Node.evalT x (Node.var w2 l2 h2)) := by
                    intro x
                    cases hx : x w2 <;> simp [Node.evalT, hx, hev1, hev2]
                  have hordu : Node.ordered (Node.var w2 lo hix) = true := by
                    simp only [Node.ordered, Bool.and_eq_true]
                    exact ⟨hoflo w2 rfl hord2'.1, hofhi w2 rfl hord2'.2⟩
                  have hofu : ∀ w, Node.ordFrom w (Node.bool b1) = true →
                      Node.ordFrom w (Node.var w2 l2 h2) = true →
                      Node.ordFrom w (Node.var w2 lo hix) = true := by
                    intro w _ hw2
                    simp only [Node.ordFrom, Bool.and_eq_true,
                      decide_eq_true_eq] at hw2 ⊢
                    exact ⟨⟨hw2.1.1, hoflo w2 rfl hw2.1.2⟩, hofhi w2 rfl hw2.2⟩
                  have hsafeu : (∀ c, op unit c = unit) →
                      (∀ c, op c unit = unit) →
                      Node.zddReduced (Node.bool b1) = true →
                      Node.zddReduced (Node.var w2 l2 h2) = true →
                      zddSafe (Node.var w2 lo hix) := by
                    intro habs1 habs2 hzr1 hzr2
                    rcases zddReduced_parts hzr2 with ⟨hzne2, hzrl2, hzrh2⟩
                    have hslo : zddSafe lo := hsafelo habs1 habs2 hzr1 hzrl2
                    have hshi : zddSafe hix := hsafehi habs1 habs2 hzr1 hzrh2
                    have hfcopy : Node.evalT (fun _ => true) (Node.bool b1) = true ∨
                        (Node.bool b1 = Node.bool b1 ∧
                          ∀ x, Node.evalT x (Node.bool b1) = false) := by
                      cases b1
                      · exact Or.inr ⟨rfl, fun x => rfl⟩
                      · exact Or.inl rfl
                    intro v' l' h' hm hfam
                    simp only [Node.subNodes, List.mem_cons, List.mem_append] at hm
                    rcases hm with heq | hm | hm
                    · injection heq with e0 e1 e2
                      subst e1
                      subst e2
                      exact absorb_root_safe habs1 habs2 hev2 hev1 hordlo hfcopy
                        (Or.inl (reduced_true_allTrue hzrh2 hzne2)) hfam
                    · exact hslo v' l' h' hm hfam
                    · exact hshi v' l' h' hm hfam
                  have hmoku : memoOK op unit ti
                      (((i1, i2), Node.var w2 lo hix) :: m2x) := by
                    intro i j nn hf
                    rw [flook] at hf
                    by_cases hc : (i, j) = (i1, i2)
                    · rw [if_pos hc] at hf
                      have hnn : nn = Node.var w2 lo hix :=
                        (Option.some.inj hf).symm
                      subst hnn
                      have hi' : i = i1 := congrArg Prod.fst hc
                      have hj' : j = i2 := congrArg Prod.snd hc
                      subst hi'
                      subst hj'
                      exact ⟨Node.bool b1, Node.var w2 l2 h2, hg1, hg2, hevu,
                        hordu, hofu, hsafeu⟩
                    · rw [if_neg hc] at hf
                      exact hmok2 i j nn hf
                  exact ⟨_, _, hstep, hmoku, hevu, hordu, hofu, hsafeu⟩
          | var w1 l1 h1 =>
              rcases children_mem_subNodes
                  (subNodes_self (Node.var w1 l1 h1)) with ⟨hl1m, hh1m⟩
              have hcovl1 : ∀ s, s ∈ l1.subNodes → (flook s ti).isSome = true :=
                fun s hs => hcov1 s (mem_subNodes_trans hs hl1m)
              have hcovh1 : ∀ s, s ∈ h1.subNodes → (flook s ti).isSome = true :=
                fun s hs => hcov1 s (mem_subNodes_trans hs hh1m)
              have hord1' : Node.ordFrom w1 l1 = true ∧
                  Node.ordFrom w1 h1 = true := by
                simpa [Node.ordered] using hord1
              cases v2 with
              | bool b2 =>
                  have hfl : l1.size + (Node.bool b2).size ≤ fuel := by
                    simp only [Node.size] at hfuel ⊢
                    omega
                  have hfh : h1.size + (Node.bool b2).size ≤ fuel := by
                    simp only [Node.size] at hfuel ⊢
                    omega
                  rcases ih l1 (Node.bool b2) merged hfl hcovl1 hcov2
                      (ordered_of_ordFrom hord1'.1) hord2 hmok with
                    ⟨m1, lo, hrun1, hmok1, hev1, hordlo, hoflo, hsafelo⟩
                  rcases ih h1 (Node.bool b2) m1 hfh hcovh1 hcov2
                      (ordered_of_ordFrom hord1'.2) hord2 hmok1 with
                    ⟨m2x, hix, hrun2, hmok2, hev2, hordhi, hofhi, hsafehi⟩
                  have hd1 : decide ((w1 + 2 : Nat) < 2) = false :=
                    decide_eq_false (by omega)
                  have hd2 : decide ((cond b2 1 0 : Nat) < 2) = true :=
                    decide_eq_true (by cases b2 <;> simp)
                  have hkge : ¬ ((w1 + 2 : Nat) < 2) := by omega
                  have hne2 : ¬ ((cond b2 1 0 : Nat) = w1 + 2) := by
                    cases b2 <;> simp <;> omega
                  have hstep : zddApplyAux op unit ti fi (fuel + 1) [] merged
                      (Node.var w1 l1 h1) (Node.bool b2) =
                      some (((i1, i2), Node.var w1 lo hix) :: m2x,
                        Node.var w1 lo hix) := by
                    simp [zddApplyAux, hg1, hg2, hmemo, flook, Node.unifiedKey,
                      Node.cofactors, hd1, hd2, hkge, hne2, hrun1, hrun2]
                  have hevu : ∀ x, Node.evalT x (Node.var w1 lo hix) =
                      op (Node.evalT x (Node.var w1 l1 h1))
                        (Node.evalT x (Node.bool b2)) := by
                    intro x
                    cases hx : x w1 <;> simp [Node.evalT, hx, hev1, hev2]
                  have hordu : Node.ordered (Node.var w1 lo hix) = true := by
                    simp only [Node.ordered, Bool.and_eq_true]
                    exact ⟨hoflo w1 hord1'.1 rfl, hofhi w1 hord1'.2 rfl⟩
                  have hofu : ∀ w, Node.ordFrom w (Node.var w1 l1 h1) = true →
                      Node.ordFrom w (Node.bool b2) = true →
                      Node.ordFrom w (Node.var w1 lo hix) = true := by
                    intro w hw1 _
                    simp only [Node.ordFrom, Bool.and_eq_true,
                      decide_eq_true_eq] at hw1 ⊢
                    exact ⟨⟨hw1.1.1, hoflo w1 hw1.1.2 rfl⟩, hofhi w1 hw1.2 rfl⟩
                  have hsafeu : (∀ c, op unit c = unit) →
                      (∀ c, op c unit = unit) →
                      Node.zddReduced (Node.var w1 l1 h1) = true →
                      Node.zddReduced (Node.bool b2) = true →
                      zddSafe (Node.var w1 lo hix) := by
                    intro habs1 habs2 hzr1 hzr2
                    rcases zddReduced_parts hzr1 with ⟨hzne1, hzrl1, hzrh1⟩
                    have hslo : zddSafe lo := hsafelo habs1 habs2 hzrl1 hzr2
                    have hshi : zddSafe hix := hsafehi habs1 habs2 hzrh1 hzr2
                    have hgcopy : Node.evalT (fun _ => true) (Node.bool b2) = true ∨
                        (Node.bool b2 = Node.bool b2 ∧
                          ∀ x, Node.evalT x (Node.bool b2) = false) := by
                      cases b2
                      · exact Or.inr ⟨rfl, fun x => rfl⟩
                      · exact Or.inl rfl
                    intro v' l' h' hm hfam
                    simp only [Node.subNodes, List.mem_cons, List.mem_append] at hm
                    rcases hm with heq | hm | hm
                    · injection heq with e0 e1 e2
                      subst e1
                      subst e2
                      exact absorb_root_safe habs1 habs2 hev2 hev1 hordlo
                        (Or.inl (reduced_true_allTrue hzrh1 hzne1)) hgcopy hfam
                    · exact hslo v' l' h' hm hfam
                    · exact hshi v' l' h' hm hfam
                  have hmoku : memoOK op unit ti
                      (((i1, i2), Node.var w1 lo hix) :: m2x) := by
                    intro i j nn hf
                    rw [flook] at hf
                    by_cases hc : (i, j) = (i1, i2)
                    · rw [if_pos hc] at hf
                      have hnn : nn = Node.var w1 lo hix :=
                        (Option.some.inj hf).symm
                      subst hnn
                      have hi' : i = i1 := congrArg Prod.fst hc
                      have hj' : j = i2 := congrArg Prod.snd hc
                      subst hi'
                      subst hj'
                      exact ⟨Node.var w1 l1 h1, Node.bool b2, hg1, hg2, hevu,
                        hordu, hofu, hsafeu⟩
                    · rw [if_neg hc] at hf
                      exact hmok2 i j nn hf
                  exact ⟨_, _, hstep, hmoku, hevu, hordu, hofu, hsafeu⟩
              | var w2 l2 h2 =>
                  rcases children_mem_subNodes
                      (subNodes_self (Node.var w2 l2 h2)) with ⟨hl2m, hh2m⟩
                  have hcovl2 : ∀ s, s ∈ l2.subNodes → (flook s ti).isSome = true :=
                    fun s hs => hcov2 s (mem_subNodes_trans hs hl2m)
                  have hcovh2 : ∀ s, s ∈ h2.subNodes → (flook s ti).isSome = true :=
                    fun s hs => hcov2 s (mem_subNodes_trans hs hh2m)
                  have hord2' : Node.ordFrom w2 l2 = true ∧
                      Node.ordFrom w2 h2 = true := by
                    simpa [Node.ordered] using hord2
                  have hd1 : decide ((w1 + 2 : Nat) < 2) = false :=
                    decide_eq_false (by omega)
                  have hd2 : decide ((w2 + 2 : Nat) < 2) = false :=
                    decide_eq_false (by omega)
                  rcases Nat.lt_trichotomy w1 w2 with hlt | heqw | hgt
                  · -- only the first operand splits
                    have hfl : l1.size + (Node.var w2 l2 h2).size ≤ fuel := by
                      simp only [Node.size] at hfuel ⊢
                      omega
                    have hfh : h1.size + (Node.var w2 l2 h2).size ≤ fuel := by
                      simp only [Node.size] at hfuel ⊢
                      omega
                    rcases ih l1 (Node.var w2 l2 h2) merged hfl hcovl1 hcov2
                        (ordered_of_ordFrom hord1'.1) hord2 hmok with
                      ⟨m1, lo, hrun1, hmok1, hev1, hordlo, hoflo, hsafelo⟩
                    rcases ih h1 (Node.var w2 l2 h2) m1 hfh hcovh1 hcov2
                        (ordered_of_ordFrom hord1'.2) hord2 hmok1 with
                      ⟨m2x, hix, hrun2, hmok2, hev2, hordhi, hofhi, hsafehi⟩
                    have hminv : min (w1 + 2) (w2 + 2) = w1 + 2 := by omega
                    have hkge : ¬ ((w1 + 2 : Nat) < 2) := by omega
                    have hne2 : ¬ ((w2 + 2 : Nat) = w1 + 2) := by omega
                    have hstep : zddApplyAux op unit ti fi (fuel + 1) [] merged
                        (Node.var w1 l1 h1) (Node.var w2 l2 h2) =
                        some (((i1, i2), Node.var w1 lo hix) :: m2x,
                          Node.var w1 lo hix) := by
                      simp [zddApplyAux, hg1, hg2, hmemo, flook, Node.unifiedKey,
                        Node.cofactors, hd1, hd2, hminv, hkge, hne2, hrun1, hrun2]
                    have hof2w1 : Node.ordFrom w1 (Node.var w2 l2 h2) = true := by
                      simp only [Node.ordFrom, Bool.and_eq_true, decide_eq_true_eq]
                      exact ⟨⟨hlt, hord2'.1⟩, hord2'.2⟩
                    have hevu : ∀ x, Node.evalT x (Node.var w1 lo hix) =
                        op (Node.evalT x (Node.var w1 l1 h1))
                          (Node.evalT x (Node.var w2 l2 h2)) := by
                      intro x
                      cases hx : x w1 <;> simp [Node.evalT, hx, hev1, hev2]
                    have hordu : Node.ordered (Node.var w1 lo hix) = true := by
                      simp only [Node.ordered, Bool.and_eq_true]
                      exact ⟨hoflo w1 hord1'.1 hof2w1, hofhi w1 hord1'.2 hof2w1⟩
                    have hofu : ∀ w, Node.ordFrom w (Node.var w1 l1 h1) = true →
                        Node.ordFrom w (Node.var w2 l2 h2) = true →
                        Node.ordFrom w (Node.var w1 lo hix) = true := by
                      intro w hw1 _
                      simp only [Node.ordFrom, Bool.and_eq_true,
                        decide_eq_true_eq] at hw1 ⊢
                      exact ⟨⟨hw1.1.1, hoflo w1 hw1.1.2 hof2w1⟩,
                        hofhi w1 hw1.2 hof2w1⟩
                    have hsafeu : (∀ c, op unit c = unit) →
                        (∀ c, op c unit = unit) →
                        Node.zddReduced (Node.var w1 l1 h1) = true →
                        Node.zddReduced (Node.var w2 l2 h2) = true →
                        zddSafe (Node.var w1 lo hix) := by
                      intro habs1 habs2 hzr1 hzr2
                      rcases zddReduced_parts hzr1 with ⟨hzne1, hzrl1, hzrh1⟩
                      have hslo : zddSafe lo := hsafelo habs1 habs2 hzrl1 hzr2
                      have hshi : zddSafe hix := hsafehi habs1 habs2 hzrh1 hzr2
                      intro v' l' h' hm hfam
                      simp only [Node.subNodes, List.mem_cons, List.mem_append] at hm
                      rcases hm with heq | hm | hm
                      · injection heq with e0 e1 e2
                        subst e1
                        subst e2
                        exact absorb_root_safe habs1 habs2 hev2 hev1 hordlo
                          (Or.inl (reduced_true_allTrue hzrh1 hzne1))
                          (Or.inl (reduced_true_allTrue hzr2 (by simp))) hfam
                      · exact hslo v' l' h' hm hfam
                      · exact hshi v' l' h' hm hfam
                    have hmoku : memoOK op unit ti
                        (((i1, i2), Node.var w1 lo hix) :: m2x) := by
                      intro i j nn hf
                      rw [flook] at hf
                      by_cases hc : (i, j) = (i1, i2)
                      · rw [if_pos hc] at hf
                        have hnn : nn = Node.var w1 lo hix :=
                          (Option.some.inj hf).symm
                        subst hnn
                        have hi' : i = i1 := congrArg Prod.fst hc
                        have hj' : j = i2 := congrArg Prod.snd hc
                        subst hi'
                        subst hj'
                        exact ⟨Node.var w1 l1 h1, Node.var w2 l2 h2, hg1, hg2,
                          hevu, hordu, hofu, hsafeu⟩
                      · rw [if_neg hc] at hf
                        exact hmok2 i j nn hf
                    exact ⟨_, _, hstep, hmoku, hevu, hordu, hofu, hsafeu⟩
                  · -- equal levels: both operands split
                    subst heqw
                    have hfl : l1.size + l2.size ≤ fuel := by
                      simp only [Node.size] at hfuel ⊢
                      omega
                    have hfh : h1.size + h2.size ≤ fuel := by
                      simp only [Node.size] at hfuel ⊢
                      omega
                    rcases ih l1 l2 merged hfl hcovl1 hcovl2
                        (ordered_of_ordFrom hord1'.1)
                        (ordered_of_ordFrom hord2'.1) hmok with
                      ⟨m1, lo, hrun1, hmok1, hev1, hordlo, hoflo, hsafelo⟩
                    rcases ih h1 h2 m1 hfh hcovh1 hcovh2
                        (ordered_of_ordFrom hord1'.2)
                        (ordered_of_ordFrom hord2'.2) hmok1 with
                      ⟨m2x, hix, hrun2, hmok2, hev2, hordhi, hofhi, hsafehi⟩
                    have hminv : min (w1 + 2) (w1 + 2) = w1 + 2 := by omega
                    have hkge : ¬ ((w1 + 2 : Nat) < 2) := by omega
                    have hstep : zddApplyAux op unit ti fi (fuel + 1) [] merged
                        (Node.var w1 l1 h1) (Node.var w1 l2 h2) =
                        some (((i1, i2), Node.var w1 lo hix) :: m2x,
                          Node.var w1 lo hix) := by
                      simp [zddApplyAux, hg1, hg2, hmemo, flook, Node.unifiedKey,
                        Node.cofactors, hminv, hkge, hd1, hd2, hrun1, hrun2]
                    have hevu : ∀ x, Node.evalT x (Node.var w1 lo hix) =
                        op (Node.evalT x (Node.var w1 l1 h1))
                          (Node.evalT x (Node.var w1 l2 h2)) := by
                      intro x
                      cases hx : x w1 <;> simp [Node.evalT, hx, hev1, hev2]
                    have hordu : Node.ordered (Node.var w1 lo hix) = true := by
                      simp only [Node.ordered, Bool.and_eq_true]
                      exact ⟨hoflo w1 hord1'.1 hord2'.1, hofhi w1 hord1'.2 hord2'.2⟩
                    have hofu : ∀ w, Node.ordFrom w (Node.var w1 l1 h1) = true →
                        Node.ordFrom w (Node.var w1 l2 h2) = true →
                        Node.ordFrom w (Node.var w1 lo hix) = true := by
                      intro w hw1 hw2
                      simp only [Node.ordFrom, Bool.and_eq_true,
                        decide_eq_true_eq] at hw1 hw2 ⊢
                      exact ⟨⟨hw1.1.1, hoflo w1 hw1.1.2 hw2.1.2⟩,
                        hofhi w1 hw1.2 hw2.2⟩
                    have hsafeu : (∀ c, op unit c = unit) →
                        (∀ c, op c unit = unit) →
                        Node.zddReduced (Node.var w1 l1 h1) = true →
                        Node.zddReduced (Node.var w1 l2 h2) = true →
                        zddSafe (Node.var w1 lo hix) := by
                      intro habs1 habs2 hzr1 hzr2
                      rcases zddReduced_parts hzr1 with ⟨hzne1, hzrl1, hzrh1⟩
                      rcases zddReduced_parts hzr2 with ⟨hzne2, hzrl2, hzrh2⟩
                      have hslo : zddSafe lo := hsafelo habs1 habs2 hzrl1 hzrl2
                      have hshi : zddSafe hix := hsafehi habs1 habs2 hzrh1 hzrh2
                      intro v' l' h' hm hfam
                      simp only [Node.subNodes, List.mem_cons, List.mem_append] at hm
                      rcases hm with heq | hm | hm
                      · injection heq with e0 e1 e2
                        subst e1
                        subst e2
                        exact absorb_root_safe habs1 habs2 hev2 hev1 hordlo
                          (Or.inl (reduced_true_allTrue hzrh1 hzne1))
                          (Or.inl (reduced_true_allTrue hzrh2 hzne2)) hfam
                      · exact hslo v' l' h' hm hfam
                      · exact hshi v' l' h' hm hfam
                    have hmoku : memoOK op unit ti
                        (((i1, i2), Node.var w1 lo hix) :: m2x) := by
                      intro i j nn hf
                      rw [flook] at hf
                      by_cases hc : (i, j) = (i1, i2)
                      · rw [if_pos hc] at hf
                        have hnn : nn = Node.var w1 lo hix :=
                          (Option.some.inj hf).symm
                        subst hnn
                        have hi' : i = i1 := congrArg Prod.fst hc
                        have hj' : j = i2 := congrArg Prod.snd hc
                        subst hi'
                        subst hj'
                        exact ⟨Node.var w1 l1 h1, Node.var w1 l2 h2, hg1, hg2,
                          hevu, hordu, hofu, hsafeu⟩
                      · rw [if_neg hc] at hf
                        exact hmok2 i j nn hf
                    exact ⟨_, _, hstep, hmoku, hevu, hordu, hofu, hsafeu⟩
                  · -- only the second operand splits
                    have hfl : (Node.var w1 l1 h1).size + l2.size ≤ fuel := by
                      simp only [Node.size] at hfuel ⊢
                      omega
                    have hfh : (Node.var w1 l1 h1).size + h2.size ≤ fuel := by
                      simp only [Node.size] at hfuel ⊢
                      omega
                    rcases ih (Node.var w1 l1 h1) l2 merged hfl hcov1 hcovl2
                        hord1 (ordered_of_ordFrom hord2'.1) hmok with
                      ⟨m1, lo, hrun1, hmok1, hev1, hordlo, hoflo, hsafelo⟩
                    rcases ih (Node.var w1 l1 h1) h2 m1 hfh hcov1 hcovh2
                        hord1 (ordered_of_ordFrom hord2'.2) hmok1 with
                      ⟨m2x, hix, hrun2, hmok2, hev2, hordhi, hofhi, hsafehi⟩
                    have hminv : min (w1 + 2) (w2 + 2) = w2 + 2 := by omega
                    have hkge : ¬ ((w2 + 2 : Nat) < 2) := by omega
                    have hne1 : ¬ ((w1 + 2 : Nat) = w2 + 2) := by omega
                    have hstep : zddApplyAux op unit ti fi (fuel + 1) [] merged
                        (Node.var w1 l1 h1) (Node.var w2 l2 h2) =
                        some (((i1, i2), Node.var w2 lo hix) :: m2x,
                          Node.var w2 lo hix) := by
                      simp [zddApplyAux, hg1, hg2, hmemo, flook, Node.unifiedKey,
                        Node.cofactors, hd1, hd2, hminv, hkge, hne1, hrun1, hrun2]
                    have hof1w2 : Node.ordFrom w2 (Node.var w1 l1 h1) = true := by
                      simp only [Node.ordFrom, Bool.and_eq_true, decide_eq_true_eq]
                      exact ⟨⟨hgt, hord1'.1⟩, hord1'.2⟩
                    have hevu : ∀ x, Node.evalT x (Node.var w2 lo hix) =
                        op (Node.evalT x (Node.var w1 l1 h1))
                          (Node.evalT x (Node.var w2 l2 h2)) := by
                      intro x
                      cases hx : x w2 <;> simp [Node.evalT, hx, hev1, hev2]
                    have hordu : Node.ordered (Node.var w2 lo hix) = true := by
                      simp only [Node.ordered, Bool.and_eq_true]
                      exact ⟨hoflo w2 hof1w2 hord2'.1, hofhi w2 hof1w2 hord2'.2⟩
                    have hofu : ∀ w, Node.ordFrom w (Node.var w1 l1 h1) = true →
                        Node.ordFrom w (Node.var w2 l2 h2) = true →
                        Node.ordFrom w (Node.var w2 lo hix) = true := by
                      intro w _ hw2
                      simp only [Node.ordFrom, Bool.and_eq_true,
                        decide_eq_true_eq] at hw2 ⊢
                      exact ⟨⟨hw2.1.1, hoflo w2 hof1w2 hw2.1.2⟩,
                        hofhi w2 hof1w2 hw2.2⟩
                    have hsafeu : (∀ c, op unit c = unit) →
                        (∀ c, op c unit = unit) →
                        Node.zddReduced (Node.var w1 l1 h1) = true →
                        Node.zddReduced (Node.var w2 l2 h2) = true →
                        zddSafe (Node.var w2 lo hix) := by
                      intro habs1 habs2 hzr1 hzr2
                      rcases zddReduced_parts hzr2 with ⟨hzne2, hzrl2, hzrh2⟩
                      have hslo : zddSafe lo := hsafelo habs1 habs2 hzr1 hzrl2
                      have hshi : zddSafe hix := hsafehi habs1 habs2 hzr1 hzrh2
                      intro v' l' h' hm hfam
                      simp only [Node.subNodes, List.mem_cons, List.mem_append] at hm
                      rcases hm with heq | hm | hm
                      · injection heq with e0 e1 e2
                        subst e1
                        subst e2
                        exact absorb_root_safe habs1 habs2 hev2 hev1 hordlo
                          (Or.inl (reduced_true_allTrue hzr1 (by simp)))
                          (Or.inl (reduced_true_allTrue hzrh2 hzne2)) hfam
                      · exact hslo v' l' h' hm hfam
                      · exact hshi v' l' h' hm hfam
                    have hmoku : memoOK op unit ti
                        (((i1, i2), Node.var w2 lo hix) :: m2x) := by
                      intro i j nn hf
                      rw [flook] at hf
                      by_cases hc : (i, j) = (i1, i2)
                      · rw [if_pos hc] at hf
                        have hnn : nn = Node.var w2 lo hix :=
                          (Option.some.inj hf).symm
                        subst hnn
                        have hi' : i = i1 := congrArg Prod.fst hc
                        have hj' : j = i2 := congrArg Prod.snd hc
                        subst hi'
                        subst hj'
                        exact ⟨Node.var w1 l1 h1, Node.var w2 l2 h2, hg1, hg2,
                          hevu, hordu, hofu, hsafeu⟩
                      · rw [if_neg hc] at hf
                        exact hmok2 i j nn hf
                    exact ⟨_, _, hstep, hmoku, hevu, hordu, hofu, hsafeu⟩


/-! ### Wrappers for `ZDD::apply` -/

/-- The raw `aux` pass of `ZDD::apply` succeeds on ordered operands and
combines them pointwise; for genuinely two-sided-absorbing `unit` and
reduced operands its result is additionally safe under the
zero-suppressed collapse. -/
theorem zddApplyRaw_spec (op : Bool → Bool → Bool) (unit : Bool) {a b : Node}
    (ha : Node.ordered a = true) (hb : Node.ordered b = true) :
    ∃ r, zddApplyRaw op unit a b = some r ∧
      (∀ x, Node.evalT x r = op (Node.evalT x a) (Node.evalT x b)) ∧
      Node.ordered r = true ∧
      ((∀ c, op unit c = unit) → (∀ c, op c unit = unit) →
        Node.zddReduced a = true → Node.zddReduced b = true → zddSafe r) := by
  rcases @zddApplyAux_spec op unit (buildIdx (a.subNodes ++ b.subNodes)).1
      (buildIdx (a.subNodes ++ b.subNodes)).2
      (buildIdx_tinj (a.subNodes ++ b.subNodes))
      (a.size + b.size) a b [] (Nat.le_refl _)
      (fun s hs => buildIdx_fst_mem (List.mem_append_left _ hs))
      (fun s hs => buildIdx_fst_mem (List.mem_append_right _ hs))
      ha hb (fun i j n h => Option.noConfusion h) with
    ⟨m2, r, hrun, _, hev, hordr, _, hsafe⟩
  refine ⟨r, ?_, hev, hordr, hsafe⟩
  simp only [zddApplyRaw, hrun]

/-- `ZDD::reduce` returns on every ordered input: whichever node the
final `node[&next_id]` pickup lands on, it is registered. -/
theorem zddReduce_isSome {t : Node} (hord : Node.ordered t = true) :
    ∃ r, zddReduce t = some r := by
  cases hc : Node.zddCanon t with
  | bool b => exact ⟨t, zddReduce_of_const hord hc⟩
  | var w cl ch => exact ⟨Node.zddCanon t, zddReduce_of_var hord hc⟩

/-- `ZDD::apply` returns on every ordered pair of operands. -/
theorem zddApply_isSome (op : Bool → Bool → Bool) (unit : Bool) {a b : Node}
    (ha : Node.ordered a = true) (hb : Node.ordered b = true) :
    ∃ r, zddApply op unit a b = some r := by
  rcases zddApplyRaw_spec op unit ha hb with ⟨r0, hraw, _, hordr, _⟩
  rcases zddReduce_isSome hordr with ⟨r, hred⟩
  exact ⟨r, by simp only [zddApply, hraw, hred]⟩

/-- `ZDD::apply` with a genuinely two-sided-absorbing `unit` is
pointwise correct on ordered, reduced operands: the safety of the raw
combination makes the final zero-suppressed collapse transparent to
decision-tree evaluation, so the pickup bug of `ZDD::reduce` cannot
change the function either way. -/
theorem zddApply_correct_absorbing (op : Bool → Bool → Bool) (unit : Bool)
    {a b : Node}
    (habs1 : ∀ c, op unit c = unit) (habs2 : ∀ c, op c unit = unit)
    (ha : Node.ordered a = true) (hb : Node.ordered b = true)
    (hra : Node.zddReduced a = true) (hrb : Node.zddReduced b = true) :
    ∃ r, zddApply op unit a b = some r ∧
      ∀ x, Node.evalT x r = op (Node.evalT x a) (Node.evalT x b) := by
  rcases zddApplyRaw_spec op unit ha hb with ⟨r0, hraw, hev, hordr, hsafe⟩
  have hsafe0 : zddSafe r0 := hsafe habs1 habs2 hra hrb
  cases hcn : Node.zddCanon r0 with
  | bool c =>
      refine ⟨r0, ?_, hev⟩
      simp only [zddApply, hraw]
      exact zddReduce_of_const hordr hcn
  | var w cl ch =>
      refine ⟨Node.zddCanon r0, ?_, ?_⟩
      · simp only [zddApply, hraw]
        exact zddReduce_of_var hordr hcn
      · intro x
        rw [evalT_zddCanon_of_safe hordr hsafe0 x]
        exact hev x

/-! ### Hereditary reducedness -/

theorem bddReduced_sub : ∀ {t s : Node}, Node.bddReduced t = true →
    s ∈ t.subNodes → Node.bddReduced s = true := by
  intro t
  induction t with
  | bool b =>
      intro s hr hm
      simp only [Node.subNodes, List.mem_singleton] at hm
      subst hm
      exact hr
  | var v l h ihl ihh =>
      intro s hr hm
      simp only [Node.subNodes, List.mem_cons, List.mem_append] at hm
      rcases hm with heq | hm | hm
      · subst heq
        exact hr
      · simp only [Node.bddReduced, Bool.and_eq_true] at hr
        exact ihl hr.1.2 hm
      · simp only [Node.bddReduced, Bool.and_eq_true] at hr
        exact ihh hr.2 hm

theorem zddReduced_sub : ∀ {t s : Node}, Node.zddReduced t = true →
    s ∈ t.subNodes → Node.zddReduced s = true := by
  intro t
  induction t with
  | bool b =>
      intro s hr hm
      simp only [Node.subNodes, List.mem_singleton] at hm
      subst hm
      exact hr
  | var v l h ihl ihh =>
      intro s hr hm
      simp only [Node.subNodes, List.mem_cons, List.mem_append] at hm
      rcases hm with heq | hm | hm
      · subst heq
        exact hr
      · simp only [Node.zddReduced, Bool.and_eq_true] at hr
        exact ihl hr.1.2 hm
      · simp only [Node.zddReduced, Bool.and_eq_true] at hr
        exact ihh hr.2 hm

/-! ### Shape facts about the graphviz export -/

theorem gvVarRecsOf_shape {ns : List Node} {s : Node} {r : GvRecord}
    (h : r ∈ gvVarRecsOf ns s) : ∃ i v, r = GvRecord.varRec i v := by
  cases s with
  | bool b => simp [gvVarRecsOf] at h
  | var v l hh =>
      simp only [gvVarRecsOf, List.mem_singleton] at h
      exact ⟨_, _, h⟩

theorem gvEdgesOf_not_term {ns : List Node} {s : Node} {r : GvRecord}
    (h : r ∈ gvEdgesOf ns s) :
    r ≠ GvRecord.termFalse ∧ r ≠ GvRecord.termTrue := by
  cases s with
  | bool b => simp [gvEdgesOf] at h
  | var v l hh =>
      simp only [gvEdgesOf] at h
      by_cases hc : gvId ns l = gvId ns hh
      · rw [if_pos hc, List.mem_singleton] at h
        subst h
        exact ⟨fun hx => GvRecord.noConfusion hx,
          fun hx => GvRecord.noConfusion hx⟩
      · rw [if_neg hc] at h
        simp only [List.mem_cons, List.mem_singleton] at h
        rcases h with h | h
        · subst h
          exact ⟨fun hx => GvRecord.noConfusion hx,
            fun hx => GvRecord.noConfusion hx⟩
        · rcases h with h | h
          · subst h
            exact ⟨fun hx => GvRecord.noConfusion hx,
              fun hx => GvRecord.noConfusion hx⟩
          · exact absurd h (List.not_mem_nil _)

theorem nodeGv_termFalse (t : Node) :
    (GvRecord.termFalse ∈ nodeGv t) ↔ Node.bool false ∈ t.subNodes := by
  simp only [nodeGv, List.mem_append, List.mem_flatMap]
  constructor
  · intro h
    rcases h with ((h | h) | ⟨s, _, hs⟩) | ⟨s, _, hs⟩
    · by_cases hc : Node.bool false ∈ t.subNodes.dedup
      · exact List.mem_dedup.mp hc
      · rw [if_neg hc] at h
        exact absurd h (List.not_mem_nil _)
    · by_cases hc : Node.bool true ∈ t.subNodes.dedup
      · rw [if_pos hc, List.mem_singleton] at h
        exact absurd h (fun hx => GvRecord.noConfusion hx)
      · rw [if_neg hc] at h
        exact absurd h (List.not_mem_nil _)
    · rcases gvVarRecsOf_shape hs with ⟨i, v, he⟩
      exact absurd he (fun hx => GvRecord.noConfusion hx)
    · exact absurd rfl (gvEdgesOf_not_term hs).1
  · intro h
    refine Or.inl (Or.inl (Or.inl ?_))
    rw [if_pos (List.mem_dedup.mpr h)]
    exact List.mem_singleton.mpr rfl

theorem nodeGv_termTrue (t : Node) :
    (GvRecord.termTrue ∈ nodeGv t) ↔ Node.bool true ∈ t.subNodes := by
  simp only [nodeGv, List.mem_append, List.mem_flatMap]
  constructor
  · intro h
    rcases h with ((h | h) | ⟨s, _, hs⟩) | ⟨s, _, hs⟩
    · by_cases hc : Node.bool false ∈ t.subNodes.dedup
      · rw [if_pos hc, List.mem_singleton] at h
        exact absurd h (fun hx => GvRecord.noConfusion hx)
      · rw [if_neg hc] at h
        exact absurd h (List.not_mem_nil _)
    · by_cases hc : Node.bool true ∈ t.subNodes.dedup
      · exact List.mem_dedup.mp hc
      · rw [if_neg hc] at h
        exact absurd h (List.not_mem_nil _)
    · rcases gvVarRecsOf_shape hs with ⟨i, v, he⟩
      exact absurd he (fun hx => GvRecord.noConfusion hx)
    · exact absurd rfl (gvEdgesOf_not_term hs).2
  · intro h
    refine Or.inl (Or.inl (Or.inr ?_))
    rw [if_pos (List.mem_dedup.mpr h)]
    exact List.mem_singleton.mpr rfl

theorem ddGv_termFalse (t : Node) : GvRecord.termFalse ∈ ddGv t := by
  simp [ddGv]

theorem ddGv_termTrue (t : Node) : GvRecord.termTrue ∈ ddGv t := by
  simp [ddGv]

theorem gvVarRecsOf_var (ns : List Node) (v : Nat) (l h : Node) :
    gvVarRecsOf ns (Node.var v l h) =
      [GvRecord.varRec (posOf (Node.var v l h) ns + 2) v] := rfl

theorem gvEdgesOf_var_len (ns : List Node) (v : Nat) (l h : Node) :
    (gvEdgesOf ns (Node.var v l h)).length =
      if gvId ns l = gvId ns h then 1 else 2 := by
  simp only [gvEdgesOf]
  split <;> rfl

/-! ### The ten claims -/

/-- Claim C1 (amended): for every input tree satisfying the strict
ordering invariant the algorithms rely on, `BDD::reduce` returns a root
with the same decision-tree function, no vertex with equal children,
and no two distinct reachable nodes computing the same function;
`ZDD::reduce` satisfies the analogous contract under the
family-of-sets semantics whenever the canonical form of the input is a
decision vertex (when it is a terminal the pickup bug returns the
unreduced input instead — see the counterexample). -/
theorem c1_reduce_contract {t : Node} (hord : Node.ordered t = true) :
    (∃ r, bddReduce t = some r ∧
      (∀ x, Node.evalT x r = Node.evalT x t) ∧
      Node.bddReduced r = true ∧
      (∀ s1 s2, s1 ∈ r.subNodes → s2 ∈ r.subNodes →
        (∀ x, Node.evalT x s1 = Node.evalT x s2) → s1 = s2)) ∧
    (∀ w cl ch, Node.zddCanon t = Node.var w cl ch →
      ∃ r, zddReduce t = some r ∧
        Node.fam r = Node.fam t ∧
        Node.zddReduced r = true ∧
        (∀ s1 s2, s1 ∈ r.subNodes → s2 ∈ r.subNodes →
          Node.fam s1 = Node.fam s2 → s1 = s2)) := by
  constructor
  · refine ⟨Node.bddCanon t, bddReduce_eq_canon hord,
      (fun x => evalT_bddCanon x t), bddReduced_bddCanon t, ?_⟩
    intro s1 s2 h1 h2 heq
    exact bdd_canonical_unique (s1.size + s2.size) s1 s2 (Nat.le_refl _)
      (ordered_sub h1 (ordered_bddCanon hord))
      (ordered_sub h2 (ordered_bddCanon hord))
      (bddReduced_sub (bddReduced_bddCanon t) h1)
      (bddReduced_sub (bddReduced_bddCanon t) h2) heq
  · intro w cl ch hc
    refine ⟨Node.zddCanon t, zddReduce_of_var hord hc, fam_zddCanon t,
      zddReduced_zddCanon t, ?_⟩
    intro s1 s2 h1 h2 heq
    exact zdd_canonical_unique (s1.size + s2.size) s1 s2 (Nat.le_refl _)
      (ordered_sub h1 (ordered_zddCanon hord))
      (ordered_sub h2 (ordered_zddCanon hord))
      (zddReduced_sub (zddReduced_zddCanon t) h1)
      (zddReduced_sub (zddReduced_zddCanon t) h2) heq

/-- Claim C1 witness: the contract instantiated at the ordered tree
`D(1, false, true)`. -/
theorem c1_reduce_contract_witness :
    Node.ordered (Node.var 1 (Node.bool false) (Node.bool true)) = true ∧
    ((∃ r, bddReduce (Node.var 1 (Node.bool false) (Node.bool true)) = some r ∧
      (∀ x, Node.evalT x r =
        Node.evalT x (Node.var 1 (Node.bool false) (Node.bool true))) ∧
      Node.bddReduced r = true ∧
      (∀ s1 s2, s1 ∈ r.subNodes → s2 ∈ r.subNodes →
        (∀ x, Node.evalT x s1 = Node.evalT x s2) → s1 = s2)) ∧
    (∀ w cl ch,
      Node.zddCanon (Node.var 1 (Node.bool false) (Node.bool true)) =
        Node.var w cl ch →
      ∃ r, zddReduce (Node.var 1 (Node.bool false) (Node.bool true)) = some r ∧
        Node.fam r = Node.fam (Node.var 1 (Node.bool false) (Node.bool true)) ∧
        Node.zddReduced r = true ∧
        (∀ s1 s2, s1 ∈ r.subNodes → s2 ∈ r.subNodes →
          Node.fam s1 = Node.fam s2 → s1 = s2))) :=
  ⟨by decide, c1_reduce_contract (by decide)⟩

/-- Claim C1 counterexample: `D(2, false, false)` satisfies the spec's
weak (non-decreasing) ordering invariant, yet `ZDD::reduce` returns it
unchanged, and it contains a vertex violating the zero-suppression
elimination rule (its high child is the false terminal). -/
theorem c1_counterexample :
    Node.orderedW (Node.var 2 (Node.bool false) (Node.bool false)) = true ∧
    zddReduce (Node.var 2 (Node.bool false) (Node.bool false)) =
      some (Node.var 2 (Node.bool false) (Node.bool false)) ∧
    Node.zddReduced (Node.var 2 (Node.bool false) (Node.bool false)) = false :=
  ⟨rfl, rfl, rfl⟩

/-- Claim C2 (amended): for a genuinely two-sided-absorbing `unit` and
ordered, ZDD-reduced operands, `ZDD::apply` returns a diagram that
evaluates pointwise to `op` of the operands; `BDD::apply` never
returns a diagram at all (its recursion re-invokes itself on the same
pair of operands forever). -/
theorem c2_apply_pointwise (op : Bool → Bool → Bool) (unit : Bool) {a b : Node}
    (habs1 : ∀ c, op unit c = unit) (habs2 : ∀ c, op c unit = unit)
    (ha : Node.ordered a = true) (hb : Node.ordered b = true)
    (hra : Node.zddReduced a = true) (hrb : Node.zddReduced b = true) :
    (∃ r, zddApply op unit a b = some r ∧
      ∀ x, Node.evalT x r = op (Node.evalT x a) (Node.evalT x b)) ∧
    bddApplyDiverges op unit a b :=
  ⟨zddApply_correct_absorbing op unit habs1 habs2 ha hb hra hrb,
   bddApply_diverges op unit a b⟩

/-- Claim C2 witness: conjunction with `false` as absorbing value,
applied to the ordered reduced operands `D(1, false, true)` and
`true`. -/
theorem c2_apply_pointwise_witness :
    ((∀ c, (false && c) = false) ∧ (∀ c, (c && false) = false) ∧
      Node.ordered (Node.var 1 (Node.bool false) (Node.bool true)) = true ∧
      Node.ordered (Node.bool true) = true ∧
      Node.zddReduced (Node.var 1 (Node.bool false) (Node.bool true)) = true ∧
      Node.zddReduced (Node.bool true) = true) ∧
    ((∃ r, zddApply (fun p q => p && q) false
        (Node.var 1 (Node.bool false) (Node.bool true)) (Node.bool true) =
          some r ∧
      ∀ x, Node.evalT x r =
        (Node.evalT x (Node.var 1 (Node.bool false) (Node.bool true)) &&
          Node.evalT x (Node.bool true))) ∧
    bddApplyDiverges (fun p q => p && q) false
      (Node.var 1 (Node.bool false) (Node.bool true)) (Node.bool true)) :=
  ⟨⟨fun c => rfl, fun c => by cases c <;> rfl, rfl, rfl, by decide, rfl⟩,
   c2_apply_pointwise (fun p q => p && q) false (fun c => rfl)
     (fun c => by cases c <;> rfl) (by decide) rfl (by decide) rfl⟩

/-- Claim C2 counterexample: `BDD::apply` of conjunction on the
canonical terminals `true` and `true` returns no diagram, however much
fuel the recursion is given, so it cannot evaluate to anything. -/
theorem c2_counterexample :
    bddApplyDiverges (fun p q => p && q) false (Node.bool true)
      (Node.bool true) :=
  bddApply_diverges _ _ _ _

/-- Claim C3 (amended): on ordered inputs both reduce algorithms and
`ZDD::apply` return after finitely many steps, but the recursive `aux`
of `BDD::apply` never terminates: it returns `none` at every fuel
bound. -/
theorem c3_termination (op : Bool → Bool → Bool) (unit : Bool) {t a b : Node}
    (hord : Node.ordered t = true) (ha : Node.ordered a = true)
    (hb : Node.ordered b = true) :
    (∃ r, bddReduce t = some r) ∧ (∃ r, zddReduce t = some r) ∧
    (∃ r, zddApply op unit a b = some r) ∧
    bddApplyDiverges op unit a b :=
  ⟨⟨Node.bddCanon t, bddReduce_eq_canon hord⟩, zddReduce_isSome hord,
   zddApply_isSome op unit ha hb, bddApply_diverges op unit a b⟩

/-- Claim C3 witness: termination of the terminating algorithms on the
majority fixture and two terminal operands, and divergence of
`BDD::apply`'s `aux` there. -/
theorem c3_termination_witness :
    (Node.ordered Fixture.majority = true ∧
      Node.ordered (Node.bool false) = true ∧
      Node.ordered (Node.bool true) = true) ∧
    ((∃ r, bddReduce Fixture.majority = some r) ∧
     (∃ r, zddReduce Fixture.majority = some r) ∧
     (∃ r, zddApply (fun p q => p || q) true (Node.bool false)
        (Node.bool true) = some r) ∧
     bddApplyDiverges (fun p q => p || q) true (Node.bool false)
       (Node.bool true)) :=
  ⟨⟨by decide, rfl, rfl⟩,
   c3_termination (fun p q => p || q) true (by decide) rfl rfl⟩

/-- Claim C3 counterexample: `BDD::apply`'s `aux` does not terminate on
the canonical operand pair `false`, `false` — it yields no result at
any fuel bound. -/
theorem c3_counterexample :
    bddApplyDiverges (fun p q => p || q) true (Node.bool false)
      (Node.bool false) :=
  bddApply_diverges _ _ _ _

/-- Claim C4 (amended): `BDD::reduce` indeed returns the node
registered under the canonical id assigned to the input root;
`ZDD::reduce` returns `node[&next_id]`, which coincides with the node
registered under the root's id whenever the canonical form of the root
is a decision vertex, but not when it is a terminal (see the
counterexample). -/
theorem c4_root_pickup {t : Node} (hord : Node.ordered t = true) :
    (∃ ti fi nid i, bddReducePass t = some (ti, fi, nid) ∧
      flook t ti = some i ∧ flook i fi = some (Node.bddCanon t) ∧
      bddReduce t = some (Node.bddCanon t)) ∧
    (∀ w cl ch, Node.zddCanon t = Node.var w cl ch →
      ∃ ti fi nid i, zddReducePass t = some (ti, fi, nid) ∧
        flook t ti = some i ∧ flook i fi = some (Node.zddCanon t) ∧
        zddReduce t = some (Node.zddCanon t)) := by
  constructor
  · rcases bddReducePass_spec hord with ⟨ti, fi, nid, hpass, hinv⟩
    obtain ⟨hA, _⟩ := hinv
    rcases hA t (subNodes_self t) (fun w _ => List.not_mem_nil w) with
      ⟨i, hti, hfii, _⟩
    exact ⟨ti, fi, nid, i, hpass, hti, hfii, bddReduce_eq_canon hord⟩
  · intro w cl ch hc
    rcases zddReducePass_spec hord with ⟨ti, fi, nid, hpass, hinv, _⟩
    obtain ⟨hA, _⟩ := hinv
    rcases hA t (subNodes_self t) (fun u _ => List.not_mem_nil u) with
      ⟨i, hti, hfii, _, _⟩
    exact ⟨ti, fi, nid, i, hpass, hti, hfii, zddReduce_of_var hord hc⟩

/-- Claim C4 witness: the pickup contract instantiated at the ordered
tree `D(1, false, true)`, whose ZDD canonical form is a decision
vertex. -/
theorem c4_root_pickup_witness :
    Node.ordered (Node.var 1 (Node.bool false) (Node.bool true)) = true ∧
    ((∃ ti fi nid i,
      bddReducePass (Node.var 1 (Node.bool false) (Node.bool true)) =
        some (ti, fi, nid) ∧
      flook (Node.var 1 (Node.bool false) (Node.bool true)) ti = some i ∧
      flook i fi =
        some (Node.bddCanon (Node.var 1 (Node.bool false) (Node.bool true))) ∧
      bddReduce (Node.var 1 (Node.bool false) (Node.bool true)) =
        some (Node.bddCanon (Node.var 1 (Node.bool false) (Node.bool true)))) ∧
    (∀ w cl ch,
      Node.zddCanon (Node.var 1 (Node.bool false) (Node.bool true)) =
        Node.var w cl ch →
      ∃ ti fi nid i,
        zddReducePass (Node.var 1 (Node.bool false) (Node.bool true)) =
          some (ti, fi, nid) ∧
        flook (Node.var 1 (Node.bool false) (Node.bool true)) ti = some i ∧
        flook i fi =
          some (Node.zddCanon (Node.var 1 (Node.bool false) (Node.bool true))) ∧
        zddReduce (Node.var 1 (Node.bool false) (Node.bool true)) =
          some (Node.zddCanon (Node.var 1 (Node.bool false) (Node.bool true))))) :=
  ⟨by decide, c4_root_pickup (by decide)⟩

/-- Claim C4 counterexample: for `D(2, false, false)` the level pass of
`ZDD::reduce` registers the root under the canonical id 0, whose
registered node is the false terminal; the returned root is the
unreduced input tree, not that registered node. -/
theorem c4_counterexample :
    ∃ ti fi nid,
      zddReducePass (Node.var 2 (Node.bool false) (Node.bool false)) =
        some (ti, fi, nid) ∧
      flook (Node.var 2 (Node.bool false) (Node.bool false)) ti = some 0 ∧
      flook (0 : Nat) fi = some (Node.bool false) ∧
      zddReduce (Node.var 2 (Node.bool false) (Node.bool false)) =
        some (Node.var 2 (Node.bool false) (Node.bool false)) ∧
      Node.var 2 (Node.bool false) (Node.bool false) ≠ Node.bool false :=
  ⟨_, _, _, rfl, rfl, rfl, rfl, by decide⟩

/-- Claim C5 (amended): on ordered inputs both reduce algorithms and
`ZDD::apply` return normally, but `BDD::apply` never returns (its
recursion yields nothing at any fuel bound) and `ZDD::compose` is
`unimplemented!()` and panics on every call. -/
theorem c5_no_failure (op : Bool → Bool → Bool) (unit : Bool) {t a b : Node}
    (v : Nat) (hord : Node.ordered t = true) (ha : Node.ordered a = true)
    (hb : Node.ordered b = true) :
    (∃ r, bddReduce t = some r) ∧ (∃ r, zddReduce t = some r) ∧
    (∃ r, zddApply op unit a b = some r) ∧
    bddApplyDiverges op unit a b ∧
    zddCompose a b v = none :=
  ⟨⟨Node.bddCanon t, bddReduce_eq_canon hord⟩, zddReduce_isSome hord,
   zddApply_isSome op unit ha hb, bddApply_diverges op unit a b, rfl⟩

/-- Claim C5 witness: the failure profile instantiated at the
independent-set fixture and two small ordered operands. -/
theorem c5_no_failure_witness :
    (Node.ordered Fixture.independentSet = true ∧
      Node.ordered (Node.var 2 (Node.bool false) (Node.bool true)) = true ∧
      Node.ordered (Node.var 1 (Node.bool true) (Node.bool false)) = true) ∧
    ((∃ r, bddReduce Fixture.independentSet = some r) ∧
     (∃ r, zddReduce Fixture.independentSet = some r) ∧
     (∃ r, zddApply (fun p q => xor p q) false
        (Node.var 2 (Node.bool false) (Node.bool true))
        (Node.var 1 (Node.bool true) (Node.bool false)) = some r) ∧
     bddApplyDiverges (fun p q => xor p q) false
       (Node.var 2 (Node.bool false) (Node.bool true))
       (Node.var 1 (Node.bool true) (Node.bool false)) ∧
     zddCompose (Node.var 2 (Node.bool false) (Node.bool true))
       (Node.var 1 (Node.bool true) (Node.bool false)) 1 = none) :=
  ⟨⟨by decide, by decide, by decide⟩,
   c5_no_failure (fun p q => xor p q) false 1 (by decide) (by decide)
     (by decide)⟩

/-- Claim C5 counterexample: `ZDD::compose` panics (returns no value)
even on canonical terminal inputs. -/
theorem c5_counterexample :
    zddCompose (Node.bool true) (Node.bool true) 1 = none := rfl

/-- Claim C6 (confirmed): reduction is idempotent on ordered inputs —
reducing the result of either reduce again returns the very same
root. -/
theorem c6_reduce_idempotent {t : Node} (hord : Node.ordered t = true) :
    (∃ r, bddReduce t = some r ∧ bddReduce r = some r) ∧
    (∃ r, zddReduce t = some r ∧ zddReduce r = some r) := by
  constructor
  · refine ⟨Node.bddCanon t, bddReduce_eq_canon hord, ?_⟩
    rw [bddReduce_eq_canon (ordered_bddCanon hord), bddCanon_idem]
  · cases hc : Node.zddCanon t with
    | bool b =>
        exact ⟨t, zddReduce_of_const hord hc, zddReduce_of_const hord hc⟩
    | var w cl ch =>
        refine ⟨Node.zddCanon t, zddReduce_of_var hord hc, ?_⟩
        have h2 : Node.zddCanon (Node.zddCanon t) = Node.var w cl ch := by
          rw [zddCanon_idem, hc]
        rw [zddReduce_of_var (ordered_zddCanon hord) h2, zddCanon_idem]

/-- Claim C6 witness: idempotence at the majority fixture. -/
theorem c6_reduce_idempotent_witness :
    Node.ordered Fixture.majority = true ∧
    ((∃ r, bddReduce Fixture.majority = some r ∧ bddReduce r = some r) ∧
     (∃ r, zddReduce Fixture.majority = some r ∧ zddReduce r = some r)) :=
  ⟨by decide, c6_reduce_idempotent (by decide)⟩

/-- Claim C7 (confirmed): `satisfy_one` is true exactly when
`satisfy_all` is positive. -/
theorem c7_satisfy_one_iff (t : Node) :
    t.satisfyOne = true ↔ 0 < t.satisfyAll := by
  rw [satisfyOne_eq_satisfyAll_pos]
  exact decide_eq_true_iff

/-- Claim C8 (confirmed): the regression values of the example
fixtures — 18 satisfying assignments for the 6-variable cyclic
independent-set tree, 3 for the 3-variable majority tree, node count 1
and unsatisfiability for the false terminal, and `D(v, false, false)`
reducing to the false terminal itself. -/
theorem c8_fixture_values (v : Nat) :
    Fixture.independentSet.satisfyAll = 18 ∧
    Fixture.majority.satisfyAll = 3 ∧
    (Node.bool false).len = 1 ∧
    (Node.bool false).satisfyOne = false ∧
    bddReduce (Node.var v (Node.bool false) (Node.bool false)) =
      some (Node.bool false) ∧
    (Node.bool false).len = 1 := by
  refine ⟨by decide, by decide, by decide, rfl, ?_, by decide⟩
  have hord :
      Node.ordered (Node.var v (Node.bool false) (Node.bool false)) = true :=
    rfl
  rw [bddReduce_eq_canon hord]
  rfl

/-- Claim C9 (amended): the `dd.rs` exporter always writes both
terminal records, but the `node.rs` exporter writes a terminal record
exactly when that terminal value is reachable from the root; both
write one record per reachable decision vertex and one edge record
when the vertex's low and high ids coincide, two otherwise. -/
theorem c9_gv_export (t : Node) :
    GvRecord.termFalse ∈ ddGv t ∧ GvRecord.termTrue ∈ ddGv t ∧
    (GvRecord.termFalse ∈ nodeGv t ↔ Node.bool false ∈ t.subNodes) ∧
    (GvRecord.termTrue ∈ nodeGv t ↔ Node.bool true ∈ t.subNodes) ∧
    (∀ v l h, gvVarRecsOf t.subNodes.dedup (Node.var v l h) =
        [GvRecord.varRec (posOf (Node.var v l h) t.subNodes.dedup + 2) v] ∧
      (gvEdgesOf t.subNodes.dedup (Node.var v l h)).length =
        (if gvId t.subNodes.dedup l = gvId t.subNodes.dedup h then 1 else 2)) :=
  ⟨ddGv_termFalse t, ddGv_termTrue t, nodeGv_termFalse t, nodeGv_termTrue t,
   fun v l h => ⟨gvVarRecsOf_var _ v l h, gvEdgesOf_var_len _ v l h⟩⟩

/-- Claim C9 counterexample: the `node.rs` exporter omits the false
terminal record when the diagram is the true terminal alone. -/
theorem c9_counterexample :
    GvRecord.termFalse ∉ nodeGv (Node.bool true) := by decide

/-- Claim C10 (confirmed): `satisfy_all` of a decision vertex is
exactly the sum over its two children, with no correction for skipped
variables, so `D(2, true, true)` counts 2 while the true terminal
counts 1 — and reduction therefore does not preserve `satisfy_all`. -/
theorem c10_satisfy_all_paths (v : Nat) (l h : Node) :
    (Node.var v l h).satisfyAll = l.satisfyAll + h.satisfyAll ∧
    (Node.var 2 (Node.bool true) (Node.bool true)).satisfyAll = 2 ∧
    (Node.bool true).satisfyAll = 1 ∧
    ∃ r, bddReduce (Node.var 2 (Node.bool true) (Node.bool true)) = some r ∧
      r.satisfyAll ≠
        (Node.var 2 (Node.bool true) (Node.bool true)).satisfyAll :=
  ⟨rfl, rfl, rfl, Node.bool true, rfl, by decide⟩

end Ddir
